import Mathlib

/-!
Verification of the Suguru generator/solver core (models.py, solver.py,
group_generator.py, generator.py, difficulty.py).

The Python code is embedded shallowly:

* mutable `Cell` / `Group` / `Grid` objects become immutable structures and all
  mutation becomes explicit state passing;
* `Group.cells` in Python holds references to the very `Cell` objects stored in
  `Grid.cells`; here a group stores the `(row, col)` positions of its members
  and every access goes through the grid matrix, which models that aliasing
  exactly (mutating a cell through the grid is seen by its group and vice
  versa);
* Python `set` becomes `Finset Nat` (every set-iteration in the source whose
  order can influence the result is noted at its embedding site);
* the `Contradiction` exception raised by `Solver._place_value` becomes an
  `Except Contra` result that the embedded control flow propagates exactly as
  Python propagates the exception;
* `random.shuffle` becomes a Fisher-Yates shuffle driven by an explicit stream
  of naturals, so every randomized function takes the stream as an argument and
  returns the unconsumed remainder;
* `Grid.clone()` returns a structurally equal independent copy, so on the value
  level it is the identity; the aliasing content of `clone` (claim about deep
  copying) is verified separately on an explicit heap model at the end of the
  development.
-/

namespace Suguru

/-- Position of a cell: (row, col), zero-indexed as in the Python code. -/
abbrev Pos := Nat × Nat

/-- Embeds class `Cell` of models.py: position, optional value, solver-scoped
candidate set, and the id of the owning group. -/
structure Cell where
  row : Nat
  col : Nat
  value : Option Nat
  candidates : Finset Nat
  group_id : Nat
deriving DecidableEq

/-- Default cell used to totalize out-of-range matrix reads (Python would raise
`IndexError`; all verified statements assume in-range access). -/
def defaultCell : Cell := ⟨0, 0, none, ∅, 0⟩

/-- Embeds class `Group` of models.py.  `cells` holds the positions of the
member cells, in the order Python appended the cell objects. -/
structure Group where
  id : Nat
  size : Nat
  cells : List Pos
deriving DecidableEq

/-- Embeds class `Grid` of models.py.  `solution` mirrors the `solution`
attribute (a cell matrix or `None`). -/
structure Grid where
  rows : Nat
  cols : Nat
  cells : List (List Cell)
  groups : List Group
  solution : Option (List (List Cell)) := none
deriving DecidableEq

/-- Read `grid.cells[r][c]` (total; out-of-range reads give `defaultCell`). -/
def getC (g : Grid) (r c : Nat) : Cell :=
  (g.cells.getD r []).getD c defaultCell

/-- Write `grid.cells[r][c] = f(grid.cells[r][c])` — a field mutation of the
cell object at (r, c). -/
def modC (g : Grid) (r c : Nat) (f : Cell → Cell) : Grid :=
  { g with cells := g.cells.set r ((g.cells.getD r []).set c (f (getC g r c))) }

/-- Set `cell.value` at a position. -/
def setValue (g : Grid) (r c : Nat) (v : Option Nat) : Grid :=
  modC g r c (fun cell => { cell with value := v })

/-- All positions of a rows×cols grid in row-major order, the iteration order
of every `for r in range(rows): for c in range(cols)` loop in the source. -/
def allPositions (rows cols : Nat) : List Pos :=
  (List.range rows).flatMap (fun r => (List.range cols).map (fun c => (r, c)))

/-- Embeds `Grid.get_neighbors` (models.py): the in-bounds cells 8-adjacent to
(r, c), in the source's i, j ∈ {-1, 0, 1} iteration order; `neig[:8-oob]` in
the source returns exactly the cells collected. -/
def neighborPos (g : Grid) (r c : Nat) : List Pos :=
  ([-1, 0, 1] : List Int).flatMap (fun i =>
    ([-1, 0, 1] : List Int).filterMap (fun j =>
      if 0 ≤ (r : Int) + i ∧ (r : Int) + i < (g.rows : Int) ∧
          0 ≤ (c : Int) + j ∧ (c : Int) + j < (g.cols : Int) then
        if i = 0 ∧ j = 0 then none
        else some (((r : Int) + i).toNat, ((c : Int) + j).toNat)
      else none))

/-- The neighbor cell objects, as the Python method returns them. -/
def getNeighbors (g : Grid) (r c : Nat) : List Cell :=
  (neighborPos g r c).map (fun p => getC g p.1 p.2)

/-- Embeds `Grid.get_group`: the first group whose id matches the cell's
group_id (`None` — modelled by a default empty group — if absent). -/
def getGroup (g : Grid) (gid : Nat) : Group :=
  (g.groups.find? (fun grp => grp.id = gid)).getD ⟨gid, 0, []⟩

/-- Embeds `Grid.get_group_peers`: the member positions of the cell's group
other than the cell itself (Python filters by object identity, which for a
well-formed grid coincides with position inequality). -/
def groupPeers (g : Grid) (r c : Nat) : List Pos :=
  ((getGroup g (getC g r c).group_id).cells).filter (fun p => p ≠ (r, c))

/-- Embeds `Grid.get_candidates_for_cell`: {1..group.size} minus the values of
group peers and 8-neighbors (`discard(None)` is a no-op, as in Python). -/
def getCandidatesForCell (g : Grid) (r c : Nat) : Finset Nat :=
  let base := Finset.Icc 1 (getGroup g (getC g r c).group_id).size
  let afterPeers := (groupPeers g r c).foldl
    (fun s p => match (getC g p.1 p.2).value with
      | some v => s.erase v
      | none => s) base
  (neighborPos g r c).foldl
    (fun s p => match (getC g p.1 p.2).value with
      | some v => s.erase v
      | none => s) afterPeers

/-- Embeds `Grid.is_complete`. -/
def isComplete (g : Grid) : Bool :=
  (allPositions g.rows g.cols).all (fun p => (getC g p.1 p.2).value ≠ none)

/-- Embeds `Grid.is_valid`: no duplicate assigned value in any group and no
assigned cell sharing its value with an 8-neighbor. -/
def isValid (g : Grid) : Bool :=
  (g.groups.all (fun grp =>
    let vals := grp.cells.filterMap (fun p => (getC g p.1 p.2).value)
    vals.Nodup)) &&
  ((allPositions g.rows g.cols).all (fun p =>
    match (getC g p.1 p.2).value with
    | none => true
    | some v => (getNeighbors g p.1 p.2).all (fun n => n.value ≠ some v)))

/-- One step of the `Grid.find_best_empty_cell` scan: keep the first empty
cell with strictly fewest candidates seen so far. -/
def bestStep (g : Grid) (best : Option (Pos × Nat)) (p : Pos) :
    Option (Pos × Nat) :=
  if (getC g p.1 p.2).value = none then
    let n := (getCandidatesForCell g p.1 p.2).card
    match best with
    | none => some (p, n)
    | some (_, m) => if n < m then some (p, n) else best
  else best

/-- Embeds `Grid.find_best_empty_cell`: row-major scan keeping the first empty
cell with strictly fewest candidates (MRV); `none` when the grid is full. -/
def findBestEmptyCell (g : Grid) : Option Pos :=
  ((allPositions g.rows g.cols).foldl (bestStep g) none).map Prod.fst

/-- Number of empty cells; the termination / fuel measure for the searches. -/
def numEmpty (g : Grid) : Nat :=
  ((allPositions g.rows g.cols).filter (fun p => (getC g p.1 p.2).value = none)).length

/-- Deduplication keeping the first occurrence of each element, the iteration
order of a Python dict built by repeated insertion. -/
def firstOccur (l : List Nat) : List Nat :=
  l.foldl (fun acc x => if x ∈ acc then acc else acc ++ [x]) []

/-- Embeds `Grid.build_cells` (models.py): creates the groups (in first-
occurrence order of their ids in the row-major traversal, which is the
insertion order of Python's `group_sizes` dict) and the cell matrix. -/
def buildCells (rows cols : Nat) (group_map : List (List Nat)) : Grid :=
  let gidAt := fun (p : Pos) => (group_map.getD p.1 []).getD p.2 0
  let flat := (allPositions rows cols).map gidAt
  let gids := firstOccur flat
  let groups := gids.map (fun gid =>
    let members := (allPositions rows cols).filter (fun p => gidAt p = gid)
    Group.mk gid members.length members)
  let cells := (List.range rows).map (fun r =>
    (List.range cols).map (fun c => Cell.mk r c none ∅ (gidAt (r, c))))
  { rows := rows, cols := cols, cells := cells, groups := groups }

/-- Embeds `Grid.clone` on the value level: an independent structurally equal
copy whose `solution` attribute is reset (the constructor default; `clone`
copies cells, candidate sets and groups but never the `solution` field). -/
def clone (g : Grid) : Grid :=
  { g with solution := none }

/-! ## Solver (solver.py) -/

/-- Ascending list of the elements of a finite set of naturals (the iteration
order of a Python set of small ints); structurally recursive so that concrete
runs reduce inside the kernel. -/
def ascList (s : Finset Nat) : List Nat :=
  (List.range (s.sup id + 1)).filter (fun v => v ∈ s)

/-- Embeds the `Contradiction` exception class of solver.py. -/
inductive Contra where
  | contradiction
deriving DecidableEq

/-- The technique names added to `Solver.techniques_used` (string constants in
the source; an enumeration here). -/
inductive Tech where
  | naked_single
  | hidden_single
  | neighbor_elimination
  | naked_subsets
  | hidden_pairs
deriving DecidableEq

/-- Embeds `SolveResult` of solver.py. -/
structure SolveResult where
  solved : Bool
  grid : Grid
  techniques_used : Finset Tech
  difficulty : Nat
deriving DecidableEq

/-- Erase a value from the candidate set of the cell at a position. -/
def eraseCand (g : Grid) (r c : Nat) (v : Nat) : Grid :=
  modC g r c (fun cell => { cell with candidates := cell.candidates.erase v })

/-- One discard step of `Solver._place_value`: erase the placed value from the
candidate set at a position, raising `Contradiction` if that leaves an
unassigned cell with zero candidates. -/
def eraseCheck (v : Nat) (g : Grid) (p : Pos) : Except Contra Grid := do
  let g := eraseCand g p.1 p.2 v
  let cell := getC g p.1 p.2
  if cell.value = none ∧ cell.candidates.card = 0 then
    throw Contra.contradiction
  else
    pure g

/-- Embeds `Solver._place_value`: set the value, clear the cell's candidates,
discard the value from every group peer's and 8-neighbor's candidate set, and
raise `Contradiction` the moment an unassigned cell reaches zero candidates
(Python leaves the remaining cells untouched when it raises; the raised branch
discards the grid, exactly as the propagated exception abandons it). -/
def placeValue (g : Grid) (r c v : Nat) : Except Contra Grid := do
  let g := modC g r c (fun cell => { cell with value := some v, candidates := ∅ })
  let g ← (groupPeers g r c).foldlM (eraseCheck v) g
  (neighborPos g r c).foldlM (eraseCheck v) g

/-- Embeds `Solver._init_candidates`: every empty cell's candidate set becomes
{1..group.size} minus assigned peer and neighbor values — the same computation
as `get_candidates_for_cell` (the two code paths are line-for-line alike).
Only values are read and only candidate sets of empty cells are written, so the
sequential Python loop equals this fold. -/
def initStep (g : Grid) (p : Pos) : Grid :=
  if (getC g p.1 p.2).value = none then
    modC g p.1 p.2 (fun cell =>
      { cell with candidates := getCandidatesForCell g p.1 p.2 })
  else g

def initCandidates (g : Grid) : Grid :=
  (allPositions g.rows g.cols).foldl initStep g

/-- Solver state while techniques run: the working grid plus the
`techniques_used` set. -/
abbrev SState := Grid × Finset Tech

/-- One cell of the `Solver._naked_single` scan. -/
def nakedStep (acc : SState × Bool) (p : Pos) : Except Contra (SState × Bool) := do
  let ((g, ts), placed) := acc
  let cell := getC g p.1 p.2
  if cell.value = none ∧ cell.candidates.card = 1 then do
    let g ← placeValue g p.1 p.2 ((ascList cell.candidates).headD 0)
    pure ((g, insert Tech.naked_single ts), true)
  else
    pure acc

/-- Embeds `Solver._naked_single`: scan the cells row-major; place any empty
cell whose candidate set has exactly one element (`list(cell.candidates)[0]`).
Returns the updated state and whether anything was placed. -/
def nakedSingle (s : SState) : Except Contra (SState × Bool) :=
  (allPositions s.1.rows s.1.cols).foldlM nakedStep ((s, false))

/-- The empty member cells of a group holding a value as a candidate, read on
a fixed snapshot grid (the `count`/`holders` computations of `_hidden_single`,
`_neighbor_elimination` and `_hidden_pairs`). -/
def holdersOf (g0 : Grid) (grp : Group) (v : Nat) : List Pos :=
  grp.cells.filter (fun p =>
    (getC g0 p.1 p.2).value = none ∧ v ∈ (getC g0 p.1 p.2).candidates)

/-- One value of the `Solver._hidden_single` placement loop: place the value in
the first empty member cell currently holding it as a candidate. -/
def hiddenPlace (grp : Group) (acc : SState × Bool) (v : Nat) :
    Except Contra (SState × Bool) := do
  let ((g, ts), placed) := acc
  match grp.cells.find? (fun p =>
      (getC g p.1 p.2).value = none ∧ v ∈ (getC g p.1 p.2).candidates) with
  | some p => do
    let g ← placeValue g p.1 p.2 v
    pure ((g, insert Tech.hidden_single ts), true)
  | none => pure ((g, ts), placed)

/-- One group of `Solver._hidden_single`: count holders on the state at the
start of the group, then place each value with exactly one holder. -/
def hiddenGroupStep (acc : SState × Bool) (grp : Group) :
    Except Contra (SState × Bool) := do
  let ((g0, _), _) := acc
  let countOf := fun (v : Nat) => (holdersOf g0 grp v).length
  let toPlace := (List.range (grp.size + 1)).filter (fun v => countOf v = 1)
  toPlace.foldlM (hiddenPlace grp) acc

/-- Embeds `Solver._hidden_single`: per group, count (on the state at the start
of the group) how many empty member cells hold each value 0..size as a
candidate; for each value occurring exactly once, place it in the first empty
member cell that currently has it as a candidate. -/
def hiddenSingle (s : SState) : Except Contra (SState × Bool) :=
  s.1.groups.foldlM hiddenGroupStep ((s, false))

/-- Embeds `Solver._neighbor_elimination` (level 2).  The `common_cands` dict
is computed from the state at the start of each group; for every value held by
more than one empty member cell, the value is discarded from every cell in the
intersection of those cells' neighbor sets.  The dict/set iteration orders of
the source cannot influence the result (all removal decisions are precomputed
and removals of distinct values commute), so values are processed in ascending
order here. -/
def neighElimCell (v : Nat) (acc : SState × Bool) (q : Pos) : SState × Bool :=
  let ((g, ts), prog) := acc
  let cell := getC g q.1 q.2
  if cell.value = none ∧ v ∈ cell.candidates then
    ((eraseCand g q.1 q.2 v, insert Tech.neighbor_elimination ts), true)
  else acc

/-- One value of `_neighbor_elimination` inside a group: when more than one
empty member holds the value, discard it from every common neighbor. -/
def neighElimVal (g0 : Grid) (grp : Group) (acc : SState × Bool) (v : Nat) :
    SState × Bool :=
  let hs := holdersOf g0 grp v
  if 1 < hs.length then
    let commonNeigh := match hs with
      | [] => []
      | p0 :: rest =>
        (neighborPos g0 p0.1 p0.2).filter
          (fun q => rest.all (fun p => q ∈ neighborPos g0 p.1 p.2))
    commonNeigh.foldl (neighElimCell v) acc
  else acc

def neighElimGroup (acc : SState × Bool) (grp : Group) : SState × Bool :=
  let ((g0, _), _) := acc
  (List.range (grp.size + 1)).foldl (neighElimVal g0 grp) acc

def neighborElim (s : SState) : SState × Bool :=
  s.1.groups.foldl neighElimGroup ((s, false))

/-- All K-element combinations of a list in `itertools.combinations` order
(lexicographic in the positions of the source list). -/
def combos : Nat → List α → List (List α)
  | 0, _ => [[]]
  | _ + 1, [] => []
  | n + 1, x :: xs => (combos n xs).map (fun l => x :: l) ++ combos (n + 1) xs

/-- Embeds `Solver._naked_subsets_generalized` (level 3, `max_size=3`): per
group, for every combination of 2..3 empty member cells whose current
candidate union has exactly that many values, remove those values from every
other empty member cell.  The candidate unions are read from the evolving
state, exactly as the source reads `cell.candidates` live inside the
combination loop. -/
def nsRemoveCell (combo : List Pos) (union : Finset Nat) (acc : SState × Bool)
    (p : Pos) : SState × Bool :=
  let ((g, ts), prog) := acc
  let cell := getC g p.1 p.2
  if p ∉ combo ∧ cell.value = none then
    let newCands := cell.candidates \ union
    if newCands.card < cell.candidates.card then
      ((modC g p.1 p.2 (fun c0 => { c0 with candidates := newCands }),
        insert Tech.naked_subsets ts), true)
    else acc
  else acc

def nsCombo (grp : Group) (size : Nat) (acc : SState × Bool)
    (combo : List Pos) : SState × Bool :=
  let ((g, ts), prog) := acc
  let union := combo.foldl
    (fun u p => u ∪ (getC g p.1 p.2).candidates) (∅ : Finset Nat)
  if union.card = size then
    grp.cells.foldl (nsRemoveCell combo union) acc
  else acc

def nsSize (grp : Group) (empties : List Pos) (acc : SState × Bool)
    (size : Nat) : SState × Bool :=
  (combos size empties).foldl (nsCombo grp size) acc

def nsGroup (acc : SState × Bool) (grp : Group) : SState × Bool :=
  let ((g0, _), _) := acc
  let empties := grp.cells.filter (fun p => (getC g0 p.1 p.2).value = none)
  let sizes := (List.range (min (3 + 1) (empties.length + 1))).drop 2
  sizes.foldl (nsSize grp empties) acc

def nakedSubsets (s : SState) : SState × Bool :=
  s.1.groups.foldl nsGroup ((s, false))

/-- Embeds `Solver._hidden_pairs` (level 3, `max_size=3`): per group, compute
(from the state at the start of the group) the holder list of every value
1..size; for every distinct holder list of at most 3 cells realized by as many
values as it has cells (and at least 2), collapse each holder cell's candidates
by removing every value whose holder list differs from it.  Holder lists are
filters of `group.cells`, so `frozenset` equality in the source coincides with
list equality here; dict/set iteration orders cannot influence the result
(decisions are precomputed, removals commute). -/
def hpRemove (candsToRemove : Finset Nat) (acc : SState × Bool) (p : Pos) :
    SState × Bool :=
  let ((g, ts), prog) := acc
  let cell := getC g p.1 p.2
  let newCands := cell.candidates \ candsToRemove
  if newCands.card < cell.candidates.card then
    ((modC g p.1 p.2 (fun c0 => { c0 with candidates := newCands }),
      insert Tech.hidden_pairs ts), true)
  else acc

def hpKey (g0 : Grid) (grp : Group) (vals : List Nat) (acc : SState × Bool)
    (key : List Pos) : SState × Bool :=
  let count := (vals.filter (fun v => holdersOf g0 grp v = key)).length
  if 2 ≤ count ∧ count = key.length then
    let candsToRemove := vals.foldl
      (fun (s : Finset Nat) v => if holdersOf g0 grp v = key then s.erase v else s)
      (Finset.Icc 1 grp.size)
    key.foldl (hpRemove candsToRemove) acc
  else acc

def hpGroup (acc : SState × Bool) (grp : Group) : SState × Bool :=
  let ((g0, _), _) := acc
  let vals := (List.range grp.size).map (fun i => i + 1)
  let keys := (vals.map (holdersOf g0 grp)).filter (fun k => k.length ≤ 3)
  let distinctKeys := keys.foldl
    (fun acc k => if k ∈ acc then acc else acc ++ [k]) []
  distinctKeys.foldl (hpKey g0 grp vals) acc

def hiddenPairs (s : SState) : SState × Bool :=
  s.1.groups.foldl hpGroup ((s, false))

/-- Fuel bound for the technique loops: total candidate mass plus the number of
empty cells, which strictly decreases on every productive technique pass. -/
def solveMeasure (g : Grid) : Nat :=
  (allPositions g.rows g.cols).foldl
    (fun n p => n + (getC g p.1 p.2).candidates.card) 0 + numEmpty g

/-- The inner `while self._naked_single() or self._hidden_single()` loop of
`Solver.solve` (with Python's short-circuit `or`). -/
def level1Loop : Nat → SState → Bool → Except Contra (SState × Bool)
  | 0, s, ch => .ok (s, ch)
  | fuel + 1, s, ch => do
    let (s, p1) ← nakedSingle s
    if p1 then
      level1Loop fuel s true
    else do
      let (s, p2) ← hiddenSingle s
      if p2 then
        level1Loop fuel s true
      else
        .ok (s, ch)

/-- The level-2 block of `Solver.solve`: run `_neighbor_elimination` when the
ceiling allows it, merging its progress flag. -/
def level2Step (max_difficulty : Nat) (x : SState × Bool) : SState × Bool :=
  if 2 ≤ max_difficulty then
    let (s, p) := neighborElim x.1
    (s, x.2 || p)
  else x

/-- The level-3 block of `Solver.solve`: run `_naked_subsets_generalized`,
and `_hidden_pairs` only when it made no progress (Python's short-circuit
`or`), when the ceiling allows it. -/
def level3Step (max_difficulty : Nat) (x : SState × Bool) : SState × Bool :=
  if 3 ≤ max_difficulty then
    let (s, p1) := nakedSubsets x.1
    if p1 then (s, true)
    else
      let (s2, p2) := hiddenPairs s
      (s2, x.2 || p2)
  else x

/-- The outer `while changed` loop of `Solver.solve`, one fuel unit per
iteration.  Fuel exhaustion returns the current state; `solveMeasure` fuel is
always sufficient because every iteration that continues has made progress. -/
def solveLoop : Nat → Nat → SState → Except Contra SState
  | 0, _, s => .ok s
  | fuel + 1, max_difficulty, s => do
    let (s, changed) ← level1Loop (solveMeasure s.1 + 1) s false
    if isComplete s.1 then
      .ok s
    else
      let (s, changed) := level2Step max_difficulty (s, changed)
      if isComplete s.1 then
        .ok s
      else
        let (s, changed) := level3Step max_difficulty (s, changed)
        if isComplete s.1 then
          .ok s
        else
          if changed then solveLoop fuel max_difficulty s else .ok s

/-- Embeds `Solver.solve`: work on a clone (identity on the value level),
reset `techniques_used`, initialize candidates, run the technique loop, and
return a `SolveResult` whose `difficulty` field is the constant 1 of the
source (`difficulty=1  # for now, only level 1 implemented`). -/
def solve (g : Grid) (max_difficulty : Nat) : Except Contra SolveResult := do
  let g := initCandidates (clone g)
  let (g, ts) ← solveLoop (solveMeasure g + 1) max_difficulty (g, (∅ : Finset Tech))
  .ok ⟨isComplete g, g, ts, 1⟩

/-- Inner candidate loop of `Solver._count_solutions`: try each value,
accumulate the counts, and return `limit` the moment the accumulator reaches
it (the source then resets the cell and returns early). -/
def tryCands (rec : Grid → Nat) (g : Grid) (r c limit : Nat) :
    List Nat → Nat → Nat
  | [], acc => acc
  | v :: vs, acc =>
    let acc' := acc + rec (setValue g r c (some v))
    if limit ≤ acc' then limit else tryCands rec g r c limit vs acc'

/-- Embeds `Solver._count_solutions` with explicit fuel (`numEmpty g + 1` fuel
is always sufficient: every recursive call fills one empty cell).  A complete
grid counts as one solution; otherwise the MRV cell's candidates are tried in
ascending order (a Python set of small ints iterates ascending; the count is
order-independent regardless). -/
def countSolutionsF : Nat → Grid → Nat → Nat
  | 0, _, _ => 0
  | fuel + 1, g, limit =>
    if isComplete g then 1
    else
      match findBestEmptyCell g with
      | none => 1
      | some (r, c) =>
        tryCands (fun g' => countSolutionsF fuel g' limit) g r c limit
          (ascList (getCandidatesForCell g r c)) 0

/-- Embeds `Solver.has_unique_solution`: clone (value-level identity), count
solutions with `limit=2`, return whether the count is exactly 1. -/
def hasUniqueSolution (g : Grid) : Bool :=
  countSolutionsF (numEmpty g + 1) g 2 = 1

/-! ## Difficulty rater (difficulty.py) -/

/-- Embeds `rate` of difficulty.py: try `solve` at ceilings 1, 2, 3, 4 and
return the first that fully solves the board; 4 if none does.  A
`Contradiction` escaping `solve` escapes `rate` as well. -/
def rate (g : Grid) : Except Contra Nat := do
  let r1 ← solve g 1
  if r1.solved then .ok 1 else do
  let r2 ← solve g 2
  if r2.solved then .ok 2 else do
  let r3 ← solve g 3
  if r3.solved then .ok 3 else do
  let r4 ← solve g 4
  if r4.solved then .ok 4 else .ok 4

/-! ## Randomness

`random.shuffle` is modelled as drawing without replacement, each draw indexed
by the head of an explicit stream of naturals (a finite list; an exhausted
stream keeps drawing index 0).  Every outcome of the model is a permutation of
the input, and every permutation of the input is an outcome for some stream —
exactly the guarantee Python's seeded `random.shuffle` provides. -/

/-- Shuffle a list by drawing without replacement, structurally recursive on a
fuel equal to the list length (one recursion step removes one element). -/
def shuffleGo : Nat → List Nat → List α → List α × List Nat
  | _, rand, [] => ([], rand)
  | 0, rand, _ => ([], rand)
  | n + 1, rand, x :: xs =>
    let k := (rand.headD 0) % (x :: xs).length
    let y := (x :: xs).getD k x
    let rest := (x :: xs).eraseIdx k
    let (ys, rand') := shuffleGo n rand.tail rest
    (y :: ys, rand')

/-- Shuffle a list, consuming one stream element per draw. -/
def shuffleWith (rand : List Nat) (l : List α) : List α × List Nat :=
  shuffleGo l.length rand l

/-! ## Region layout generator (group_generator.py) -/

/-- Embeds the pair enumeration of `GroupGenerator.generate`: all horizontal
pairs in row-major order, then all vertical pairs. -/
def ggPairs (rows cols : Nat) : List (Pos × Pos) :=
  ((List.range rows).flatMap (fun r =>
    (List.range (cols - 1)).map (fun c => ((r, c), (r, c + 1))))) ++
  ((List.range (rows - 1)).flatMap (fun r =>
    (List.range cols).map (fun c => ((r, c), (r + 1, c)))))

/-- Embeds `GroupGenerator._merge_groups`: replace every occurrence of id `b`
by id `a` in the layout. -/
def ggMerge (layout : List (List Nat)) (a b : Nat) : List (List Nat) :=
  layout.map (fun row => row.map (fun gid => if gid = b then a else gid))

/-- Read a layout entry (total). -/
def layAt (layout : List (List Nat)) (p : Pos) : Nat :=
  (layout.getD p.1 []).getD p.2 0

/-- One step of the randomized merge pass: merge the two groups of an adjacent
cell pair when their combined size stays within `max_size`, merging the
smaller id's group into the larger one (ties merge the second into the
first). -/
def ggMergeStep (max_size : Nat) (st : List (List Nat) × (Nat → Nat))
    (pr : Pos × Pos) : List (List Nat) × (Nat → Nat) :=
  let (layout, sizes) := st
  let ga := layAt layout pr.1
  let gb := layAt layout pr.2
  if ga = gb then st
  else if sizes ga + sizes gb ≤ max_size then
    let a := if sizes ga < sizes gb then gb else ga
    let b := if sizes ga < sizes gb then ga else gb
    (ggMerge layout a b,
     fun g => if g = a then sizes ga + sizes gb else if g = b then 0 else sizes g)
  else st

/-- Embeds `GroupGenerator._get_adjacent_groups`: ids of groups sharing an
edge with `gid`, as a sorted list (the source returns a Python set whose
iteration order is implementation-defined; only the minimum-by-size is
consumed, and ties there are resolved by this ascending enumeration). -/
def adjacentGroups (layout : List (List Nat)) (gid : Nat) : List Nat :=
  let rows := layout.length
  let cols := (layout.getD 0 []).length
  let raw := (allPositions rows cols).flatMap (fun p =>
    if layAt layout p = gid then
      ([((p.1 : Int) - 1, (p.2 : Int)), ((p.1 : Int) + 1, (p.2 : Int)),
        ((p.1 : Int), (p.2 : Int) - 1), ((p.1 : Int), (p.2 : Int) + 1)]).filterMap
        (fun q =>
          if 0 ≤ q.1 ∧ q.1 < (rows : Int) ∧ 0 ≤ q.2 ∧ q.2 < (cols : Int) then
            let h := layAt layout (q.1.toNat, q.2.toNat)
            if h ≠ gid then some h else none
          else none)
    else [])
  (List.range (raw.foldr max 0 + 1)).filter (fun gid => gid ∈ raw)

/-- One repair pass of `GroupGenerator.generate`: merge every still-undersized
group into its smallest edge-adjacent group (skipping groups with no neighbor
or already absorbed earlier in the same pass). -/
def ggRepairPass (st : List (List Nat) × (Nat → Nat)) (small : List Nat) :
    List (List Nat) × (Nat → Nat) :=
  small.foldl
    (fun (st : List (List Nat) × (Nat → Nat)) small_gid =>
      let (layout, sizes) := st
      let neighbors := adjacentGroups layout small_gid
      match neighbors with
      | [] => st
      | n0 :: rest =>
        let smallest := rest.foldl (fun best g => if sizes g < sizes best then g else best) n0
        (ggMerge layout smallest small_gid,
         fun g => if g = smallest then sizes smallest + sizes small_gid
                  else if g = small_gid then 0 else sizes g))
    st

/-- The undersized-group repair loop with its `rows*cols` iteration cap; `none`
models the `return None` generation failure. -/
def ggRepair (min_size : Nat) (keys : List Nat) :
    Nat → List (List Nat) × (Nat → Nat) → Option (List (List Nat))
  | fuel, (layout, sizes) =>
    let small := keys.filter (fun gid => 0 < sizes gid ∧ sizes gid < min_size)
    if small.isEmpty then some layout
    else
      match fuel with
      | 0 => none
      | fuel + 1 => ggRepair min_size keys fuel (ggRepairPass (layout, sizes) small)

/-- Embeds `GroupGenerator.generate`: singleton layout, shuffled merge pass,
then the repair loop.  Returns the layout (or `none` on failure) and the
unconsumed random stream. -/
def ggGenerate (min_size max_size rows cols : Nat) (rand : List Nat) :
    Option (List (List Nat)) × List Nat :=
  let layout0 := (List.range rows).map (fun r =>
    (List.range cols).map (fun c => r * cols + c))
  let (pairs, rand') := shuffleWith rand (ggPairs rows cols)
  let sizes0 : Nat → Nat := fun gid => if gid < rows * cols then 1 else 0
  let (layout, sizes) := pairs.foldl (ggMergeStep max_size) (layout0, sizes0)
  (ggRepair min_size (List.range (rows * cols)) (rows * cols) (layout, sizes), rand')

/-! ## Puzzle generator (generator.py) -/

/-- Fill-search state: the random stream and the `early_failures` counter. -/
abbrev FillSt := List Nat × Nat

/-- Inner candidate loop of `Generator._fill_grid_recursive`: try the shuffled
candidates in order, undoing on failure (the grid passed on is the unmodified
one), threading the random stream and failure counter. -/
def fillTry (rec : Grid → FillSt → Except FillSt (Bool × Grid × FillSt))
    (g : Grid) (r c : Nat) :
    List Nat → FillSt → Except FillSt (Bool × Grid × FillSt)
  | [], st => .ok (false, g, st)
  | v :: vs, st => do
    let (ok, g', st) ← rec (setValue g r c (some v)) st
    if ok then .ok (true, g', st)
    else fillTry rec g r c vs st

/-- Embeds `Generator._fill_grid_recursive` with explicit fuel (`numEmpty+1`
always suffices: each recursive call fills a cell).  A cell with no legal
candidate bumps `early_failures`; past 100 the `FillTimeout` exception is
raised (carrying the state, so the caller can keep the stream). -/
def fillRec : Nat → Grid → FillSt → Except FillSt (Bool × Grid × FillSt)
  | 0, g, st => .ok (false, g, st)
  | fuel + 1, g, st =>
    match findBestEmptyCell g with
    | none => .ok (true, g, st)
    | some (r, c) =>
      let cands := getCandidatesForCell g r c
      if cands = ∅ then
        let st' : FillSt := (st.1, st.2 + 1)
        if 100 < st'.2 then .error st' else .ok (false, g, st')
      else
        let (clist, rand') := shuffleWith st.1 (ascList cands)
        fillTry (fun g' st' => fillRec fuel g' st') g r c clist (rand', st.2)

/-- Embeds `Generator._fill_grid`: run the recursive fill with a fresh failure
counter, converting `FillTimeout` into an ordinary `False` result. -/
def fillGrid (g : Grid) (rand : List Nat) : Bool × Grid × List Nat :=
  match fillRec (numEmpty g + 1) g (rand, 0) with
  | .ok (ok, g', st) => (ok, g', st.1)
  | .error st => (false, g, st.1)

/-- Embeds the removal loop of `Generator._remove_clues`: for each shuffled
filled cell — stopping the moment `max_removals` removals are accepted —
tentatively blank it, keep the removal when the propagation solver at the
target level fully solves the board and the completion is unique, restore the
saved value otherwise.  A `Contradiction` escaping `solve` escapes here. -/
def removeCluesLoop (target_difficulty max_removals : Nat) :
    List Pos → Grid → Nat → Except Contra (Grid × Nat)
  | [], g, cnt => .ok (g, cnt)
  | p :: rest, g, cnt =>
    if max_removals ≤ cnt then .ok (g, cnt)
    else do
      let val := (getC g p.1 p.2).value
      let g' := setValue g p.1 p.2 none
      let result ← solve (clone g') target_difficulty
      if result.solved ∧ hasUniqueSolution g' then
        removeCluesLoop target_difficulty max_removals rest g' (cnt + 1)
      else
        removeCluesLoop target_difficulty max_removals rest
          (setValue g' p.1 p.2 val) cnt

/-- Embeds `Generator._remove_clues`: collect the filled cells row-major,
shuffle them, cap accepted removals at `int(total_cells*removal_percentage)`
(the float is modelled as a rational p/q in lowest terms; `int` truncation of
the non-negative product is `⌊total*p/q⌋`, computed as a flooring integer
division so that concrete runs reduce), and run the loop. -/
def removeClues (g : Grid) (_solution : Grid) (target_difficulty : Nat)
    (removal_percentage : ℚ) (rand : List Nat) :
    Except Contra (Grid × List Nat) := do
  let filled := (allPositions g.rows g.cols).filter
    (fun p => (getC g p.1 p.2).value ≠ none)
  let (shuffled, rand') := shuffleWith rand filled
  let max_removals := (((shuffled.length : Int) * removal_percentage.num).fdiv
    (removal_percentage.den : Int)).toNat
  let (g', _) ← removeCluesLoop target_difficulty max_removals shuffled g 0
  .ok (g', rand')

/-- One attempt budget of `Generator.generate`: layout, build, fill, snapshot
the solution, remove clues, rate; return the board only when the measured
difficulty equals the target, otherwise recurse into the next attempt.
`generateAttempts 0` is the `return None` after the attempt loop. -/
def generateAttempts (rows cols difficulty : Nat) (removal_percentage : ℚ)
    (max_group_size min_group_size : Nat) :
    Nat → List Nat → Except Contra (Option Grid)
  | 0, _ => .ok none
  | n + 1, rand =>
    match ggGenerate min_group_size max_group_size rows cols rand with
    | (none, rand') =>
      (generateAttempts rows cols difficulty removal_percentage max_group_size
        min_group_size n rand')
    | (some layout, rand') =>
      let grid := buildCells rows cols layout
      match fillGrid grid rand' with
      | (false, _, rand'') =>
        (generateAttempts rows cols difficulty removal_percentage max_group_size
          min_group_size n rand'')
      | (true, grid, rand'') => do
        let solution := clone grid
        let grid := { grid with solution := some (clone grid).cells }
        let (grid, rand3) ← removeClues grid solution difficulty
          removal_percentage rand''
        let actual ← rate grid
        if actual = difficulty then .ok (some grid)
        else (generateAttempts rows cols difficulty removal_percentage
          max_group_size min_group_size n rand3)

/-- Embeds `Generator.generate` with its `MAX_ATTEMPTS = 25` budget (the seed
argument is abstracted by the explicit random stream). -/
def generate (rows cols difficulty : Nat) (removal_percentage : ℚ)
    (max_group_size min_group_size : Nat) (rand : List Nat) :
    Except Contra (Option Grid) :=
  generateAttempts rows cols difficulty removal_percentage max_group_size
    min_group_size 25 rand

/-! ## Specification-side definitions

These are stated from the spec's and the claims' words (constraints, complete
assignments, well-formedness of a built board), to be compared with the code
embeddings above. -/

/-- The position is inside the grid. -/
def inB (g : Grid) (p : Pos) : Prop := p.1 < g.rows ∧ p.2 < g.cols

/-- The cell matrix has the advertised dimensions. -/
def dimsOk (g : Grid) : Prop :=
  g.cells.length = g.rows ∧ ∀ row ∈ g.cells, row.length = g.cols

/-- Group bookkeeping of a built board: sizes match member counts, member
lists are duplicate-free and in bounds, members carry the group's id, ids are
unique, and every cell belongs to a group that lists it. -/
def groupsOk (g : Grid) : Prop :=
  (∀ grp ∈ g.groups, grp.size = grp.cells.length ∧ grp.cells.Nodup ∧
    ∀ p ∈ grp.cells, (p.1 < g.rows ∧ p.2 < g.cols) ∧
      (getC g p.1 p.2).group_id = grp.id) ∧
  (g.groups.map Group.id).Nodup ∧
  (∀ i : Fin g.rows, ∀ j : Fin g.cols,
    ∃ grp ∈ g.groups, grp.id = (getC g i.val j.val).group_id ∧
      (i.val, j.val) ∈ grp.cells)

/-- Well-formed board (the shape `build_cells` guarantees). -/
def WF (g : Grid) : Prop := dimsOk g ∧ groupsOk g

/-- The currently assigned values do not already violate a constraint: no
duplicate inside a group, every assigned value within 1..group.size, and no
8-neighbor sharing an assigned value. -/
def validAssigned (g : Grid) : Prop :=
  (∀ grp ∈ g.groups,
    (grp.cells.filterMap (fun p => (getC g p.1 p.2).value)).Nodup) ∧
  (∀ i : Fin g.rows, ∀ j : Fin g.cols,
    (getC g i.val j.val).value = none ∨
      ((getC g i.val j.val).value.getD 0 ∈
          Finset.Icc 1 (getGroup g (getC g i.val j.val).group_id).size ∧
        ∀ q ∈ neighborPos g i.val j.val,
          (getC g q.1 q.2).value ≠ (getC g i.val j.val).value))

instance (g : Grid) : Decidable (dimsOk g) := by
  unfold dimsOk; infer_instance

instance (g : Grid) : Decidable (groupsOk g) := by
  unfold groupsOk; infer_instance

instance (g : Grid) : Decidable (WF g) := by
  unfold WF; infer_instance

instance (g : Grid) : Decidable (validAssigned g) := by
  unfold validAssigned; infer_instance

/-- Number of cells of a layout carrying a given group id. -/
def layoutCount (layout : List (List Nat)) (gid : Nat) : Nat :=
  ((allPositions layout.length (layout.getD 0 []).length).filter
    (fun p => layAt layout p = gid)).length

/-- The spec's size guarantee for a returned layout: every group's cell count
lies within [min_size, max_size]. -/
def layoutSizesOk (min_size max_size : Nat) (layout : List (List Nat)) : Prop :=
  ∀ gid ∈ layout.flatten,
    min_size ≤ layoutCount layout gid ∧ layoutCount layout gid ≤ max_size

/-- Largest group size on the board, a bound for completion values. -/
def maxGroupSize (g : Grid) : Nat :=
  g.groups.foldr (fun grp m => max grp.size m) 0

/-- Total assignments of bounded values to every cell of a rows×cols board. -/
abbrev Asgn (rows cols B : Nat) := Fin rows → Fin cols → Fin (B + 1)

/-- Value of an assignment at a position (0 outside the board). -/
def aval {rows cols B : Nat} (f : Asgn rows cols B) (p : Pos) : Nat :=
  if h : p.1 < rows ∧ p.2 < cols then (f ⟨p.1, h.1⟩ ⟨p.2, h.2⟩ : Fin (B + 1)).val
  else 0

/-- 8-adjacency of two distinct positions (row and column each differ by at
most one). -/
def adjacent8 (p q : Pos) : Prop :=
  p ≠ q ∧ p.1 ≤ q.1 + 1 ∧ q.1 ≤ p.1 + 1 ∧ p.2 ≤ q.2 + 1 ∧ q.2 ≤ p.2 + 1

instance (p q : Pos) : Decidable (adjacent8 p q) := by
  unfold adjacent8; infer_instance

/-- A complete assignment that agrees with the grid's currently assigned
values and satisfies every constraint — each group's cells hold a permutation
of 1..group.size and no two 8-adjacent cells share a value (stated from the
claim's words). -/
def isCompletion (g : Grid) (f : Asgn g.rows g.cols (maxGroupSize g)) : Prop :=
  (∀ i : Fin g.rows, ∀ j : Fin g.cols,
    (getC g i.val j.val).value.getD (aval f (i.val, j.val)) =
      aval f (i.val, j.val)) ∧
  (∀ grp ∈ g.groups, (grp.cells.map (aval f)).Perm (List.range' 1 grp.size)) ∧
  (∀ i i' : Fin g.rows, ∀ j j' : Fin g.cols,
    adjacent8 (i.val, j.val) (i'.val, j'.val) →
      aval f (i.val, j.val) ≠ aval f (i'.val, j'.val))

instance (g : Grid) : DecidablePred (isCompletion g) := fun _ => by
  unfold isCompletion; infer_instance

/-- Number of complete valid assignments extending the grid's current values. -/
def ncompletions (g : Grid) : Nat :=
  (Finset.univ.filter (fun f : Asgn g.rows g.cols (maxGroupSize g) =>
    isCompletion g f)).card

/-- The assignment read off a grid's current values (meaningful when the grid
is complete): each cell's value, reduced into the value bound. -/
def gridAsgn (g : Grid) : Asgn g.rows g.cols (maxGroupSize g) :=
  fun i j => ⟨(getC g i.val j.val).value.getD 0 % (maxGroupSize g + 1),
    Nat.mod_lt _ (Nat.succ_pos _)⟩

/-! Invariants used to prove that the solver's propagation never raises a
`Contradiction` on a board that extends to a full valid solution. -/

/-- A solution witness for a board: a total value function that agrees with
every assigned cell, restricts to a permutation of 1..size on every group, and
never repeats across an 8-adjacent pair. -/
def Wit (g : Grid) (σ : Pos → Nat) : Prop :=
  (∀ r c w, r < g.rows → c < g.cols →
    (getC g r c).value = some w → σ (r, c) = w) ∧
  (∀ grp ∈ g.groups, (grp.cells.map σ).Perm (List.range' 1 grp.size)) ∧
  (∀ p q : Pos, p.1 < g.rows → p.2 < g.cols → q.1 < g.rows → q.2 < g.cols →
    adjacent8 p q → σ p ≠ σ q)

/-- Every empty cell's live candidate set still contains its witness value. -/
def CandInv (g : Grid) (σ : Pos → Nat) : Prop :=
  ∀ r c, r < g.rows → c < g.cols → (getC g r c).value = none →
    σ (r, c) ∈ (getC g r c).candidates

/-- No empty cell keeps a value already assigned inside its group. -/
def GroupExcl (g : Grid) : Prop :=
  ∀ grp ∈ g.groups, ∀ p ∈ grp.cells, ∀ q ∈ grp.cells,
    (getC g p.1 p.2).value = none →
    ∀ w, (getC g q.1 q.2).value = some w → w ∉ (getC g p.1 p.2).candidates

/-- Every empty cell's candidate set stays inside 1..(own group's size). -/
def CandBound (g : Grid) : Prop :=
  ∀ r c, r < g.rows → c < g.cols → (getC g r c).value = none →
    (getC g r c).candidates ⊆
      Finset.Icc 1 (getGroup g (getC g r c).group_id).size

/-- The full solver invariant. -/
def SInv (g : Grid) (σ : Pos → Nat) : Prop :=
  WF g ∧ Wit g σ ∧ CandInv g σ ∧ GroupExcl g ∧ CandBound g

/-- Two grids share dimensions and group list. -/
def shapeEq (h g : Grid) : Prop :=
  h.rows = g.rows ∧ h.cols = g.cols ∧ h.groups = g.groups

/-- Solver-step monotonicity: assignments persist and candidates only shrink. -/
def Mono (h g : Grid) : Prop :=
  (∀ r c w, (getC g r c).value = some w → (getC h r c).value = some w) ∧
  (∀ r c, (getC h r c).candidates ⊆ (getC g r c).candidates)

/-- A candidate-only modification: shape, values and group ids untouched,
candidate sets only shrink, dimension bookkeeping preserved. -/
def CandShrink (h g : Grid) : Prop :=
  shapeEq h g ∧
  (∀ r c, (getC h r c).value = (getC g r c).value) ∧
  (∀ r c, (getC h r c).group_id = (getC g r c).group_id) ∧
  (∀ r c, (getC h r c).candidates ⊆ (getC g r c).candidates) ∧
  (dimsOk g → dimsOk h)

/-! ## Heap model of `Grid.clone`

The value-level embedding cannot express aliasing, so the deep-copy claim
about `clone` is verified on an explicit object store: cell and group objects
live at addresses, the grid and the groups reference cells by address, and
`clone` allocates fresh objects exactly as `Grid.clone` does (one new cell per
position with a copied candidate set, one new group per group whose member
list points at the new cells through their row/col). -/

namespace Heap

/-- A `Cell` object on the heap. -/
structure HCell where
  row : Nat
  col : Nat
  value : Option Nat
  candidates : Finset Nat
  group_id : Nat
deriving DecidableEq

/-- A `Group` object on the heap; `cells` holds cell-object addresses. -/
structure HGroup where
  id : Nat
  size : Nat
  cells : List Nat
deriving DecidableEq

/-- A `Grid` object: an address matrix for the cells and the addresses of the
group objects. -/
structure HGrid where
  rows : Nat
  cols : Nat
  cellAddrs : List (List Nat)
  groupAddrs : List Nat
deriving DecidableEq

/-- The object store (cell objects and group objects, addressed by index). -/
structure Store where
  cells : List HCell
  groups : List HGroup
deriving DecidableEq

/-- Default cell object for out-of-range lookups. -/
def defaultHCell : HCell := ⟨0, 0, none, ∅, 0⟩

/-- Read a cell object. -/
def lookupCell (st : Store) (a : Nat) : HCell := st.cells.getD a defaultHCell

/-- Read a group object. -/
def lookupGroup (st : Store) (a : Nat) : HGroup := st.groups.getD a ⟨0, 0, []⟩

/-- Mutate a field of the cell object at an address (covers `cell.value = …`
and any in-place change of `cell.candidates`). -/
def updCell (st : Store) (a : Nat) (f : HCell → HCell) : Store :=
  { st with cells := st.cells.set a (f (lookupCell st a)) }

/-- Mutate a field of the group object at an address (covers any in-place
change of `group.cells`). -/
def updGroup (st : Store) (a : Nat) (f : HGroup → HGroup) : Store :=
  { st with groups := st.groups.set a (f (lookupGroup st a)) }

/-- All cell addresses a grid references directly. -/
def cellAddrsOf (G : HGrid) : List Nat := G.cellAddrs.flatten

/-- Embeds `Grid.clone` on the heap: step 1 allocates one fresh cell object
per position (row-major), copying row, col, group id, value, and a copy of the
candidate set; step 2 allocates one fresh group object per group, its member
list referencing the new cells via `new_grid.cells[cell.row][cell.col]`. -/
def cloneH (st : Store) (G : HGrid) : Store × HGrid :=
  let base := st.cells.length
  let newCells := (allPositions G.rows G.cols).map (fun p =>
    lookupCell st ((G.cellAddrs.getD p.1 []).getD p.2 0))
  let newCellAddrs := (List.range G.rows).map (fun r =>
    (List.range G.cols).map (fun c => base + r * G.cols + c))
  let gbase := st.groups.length
  let newGroups := G.groupAddrs.map (fun ga =>
    let grp := lookupGroup st ga
    HGroup.mk grp.id grp.size (grp.cells.map (fun a =>
      let cell := lookupCell st a
      (newCellAddrs.getD cell.row []).getD cell.col 0)))
  let newGroupAddrs := (List.range G.groupAddrs.length).map (fun k => gbase + k)
  (⟨st.cells ++ newCells, st.groups ++ newGroups⟩,
   ⟨G.rows, G.cols, newCellAddrs, newGroupAddrs⟩)

/-- Source-grid well-formedness for the clone theorem: every referenced
address exists in the store, and every cell object carries in-range
coordinates (as `build_cells` guarantees). -/
def sourceOk (st : Store) (G : HGrid) : Prop :=
  (∀ a ∈ cellAddrsOf G, a < st.cells.length) ∧
  (∀ ga ∈ G.groupAddrs, ga < st.groups.length ∧
    ∀ a ∈ (lookupGroup st ga).cells, a < st.cells.length ∧
      (lookupCell st a).row < G.rows ∧ (lookupCell st a).col < G.cols)

instance (st : Store) (G : HGrid) : Decidable (sourceOk st G) := by
  unfold sourceOk; infer_instance

end Heap

/-! ## Basic lemmas about the board embedding -/

theorem getD_set_at (l : List A) (i : Nat) (a d : A) (h : i < l.length) :
    (l.set i a).getD i d = a := by
  rw [List.getD_eq_getElem?_getD, List.getElem?_set_self h, Option.getD_some]

theorem getD_set_other (l : List A) {i j : Nat} (h : i ≠ j) (a d : A) :
    (l.set i a).getD j d = l.getD j d := by
  rw [List.getD_eq_getElem?_getD, List.getElem?_set_ne h,
    ← List.getD_eq_getElem?_getD]

theorem getD_mem (l : List A) {i : Nat} (d : A) (h : i < l.length) :
    l.getD i d ∈ l := by
  rw [List.getD_eq_getElem?_getD, List.getElem?_eq_getElem h, Option.getD_some]
  exact List.getElem_mem h

theorem set_getD_id (l : List A) (i : Nat) (d : A) (h : i < l.length) :
    l.set i (l.getD i d) = l := by
  apply List.ext_getElem?
  intro j
  rw [List.getElem?_set]
  by_cases hij : i = j
  · subst hij
    rw [if_pos rfl, if_pos h, List.getD_eq_getElem?_getD,
      List.getElem?_eq_getElem h, Option.getD_some]
  · rw [if_neg hij]

theorem modC_rows (g : Grid) (r c : Nat) (f : Cell → Cell) :
    (modC g r c f).rows = g.rows := rfl

theorem modC_cols (g : Grid) (r c : Nat) (f : Cell → Cell) :
    (modC g r c f).cols = g.cols := rfl

theorem modC_groups (g : Grid) (r c : Nat) (f : Cell → Cell) :
    (modC g r c f).groups = g.groups := rfl

theorem modC_oob_row (g : Grid) {r : Nat} (c : Nat) (f : Cell → Cell)
    (h : g.cells.length ≤ r) : modC g r c f = g := by
  unfold modC
  rw [List.set_eq_of_length_le h]

theorem modC_oob_col (g : Grid) {r c : Nat} (f : Cell → Cell)
    (hr : r < g.cells.length) (h : (g.cells.getD r []).length ≤ c) :
    modC g r c f = g := by
  unfold modC
  rw [List.set_eq_of_length_le h, set_getD_id _ _ _ hr]

theorem getC_modC_self' (g : Grid) {r c : Nat} (f : Cell → Cell)
    (hr : r < g.cells.length) (hc : c < (g.cells.getD r []).length) :
    getC (modC g r c f) r c = f (getC g r c) := by
  show ((g.cells.set r ((g.cells.getD r []).set c
    (f (getC g r c)))).getD r []).getD c defaultCell = _
  rw [getD_set_at _ _ _ _ hr, getD_set_at _ _ _ _ hc]

theorem rowLen (g : Grid) (hd : dimsOk g) {r : Nat} (hr : r < g.rows) :
    (g.cells.getD r []).length = g.cols := by
  have hr' : r < g.cells.length := by rw [hd.1]; exact hr
  exact hd.2 _ (getD_mem _ _ hr')

theorem getC_modC_self (g : Grid) (hd : dimsOk g) {r c : Nat}
    (hr : r < g.rows) (hc : c < g.cols) (f : Cell → Cell) :
    getC (modC g r c f) r c = f (getC g r c) := by
  have hr' : r < g.cells.length := by rw [hd.1]; exact hr
  have hc' : c < (g.cells.getD r []).length := by rw [rowLen g hd hr]; exact hc
  exact getC_modC_self' g f hr' hc'

theorem getC_modC_ne (g : Grid) {r c r' c' : Nat} (h : (r, c) ≠ (r', c'))
    (f : Cell → Cell) :
    getC (modC g r c f) r' c' = getC g r' c' := by
  show ((g.cells.set r _).getD r' []).getD c' defaultCell = _
  by_cases hr : r = r'
  · subst hr
    have hc : c ≠ c' := by
      intro hcc; exact h (by rw [hcc])
    by_cases hr' : r < g.cells.length
    · rw [getD_set_at _ _ _ _ hr', getD_set_other _ hc]
      rfl
    · rw [List.set_eq_of_length_le (Nat.le_of_not_lt hr')]
      rfl
  · rw [getD_set_other _ hr]
    rfl

theorem modC_modC (g : Grid) (r c : Nat) (f1 f2 : Cell → Cell) :
    modC (modC g r c f1) r c f2 = modC g r c (fun cell => f2 (f1 cell)) := by
  obtain ⟨rows, cols, cells, groups, sol⟩ := g
  simp only [modC, getC]
  by_cases hr : r < cells.length
  · by_cases hc : c < (cells.getD r []).length
    · rw [getD_set_at _ _ _ _ hr, getD_set_at _ _ _ _ hc, List.set_set,
        List.set_set]
    · simp only [List.set_eq_of_length_le (Nat.le_of_not_lt hc),
        set_getD_id _ _ _ hr]
  · simp only [List.set_eq_of_length_le (Nat.le_of_not_lt hr)]

theorem modC_self_eq (g : Grid) {r c : Nat} {f : Cell → Cell}
    (h : f (getC g r c) = getC g r c) : modC g r c f = g := by
  by_cases hr : r < g.cells.length
  · by_cases hc : c < (g.cells.getD r []).length
    · show { g with cells := g.cells.set r ((g.cells.getD r []).set c
        (f (getC g r c))) } = g
      rw [h]
      show { g with cells := g.cells.set r ((g.cells.getD r []).set c
        ((g.cells.getD r []).getD c defaultCell)) } = g
      rw [set_getD_id _ _ _ hc, set_getD_id _ _ _ hr]
    · exact modC_oob_col g f hr (Nat.le_of_not_lt hc)
  · exact modC_oob_row g c f (Nat.le_of_not_lt hr)

theorem dimsOk_modC (g : Grid) (hd : dimsOk g) (r c : Nat) (f : Cell → Cell) :
    dimsOk (modC g r c f) := by
  by_cases hr : r < g.cells.length
  · refine ⟨by simp [modC, List.length_set, hd.1], ?_⟩
    intro row hrow
    rcases List.mem_or_eq_of_mem_set hrow with hmem | heq
    · exact hd.2 _ hmem
    · rw [heq, List.length_set]
      exact hd.2 _ (getD_mem _ _ hr)
  · rw [modC_oob_row g c f (Nat.le_of_not_lt hr)]
    exact hd

theorem getC_setValue_cases (g : Grid) (r c : Nat) (v : Option Nat) (p : Pos) :
    getC (setValue g r c v) p.1 p.2 = getC g p.1 p.2 ∨
      getC (setValue g r c v) p.1 p.2 = { getC g p.1 p.2 with value := v } := by
  obtain ⟨p1, p2⟩ := p
  by_cases h : (r, c) = (p1, p2)
  · obtain ⟨h1, h2⟩ := Prod.mk.injEq r c p1 p2 ▸ h
    subst h1
    subst h2
    by_cases hr : r < g.cells.length
    · by_cases hc : c < (g.cells.getD r []).length
      · right
        exact getC_modC_self' g _ hr hc
      · left
        rw [setValue, modC_oob_col g _ hr (Nat.le_of_not_lt hc)]
    · left
      rw [setValue, modC_oob_row g c _ (Nat.le_of_not_lt hr)]
  · left
    exact getC_modC_ne g h _

theorem getC_setValue_candidates (g : Grid) (r c : Nat) (v : Option Nat)
    (p : Pos) :
    (getC (setValue g r c v) p.1 p.2).candidates =
      (getC g p.1 p.2).candidates := by
  rcases getC_setValue_cases g r c v p with h | h <;> rw [h]

theorem getC_setValue_group_id (g : Grid) (r c : Nat) (v : Option Nat)
    (p : Pos) :
    (getC (setValue g r c v) p.1 p.2).group_id =
      (getC g p.1 p.2).group_id := by
  rcases getC_setValue_cases g r c v p with h | h <;> rw [h]

theorem getC_setValue_self (g : Grid) (hd : dimsOk g) {r c : Nat}
    (hr : r < g.rows) (hc : c < g.cols) (v : Option Nat) :
    getC (setValue g r c v) r c = { getC g r c with value := v } :=
  getC_modC_self g hd hr hc _

theorem getC_setValue_ne (g : Grid) {r c r' c' : Nat}
    (h : (r, c) ≠ (r', c')) (v : Option Nat) :
    getC (setValue g r c v) r' c' = getC g r' c' :=
  getC_modC_ne g h _

theorem setValue_restore (g : Grid) (r c : Nat) :
    setValue (setValue g r c none) r c ((getC g r c).value) = g := by
  unfold setValue
  rw [modC_modC]
  exact modC_self_eq g rfl

/-! ## Claim C10 — `SolveResult.difficulty` is constantly 1 -/

/-- C10: every `SolveResult` returned by `Solver.solve` carries
`difficulty = 1`, for every grid and every `max_difficulty`, solved or not. -/
theorem solve_difficulty_constant_one (g : Grid) (d : Nat) (r : SolveResult)
    (h : solve g d = .ok r) : r.difficulty = 1 := by
  simp only [solve] at h
  cases hl : solveLoop (solveMeasure (initCandidates (clone g)) + 1) d
      (initCandidates (clone g), ∅) with
  | error e =>
    rw [hl] at h
    simp [bind, Except.bind] at h
  | ok s =>
    rw [hl] at h
    simp only [bind, Except.bind] at h
    cases h
    rfl

/-- Witness for C10 at a concrete input: the 1×2 board of one size-2 group
with (0,0)=1, solved at level 1. -/
theorem solve_difficulty_constant_one_witness :
    (solve (setValue (buildCells 1 2 [[0, 0]]) 0 0 (some 1)) 1).toOption.map
      SolveResult.difficulty = some 1 := by
  cases h : solve (setValue (buildCells 1 2 [[0, 0]]) 0 0 (some 1)) 1 with
  | error e =>
    have hok : (solve (setValue (buildCells 1 2 [[0, 0]]) 0 0 (some 1))
        1).toOption.isSome = true := by rfl
    rw [h] at hok
    simp [Except.toOption] at hok
  | ok r =>
    simp [Except.toOption,
      solve_difficulty_constant_one (setValue (buildCells 1 2 [[0, 0]]) 0 0
        (some 1)) 1 r h]

/-! ## Claim C9 — `solve` at ceiling 4 equals `solve` at ceiling 3 -/

theorem solveLoop_four_eq_three :
    ∀ fuel s, solveLoop fuel 4 s = solveLoop fuel 3 s := by
  intro fuel
  induction fuel with
  | zero => intro s; rfl
  | succ n ih =>
    intro s
    simp only [solveLoop, level2Step, level3Step,
      show ((2 : Nat) ≤ 4) = True from eq_true (by norm_num),
      show ((3 : Nat) ≤ 4) = True from eq_true (by norm_num),
      show ((2 : Nat) ≤ 3) = True from eq_true (by norm_num),
      show ((3 : Nat) ≤ 3) = True from eq_true (by norm_num),
      if_true, ih]

/-- C9: `Solver.solve` with `max_difficulty=4` returns exactly the same result
as with `max_difficulty=3` (there is no level-4 technique: the gates test only
`>= 2` and `>= 3`); consequently `rate` can return 4 only through its final
fallback, when even the level-4 run leaves the board unsolved. -/
theorem solve_four_eq_three :
    (∀ g : Grid, solve g 4 = solve g 3) ∧
    (∀ (g : Grid) (r : SolveResult), rate g = .ok 4 → solve g 4 = .ok r →
      r.solved = false) := by
  constructor
  · intro g
    simp only [solve, solveLoop_four_eq_three]
  · intro g r hrate hsolve
    unfold rate at hrate
    by_contra hs
    have hs' : r.solved = true := by
      cases hr : r.solved
      · exact absurd hr hs
      · rfl
    have h43 : solve g 3 = .ok r := by
      rw [← hsolve]
      simp only [solve, solveLoop_four_eq_three]
    cases h1 : solve g 1 with
    | error e => rw [h1] at hrate; simp [bind, Except.bind] at hrate
    | ok r1 =>
      rw [h1] at hrate
      simp only [bind, Except.bind] at hrate
      by_cases hs1 : r1.solved
      · simp [hs1] at hrate
      · simp only [hs1, if_false, Bool.false_eq_true] at hrate
        cases h2 : solve g 2 with
        | error e => rw [h2] at hrate; simp [bind, Except.bind] at hrate
        | ok r2 =>
          rw [h2] at hrate
          simp only [bind, Except.bind] at hrate
          by_cases hs2 : r2.solved
          · simp [hs2] at hrate
          · simp only [hs2, if_false, Bool.false_eq_true] at hrate
            rw [h43] at hrate
            simp only [bind, Except.bind, hs', if_true] at hrate
            exact absurd hrate (by simp)

/-- Witness for C9's second conjunct: the empty 1×2 one-group board stalls at
every level, so `rate` returns 4 through the fallback and the level-4 run is
unsolved. -/
theorem solve_four_eq_three_witness :
    rate (buildCells 1 2 [[0, 0]]) = .ok 4 ∧
    (solve (buildCells 1 2 [[0, 0]]) 4).toOption.map SolveResult.solved =
      some false := by
  constructor
  · rfl
  · cases h : solve (buildCells 1 2 [[0, 0]]) 4 with
    | error e =>
      have hok : (solve (buildCells 1 2 [[0, 0]]) 4).toOption.isSome = true :=
        by rfl
      rw [h] at hok
      simp [Except.toOption] at hok
    | ok r =>
      have hs := solve_four_eq_three.2 (buildCells 1 2 [[0, 0]]) r (by rfl) h
      simp [Except.toOption, hs]

/-! ## Claim C5 — `Contradiction` propagates out of `Solver.solve` -/

/-- C5 counterexample: on the 1×2 board of two singleton groups (both cells
empty), the naked-single placement of 1 at (0,0) empties the candidate set of
its neighbor (0,1), `_place_value` raises `Contradiction`, and `solve` — which
has no handler — propagates it to its caller. -/
theorem solve_contradiction_escapes :
    solve (buildCells 1 2 [[0, 1]]) 4 = .error Contra.contradiction := rfl

/-- C5 amended: nothing in the repository catches `Contradiction`; at every
`max_difficulty` (the level-1 loop runs unconditionally) `Solver.solve`
propagates it to the caller on such a board. -/
theorem solve_contradiction_escapes_all_levels :
    ∀ d, solve (buildCells 1 2 [[0, 1]]) d = .error Contra.contradiction :=
  fun _ => rfl

/-! ## Claim C2 — layout guarantees of `GroupGenerator.generate` -/

/-- C2 failing input: `GroupGenerator(min_size=2, max_size=2).generate(1, 3)`
with the pair list left in construction order by the shuffle.  The merge pass
builds a size-2 group and leaves a singleton; the repair loop then merges the
singleton into its only neighbor without checking `max_size`, returning a
layout whose single group has 3 cells — violating the claimed (and
docstring-promised, and test-asserted) bound `size ≤ max_size`. -/
theorem ggGenerate_max_size_violation :
    (ggGenerate 2 2 1 3 []).1 = some [[0, 0, 0]] ∧
    layoutCount [[0, 0, 0]] 0 = 3 ∧ ¬ layoutSizesOk 2 2 [[0, 0, 0]] := by
  refine ⟨rfl, rfl, ?_⟩
  intro h
  have h0 := (h 0 (by decide)).2
  rw [show layoutCount [[0, 0, 0]] 0 = 3 from rfl] at h0
  omega

/-! ## Claim C3 — a returned board rates exactly the requested difficulty -/

theorem generateAttempts_rate (rows cols D : Nat) (pct : ℚ) (mx mn : Nat) :
    ∀ (n : Nat) (rand : List Nat) (g : Grid),
      generateAttempts rows cols D pct mx mn n rand = .ok (some g) →
      rate g = .ok D := by
  intro n
  induction n with
  | zero =>
    intro rand g h
    simp [generateAttempts] at h
  | succ n ih =>
    intro rand g h
    simp only [generateAttempts] at h
    rcases hgg : ggGenerate mn mx rows cols rand with ⟨lay, rand1⟩
    rw [hgg] at h
    cases lay with
    | none => exact ih rand1 g h
    | some layout =>
      dsimp only at h
      rcases hfill : fillGrid (buildCells rows cols layout) rand1 with
        ⟨ok1, grid1, rand2⟩
      rw [hfill] at h
      cases ok1 with
      | false => exact ih rand2 g h
      | true =>
        dsimp only [bind, Except.bind] at h
        cases hrc : removeClues { grid1 with solution := some (clone grid1).cells }
            (clone grid1) D pct rand2 with
        | error e =>
          rw [hrc] at h
          simp at h
        | ok res =>
          obtain ⟨grid2, rand3⟩ := res
          rw [hrc] at h
          dsimp only at h
          cases hrate : rate grid2 with
          | error e =>
            rw [hrate] at h
            simp at h
          | ok lvl =>
            rw [hrate] at h
            dsimp only at h
            by_cases hlv : lvl = D
            · rw [if_pos hlv] at h
              cases h
              rw [← hlv]
              exact hrate
            · rw [if_neg hlv] at h
              exact ih rand3 g h

/-- C3: whenever `Generator.generate` returns a board rather than the failure
value, `rate` applied to that board equals the requested difficulty exactly; a
board whose measured difficulty differs is discarded, never returned. -/
theorem generate_rate_matches (rows cols D : Nat) (pct : ℚ) (mx mn : Nat)
    (rand : List Nat) (g : Grid)
    (h : generate rows cols D pct mx mn rand = .ok (some g)) :
    rate g = .ok D :=
  generateAttempts_rate rows cols D pct mx mn 25 rand g h

/-- Witness for C3: a successful 1×2 generation at difficulty 1 whose returned
board rates exactly 1. -/
theorem generate_rate_matches_witness :
    ∃ g, generate 1 2 1 1 2 2 [] = .ok (some g) ∧ rate g = .ok 1 :=
  ⟨_, rfl, generate_rate_matches 1 2 1 1 2 2 [] _ rfl⟩

/-! ## Claim C8 — `get_neighbors` characterization -/

theorem mem_neighborPos {g : Grid} {r c : Nat} (hr : r < g.rows)
    (hc : c < g.cols) (p : Pos) :
    p ∈ neighborPos g r c ↔
      p.1 < g.rows ∧ p.2 < g.cols ∧ adjacent8 (r, c) p := by
  obtain ⟨p1, p2⟩ := p
  simp only [neighborPos, List.mem_flatMap, List.mem_filterMap, List.mem_cons,
    List.not_mem_nil, or_false]
  constructor
  · rintro ⟨i, hi, j, hj, hij⟩
    by_cases hcond : 0 ≤ (r : Int) + i ∧ (r : Int) + i < (g.rows : Int) ∧
        0 ≤ (c : Int) + j ∧ (c : Int) + j < (g.cols : Int)
    · rw [if_pos hcond] at hij
      by_cases h00 : i = 0 ∧ j = 0
      · rw [if_pos h00] at hij
        exact absurd hij (by simp)
      · rw [if_neg h00] at hij
        have hpair := Option.some.inj hij
        have hp1 : ((r : Int) + i).toNat = p1 := congrArg Prod.fst hpair
        have hp2 : ((c : Int) + j).toNat = p2 := congrArg Prod.snd hpair
        obtain ⟨hc1, hc2, hc3, hc4⟩ := hcond
        refine ⟨by omega, by omega, ?_, by omega, by omega, by omega, by omega⟩
        intro heq
        have he1 : r = p1 := congrArg Prod.fst heq
        have he2 : c = p2 := congrArg Prod.snd heq
        exact h00 (by omega)
    · rw [if_neg hcond] at hij
      exact absurd hij (by simp)
  · rintro ⟨hb1, hb2, hne, ha1, ha2, ha3, ha4⟩
    have hner : ¬(r = p1 ∧ c = p2) := by
      intro hco
      exact hne (by rw [hco.1, hco.2])
    refine ⟨(p1 : Int) - r, by omega, (p2 : Int) - c, by omega, ?_⟩
    rw [if_pos (by omega : 0 ≤ (r : Int) + ((p1 : Int) - r) ∧
      (r : Int) + ((p1 : Int) - r) < (g.rows : Int) ∧
      0 ≤ (c : Int) + ((p2 : Int) - c) ∧
      (c : Int) + ((p2 : Int) - c) < (g.cols : Int))]
    rw [if_neg (by omega : ¬((p1 : Int) - r = 0 ∧ (p2 : Int) - c = 0))]
    have e1 : ((r : Int) + ((p1 : Int) - r)).toNat = p1 := by omega
    have e2 : ((c : Int) + ((p2 : Int) - c)).toNat = p2 := by omega
    rw [e1, e2]

theorem filterMap_three_length_le {A : Type} (f : Int → Option A)
    (hf : f 0 = none) : (List.filterMap f [-1, 0, 1]).length ≤ 2 := by
  simp only [List.filterMap_cons, List.filterMap_nil, hf]
  rcases hA : f (-1) with _ | a <;> rcases hB : f 1 with _ | b <;> simp

theorem flatMap_three_length_le {A : Type} (F : Int → List A)
    (h13 : ∀ i, (F i).length ≤ 3) (h2 : (F 0).length ≤ 2) :
    (([-1, 0, 1] : List Int).flatMap F).length ≤ 8 := by
  simp only [List.flatMap_cons, List.flatMap_nil, List.append_nil,
    List.length_append]
  have ha := h13 (-1)
  have hb := h13 1
  omega

theorem neighborPos_length_le (g : Grid) (r c : Nat) :
    (neighborPos g r c).length ≤ 8 := by
  apply flatMap_three_length_le
  · intro i
    calc _ ≤ ([-1, 0, 1] : List Int).length := List.length_filterMap_le _ _
    _ = 3 := rfl
  · apply filterMap_three_length_le
    rw [if_pos (⟨rfl, rfl⟩ : (0 : Int) = 0 ∧ (0 : Int) = 0), ite_self]

/-- C8 counterexample: on the built 1×2 board the corner cell has a single
neighbor, outside the claimed 3..8 range. -/
theorem getNeighbors_undercount :
    (getNeighbors (buildCells 1 2 [[0, 0]]) 0 0).length = 1 ∧
    ¬(3 ≤ (getNeighbors (buildCells 1 2 [[0, 0]]) 0 0).length) := by
  exact ⟨rfl, by decide⟩

/-- C8 amended: for every in-bounds cell, `get_neighbors` returns exactly the
cells at the in-bounds 8-adjacent positions — never the cell itself, never an
out-of-bounds position — and on boards with at least 2 rows and 2 columns the
count lies within 3..8 (on 1×n boards it can be smaller, as the counterexample
shows). -/
theorem getNeighbors_exact :
    (∀ (g : Grid) (r c : Nat), r < g.rows → c < g.cols →
      getNeighbors g r c = (neighborPos g r c).map (fun p => getC g p.1 p.2) ∧
      ∀ p : Pos, p ∈ neighborPos g r c ↔
        (p.1 < g.rows ∧ p.2 < g.cols ∧ adjacent8 (r, c) p)) ∧
    (∀ (g : Grid) (r c : Nat), r < g.rows → c < g.cols → 2 ≤ g.rows →
      2 ≤ g.cols →
      3 ≤ (getNeighbors g r c).length ∧ (getNeighbors g r c).length ≤ 8) := by
  constructor
  · intro g r c hr hc
    exact ⟨rfl, mem_neighborPos hr hc⟩
  · intro g r c hr hc hrows hcols
    have hlen : (getNeighbors g r c).length = (neighborPos g r c).length :=
      List.length_map _ _
    constructor
    · set r' := if r + 1 < g.rows then r + 1 else r - 1 with hr'
      set c' := if c + 1 < g.cols then c + 1 else c - 1 with hc'
      have hrr : r' < g.rows ∧ r' ≠ r ∧ (r ≤ r' + 1 ∧ r' ≤ r + 1) := by
        rw [hr']
        split <;> omega
      have hcc : c' < g.cols ∧ c' ≠ c ∧ (c ≤ c' + 1 ∧ c' ≤ c + 1) := by
        rw [hc']
        split <;> omega
      have m1 : (r, c') ∈ neighborPos g r c := by
        rw [mem_neighborPos hr hc]
        refine ⟨hr, hcc.1, ?_, by omega, by omega, hcc.2.2.1, hcc.2.2.2⟩
        intro heq
        exact hcc.2.1 (congrArg Prod.snd heq).symm
      have m2 : (r', c) ∈ neighborPos g r c := by
        rw [mem_neighborPos hr hc]
        refine ⟨hrr.1, hc, ?_, hrr.2.2.1, hrr.2.2.2, by omega, by omega⟩
        intro heq
        exact hrr.2.1 (congrArg Prod.fst heq).symm
      have m3 : (r', c') ∈ neighborPos g r c := by
        rw [mem_neighborPos hr hc]
        refine ⟨hrr.1, hcc.1, ?_, hrr.2.2.1, hrr.2.2.2, hcc.2.2.1, hcc.2.2.2⟩
        intro heq
        exact hrr.2.1 (congrArg Prod.fst heq).symm
      have hsub : ({(r, c'), (r', c), (r', c')} : Finset Pos) ⊆
          (neighborPos g r c).toFinset := by
        intro x hx
        rw [List.mem_toFinset]
        rcases Finset.mem_insert.mp hx with h1 | hx2
        · rw [h1]; exact m1
        rcases Finset.mem_insert.mp hx2 with h2 | h3
        · rw [h2]; exact m2
        · rw [Finset.mem_singleton.mp h3]; exact m3
      have hcard : ({(r, c'), (r', c), (r', c')} : Finset Pos).card = 3 := by
        apply Finset.card_eq_three.mpr
        refine ⟨(r, c'), (r', c), (r', c'), ?_, ?_, ?_, rfl⟩
        · intro heq
          exact hrr.2.1 (congrArg Prod.fst heq).symm
        · intro heq
          exact hrr.2.1 (congrArg Prod.fst heq).symm
        · intro heq
          exact hcc.2.1 (congrArg Prod.snd heq).symm
      rw [hlen]
      calc 3 = ({(r, c'), (r', c), (r', c')} : Finset Pos).card := hcard.symm
      _ ≤ (neighborPos g r c).toFinset.card := Finset.card_le_card hsub
      _ ≤ (neighborPos g r c).length := (neighborPos g r c).toFinset_card_le
    · rw [hlen]
      exact neighborPos_length_le g r c

/-- Witness for C8 at a concrete input: the 2×2 board's corner cell, whose
neighbor list is exactly the other three cells. -/
theorem getNeighbors_exact_witness :
    ((1, 1) ∈ neighborPos (buildCells 2 2 [[0, 0], [0, 0]]) 0 0 ↔
      ((1 : Nat) < 2 ∧ (1 : Nat) < 2 ∧ adjacent8 (0, 0) (1, 1))) ∧
    3 ≤ (getNeighbors (buildCells 2 2 [[0, 0], [0, 0]]) 0 0).length ∧
    (getNeighbors (buildCells 2 2 [[0, 0], [0, 0]]) 0 0).length ≤ 8 :=
  ⟨(getNeighbors_exact.1 (buildCells 2 2 [[0, 0], [0, 0]]) 0 0 (by decide)
      (by decide)).2 (1, 1),
   getNeighbors_exact.2 (buildCells 2 2 [[0, 0], [0, 0]]) 0 0 (by decide)
      (by decide) (by decide) (by decide)⟩

/-! ## Claim C7 — `Grid.clone` is a fully independent deep copy -/

theorem getD_map_range {B : Type} (f : Nat → B) (n r : Nat) (d : B)
    (h : r < n) : ((List.range n).map f).getD r d = f r := by
  rw [List.getD_eq_getElem?_getD, List.getElem?_map, List.getElem?_range h]
  rfl

theorem getD_append_left {B : Type} (l1 l2 : List B) {n : Nat} (d : B)
    (h : n < l1.length) : (l1 ++ l2).getD n d = l1.getD n d := by
  rw [List.getD_eq_getElem?_getD, List.getElem?_append_left h,
    ← List.getD_eq_getElem?_getD]

theorem getD_append_right {B : Type} (l1 l2 : List B) {n : Nat} (d : B)
    (h : l1.length ≤ n) : (l1 ++ l2).getD n d = l2.getD (n - l1.length) d := by
  rw [List.getD_eq_getElem?_getD, List.getElem?_append_right h,
    ← List.getD_eq_getElem?_getD]

theorem cloneH_cellAddr_ge {st : Heap.Store} {G : Heap.HGrid} {a : Nat}
    (ha : a ∈ Heap.cellAddrsOf (Heap.cloneH st G).2) : st.cells.length ≤ a := by
  simp only [Heap.cloneH, Heap.cellAddrsOf, List.mem_flatten, List.mem_map,
    List.mem_range] at ha
  obtain ⟨row, ⟨r, hr, hrow⟩, hmem⟩ := ha
  rw [← hrow] at hmem
  simp only [List.mem_map, List.mem_range] at hmem
  obtain ⟨c, hc, hcol⟩ := hmem
  omega

/-- C7: on the heap model, `clone` allocates only fresh cell and group
objects: every address reachable from the clone is outside the source's
addresses, the clone's groups reference only the new cells, the clone leaves
every source object intact, and mutating any field of a clone object (a
cell's value or candidate set, a group's member list) leaves every source
read unchanged. -/
theorem cloneH_deep_copy (st : Heap.Store) (G : Heap.HGrid)
    (h : Heap.sourceOk st G) :
    (∀ a, a < st.cells.length →
      Heap.lookupCell (Heap.cloneH st G).1 a = Heap.lookupCell st a) ∧
    (∀ ga, ga < st.groups.length →
      Heap.lookupGroup (Heap.cloneH st G).1 ga = Heap.lookupGroup st ga) ∧
    (∀ a ∈ Heap.cellAddrsOf (Heap.cloneH st G).2,
      a ∉ Heap.cellAddrsOf G) ∧
    (∀ ga ∈ (Heap.cloneH st G).2.groupAddrs, ga ∉ G.groupAddrs) ∧
    (∀ ga ∈ (Heap.cloneH st G).2.groupAddrs,
      ∀ a ∈ (Heap.lookupGroup (Heap.cloneH st G).1 ga).cells,
        a ∈ Heap.cellAddrsOf (Heap.cloneH st G).2) ∧
    (∀ a' ∈ Heap.cellAddrsOf (Heap.cloneH st G).2, ∀ f : Heap.HCell → Heap.HCell,
      ∀ a ∈ Heap.cellAddrsOf G,
        Heap.lookupCell (Heap.updCell (Heap.cloneH st G).1 a' f) a =
          Heap.lookupCell st a) ∧
    (∀ ga' ∈ (Heap.cloneH st G).2.groupAddrs, ∀ f : Heap.HGroup → Heap.HGroup,
      ∀ ga ∈ G.groupAddrs,
        Heap.lookupGroup (Heap.updGroup (Heap.cloneH st G).1 ga' f) ga =
          Heap.lookupGroup st ga) := by
  have hcellkeep : ∀ a, a < st.cells.length →
      Heap.lookupCell (Heap.cloneH st G).1 a = Heap.lookupCell st a := by
    intro a ha
    unfold Heap.lookupCell Heap.cloneH
    exact getD_append_left _ _ _ ha
  have hgroupkeep : ∀ ga, ga < st.groups.length →
      Heap.lookupGroup (Heap.cloneH st G).1 ga = Heap.lookupGroup st ga := by
    intro ga hga
    unfold Heap.lookupGroup Heap.cloneH
    exact getD_append_left _ _ _ hga
  have hgaddr : ∀ ga ∈ (Heap.cloneH st G).2.groupAddrs,
      st.groups.length ≤ ga := by
    intro ga hga
    simp only [Heap.cloneH, List.mem_map, List.mem_range] at hga
    obtain ⟨k, hk, hka⟩ := hga
    omega
  refine ⟨hcellkeep, hgroupkeep, ?_, ?_, ?_, ?_, ?_⟩
  · intro a ha hsrc
    have hge := cloneH_cellAddr_ge ha
    have hlt := h.1 a hsrc
    omega
  · intro ga hga hsrc
    have hge := hgaddr ga hga
    have hlt := (h.2 ga hsrc).1
    omega
  · intro ga hga a hmem
    simp only [Heap.cloneH, List.mem_map, List.mem_range] at hga
    obtain ⟨k, hk, hka⟩ := hga
    have hkey : Heap.lookupGroup (Heap.cloneH st G).1 ga =
        (G.groupAddrs.map (fun ga =>
          let grp := Heap.lookupGroup st ga
          Heap.HGroup.mk grp.id grp.size (grp.cells.map (fun a =>
            let cell := Heap.lookupCell st a
            (((List.range G.rows).map (fun r =>
              (List.range G.cols).map (fun c =>
                st.cells.length + r * G.cols + c))).getD cell.row []).getD
              cell.col 0)))).getD k ⟨0, 0, []⟩ := by
      unfold Heap.lookupGroup Heap.cloneH
      rw [← hka]
      rw [getD_append_right _ _ _ (by omega)]
      congr 1
      omega
    rw [hkey] at hmem
    have hklen : k < (G.groupAddrs.map (fun ga =>
        let grp := Heap.lookupGroup st ga
        Heap.HGroup.mk grp.id grp.size (grp.cells.map (fun a =>
          let cell := Heap.lookupCell st a
          (((List.range G.rows).map (fun r =>
            (List.range G.cols).map (fun c =>
              st.cells.length + r * G.cols + c))).getD cell.row []).getD
            cell.col 0)))).length := by
      rw [List.length_map]
      exact hk
    rw [List.getD_eq_getElem?_getD, List.getElem?_map,
      List.getElem?_eq_getElem hk] at hmem
    simp only [Option.map_some', Option.getD_some] at hmem
    simp only [List.mem_map] at hmem
    obtain ⟨a0, ha0, haeq⟩ := hmem
    have hsrcmem : G.groupAddrs[k] ∈ G.groupAddrs := List.getElem_mem hk
    have hcellin := (h.2 _ hsrcmem).2 a0 ha0
    rw [getD_map_range _ _ _ _ hcellin.2.1,
      getD_map_range _ _ _ _ hcellin.2.2] at haeq
    simp only [Heap.cloneH, Heap.cellAddrsOf, List.mem_flatten]
    refine ⟨(List.range G.cols).map (fun c => st.cells.length +
      (Heap.lookupCell st a0).row * G.cols + c), ?_, ?_⟩
    · simp only [List.mem_map, List.mem_range]
      exact ⟨(Heap.lookupCell st a0).row, hcellin.2.1, rfl⟩
    · simp only [List.mem_map, List.mem_range]
      exact ⟨(Heap.lookupCell st a0).col, hcellin.2.2, haeq⟩
  · intro a' ha' f a hsrc
    have hne : a' ≠ a := by
      have hge := cloneH_cellAddr_ge ha'
      have hlt := h.1 a hsrc
      omega
    have hstep : Heap.lookupCell (Heap.updCell (Heap.cloneH st G).1 a' f) a =
        Heap.lookupCell (Heap.cloneH st G).1 a := by
      unfold Heap.lookupCell Heap.updCell
      exact getD_set_other _ hne _ _
    rw [hstep]
    exact hcellkeep a (h.1 a hsrc)
  · intro ga' hga' f ga hsrc
    have hne : ga' ≠ ga := by
      have hge := hgaddr ga' hga'
      have hlt := (h.2 ga hsrc).1
      omega
    have hstep : Heap.lookupGroup (Heap.updGroup (Heap.cloneH st G).1 ga' f)
        ga = Heap.lookupGroup (Heap.cloneH st G).1 ga := by
      unfold Heap.lookupGroup Heap.updGroup
      exact getD_set_other _ hne _ _
    rw [hstep]
    exact hgroupkeep ga (h.2 ga hsrc).1

/-- Witness for C7 at a concrete input: a 1×2 source grid, two cell objects
and one group object. -/
theorem cloneH_deep_copy_witness :
    Heap.sourceOk ⟨[⟨0, 0, none, ∅, 0⟩, ⟨0, 1, none, ∅, 0⟩], [⟨0, 2, [0, 1]⟩]⟩
      ⟨1, 2, [[0, 1]], [0]⟩ ∧
    (∀ a ∈ Heap.cellAddrsOf (Heap.cloneH
        ⟨[⟨0, 0, none, ∅, 0⟩, ⟨0, 1, none, ∅, 0⟩], [⟨0, 2, [0, 1]⟩]⟩
        ⟨1, 2, [[0, 1]], [0]⟩).2,
      a ∉ Heap.cellAddrsOf (⟨1, 2, [[0, 1]], [0]⟩ : Heap.HGrid)) := by
  constructor
  · decide
  · exact (cloneH_deep_copy
      ⟨[⟨0, 0, none, ∅, 0⟩, ⟨0, 1, none, ∅, 0⟩], [⟨0, 2, [0, 1]⟩]⟩
      ⟨1, 2, [[0, 1]], [0]⟩ (by decide)).2.2.1

/-! ## Claim C4 — clue-removal keeps a removal iff solvable-at-level and
unique, restores exactly otherwise, and stops at the removal cap -/

/-- C4: one step of `_remove_clues` keeps the tentative blank exactly when the
propagation solver at the target difficulty fully solves the board and the
completion is unique, and otherwise continues with the grid restored exactly
to its previous state (conjunct 2 is the restoration identity); the loop
stops, leaving the grid untouched, as soon as `max_removals` removals are
accepted (conjuncts 3 and 4: the accepted count never exceeds the cap, where
`remove_clues` instantiates the cap to `int(total_cells*removal_percentage)`). -/
theorem removeClues_step_spec :
    (∀ (d maxR : Nat) (p : Pos) (rest : List Pos) (g : Grid) (cnt : Nat)
      (res : SolveResult),
      cnt < maxR →
      solve (clone (setValue g p.1 p.2 none)) d = .ok res →
      removeCluesLoop d maxR (p :: rest) g cnt =
        (if res.solved ∧ hasUniqueSolution (setValue g p.1 p.2 none) then
          removeCluesLoop d maxR rest (setValue g p.1 p.2 none) (cnt + 1)
        else
          removeCluesLoop d maxR rest g cnt)) ∧
    (∀ (g : Grid) (r c : Nat),
      setValue (setValue g r c none) r c ((getC g r c).value) = g) ∧
    (∀ (d maxR : Nat) (p : Pos) (rest : List Pos) (g : Grid) (cnt : Nat),
      maxR ≤ cnt →
      removeCluesLoop d maxR (p :: rest) g cnt = .ok (g, cnt)) ∧
    (∀ (d maxR : Nat) (l : List Pos) (g : Grid) (cnt : Nat) (g' : Grid)
      (cnt' : Nat), removeCluesLoop d maxR l g cnt = .ok (g', cnt') →
      cnt ≤ maxR → cnt' ≤ maxR) := by
  refine ⟨?_, setValue_restore, ?_, ?_⟩
  · intro d maxR p rest g cnt res hcnt hsolve
    simp only [removeCluesLoop, if_neg (Nat.not_le.mpr hcnt), bind,
      Except.bind]
    rw [hsolve]
    rw [setValue_restore]
  · intro d maxR p rest g cnt hcnt
    simp only [removeCluesLoop, if_pos hcnt]
  · intro d maxR l
    induction l with
    | nil =>
      intro g cnt g' cnt' h hle
      simp only [removeCluesLoop] at h
      cases h
      exact hle
    | cons p rest ih =>
      intro g cnt g' cnt' h hle
      simp only [removeCluesLoop] at h
      by_cases hc : maxR ≤ cnt
      · rw [if_pos hc] at h
        cases h
        exact hle
      · rw [if_neg hc] at h
        simp only [bind, Except.bind] at h
        cases hs : solve (clone (setValue g p.1 p.2 none)) d with
        | error e =>
          rw [hs] at h
          simp at h
        | ok res =>
          rw [hs] at h
          dsimp only at h
          by_cases hk : res.solved = true ∧
              hasUniqueSolution (setValue g p.1 p.2 none) = true
          · rw [if_pos hk] at h
            exact ih _ _ _ _ h (by omega)
          · rw [if_neg hk] at h
            exact ih _ _ _ _ h hle

/-- Witness for C4 at a concrete input: a filled 1×2 one-group board; blanking
(0,0) is solvable at level 1 and unique, so the removal is kept. -/
theorem removeClues_step_spec_witness :
    ∃ res, solve (clone (setValue (setValue (setValue
        (buildCells 1 2 [[0, 0]]) 0 0 (some 1)) 0 1 (some 2)) 0 0 none)) 1 =
      .ok res ∧
    removeCluesLoop 1 2 [(0, 0)]
        (setValue (setValue (buildCells 1 2 [[0, 0]]) 0 0 (some 1)) 0 1
          (some 2)) 0 =
      (if res.solved ∧ hasUniqueSolution (setValue (setValue (setValue
          (buildCells 1 2 [[0, 0]]) 0 0 (some 1)) 0 1 (some 2)) 0 0 none) then
        removeCluesLoop 1 2 [] (setValue (setValue (setValue
          (buildCells 1 2 [[0, 0]]) 0 0 (some 1)) 0 1 (some 2)) 0 0 none) 1
      else
        removeCluesLoop 1 2 []
          (setValue (setValue (buildCells 1 2 [[0, 0]]) 0 0 (some 1)) 0 1
            (some 2)) 0) :=
  ⟨_, rfl, removeClues_step_spec.1 1 2 (0, 0) []
    (setValue (setValue (buildCells 1 2 [[0, 0]]) 0 0 (some 1)) 0 1 (some 2))
    0 _ (by decide) rfl⟩

/-! ## Claim C1 — infrastructure: positions, candidates, groups -/

theorem mem_allPositions {rows cols : Nat} {p : Pos} :
    p ∈ allPositions rows cols ↔ p.1 < rows ∧ p.2 < cols := by
  obtain ⟨p1, p2⟩ := p
  simp [allPositions, List.mem_flatMap, List.mem_range, List.mem_map]

theorem nodup_allPositions (rows cols : Nat) :
    (allPositions rows cols).Nodup := by
  rw [allPositions, List.nodup_flatMap]
  constructor
  · intro r _
    apply List.Nodup.map ?_ (List.nodup_range cols)
    intro a b h
    exact congrArg Prod.snd h
  · apply (List.nodup_range rows).imp
    intro a b hab x hxa hxb
    simp only [List.mem_map, List.mem_range] at hxa hxb
    obtain ⟨c1, _, hc1⟩ := hxa
    obtain ⟨c2, _, hc2⟩ := hxb
    exact hab ((congrArg Prod.fst hc1).trans (congrArg Prod.fst hc2).symm)

theorem mem_eraseFold (g : Grid) (l : List Pos) (s : Finset Nat) (v : Nat) :
    v ∈ l.foldl (fun s p => match (getC g p.1 p.2).value with
      | some w => s.erase w
      | none => s) s ↔ v ∈ s ∧ ∀ p ∈ l, (getC g p.1 p.2).value ≠ some v := by
  induction l generalizing s with
  | nil => simp
  | cons p l ih =>
    simp only [List.foldl_cons, List.forall_mem_cons]
    rcases hval : (getC g p.1 p.2).value with _ | w
    · rw [ih]
      simp [hval]
    · rw [ih]
      simp only [hval, Finset.mem_erase, ne_eq, Option.some.injEq]
      constructor
      · rintro ⟨⟨hvw, hvs⟩, hl⟩
        exact ⟨hvs, fun hwv => hvw hwv.symm, hl⟩
      · rintro ⟨hvs, hwv, hl⟩
        exact ⟨⟨fun h => hwv h.symm, hvs⟩, hl⟩

theorem mem_getCandidatesForCell (g : Grid) (r c v : Nat) :
    v ∈ getCandidatesForCell g r c ↔
      (1 ≤ v ∧ v ≤ (getGroup g (getC g r c).group_id).size) ∧
      (∀ p ∈ groupPeers g r c, (getC g p.1 p.2).value ≠ some v) ∧
      (∀ p ∈ neighborPos g r c, (getC g p.1 p.2).value ≠ some v) := by
  unfold getCandidatesForCell
  rw [mem_eraseFold, mem_eraseFold, Finset.mem_Icc]
  tauto

theorem adjacent8_symm {p q : Pos} (h : adjacent8 p q) : adjacent8 q p := by
  obtain ⟨hne, h1, h2, h3, h4⟩ := h
  exact ⟨fun he => hne he.symm, h2, h1, h4, h3⟩

theorem mem_neighborPos_symm {g : Grid} {r c : Nat} (hr : r < g.rows)
    (hc : c < g.cols) {q : Pos} (hq : q ∈ neighborPos g r c) :
    (r, c) ∈ neighborPos g q.1 q.2 := by
  rw [mem_neighborPos hr hc] at hq
  rw [mem_neighborPos hq.1 hq.2.1]
  exact ⟨hr, hc, adjacent8_symm hq.2.2⟩

theorem find?_id_nodup {grp : Group} :
    ∀ L : List Group, (L.map Group.id).Nodup → grp ∈ L →
      L.find? (fun x => x.id = grp.id) = some grp := by
  intro L
  induction L with
  | nil => intro _ h; exact absurd h (List.not_mem_nil _)
  | cons x L ih =>
    intro hnd hmem
    by_cases hx : x.id = grp.id
    · rw [List.find?_cons_of_pos _ (by simp [hx])]
      rcases List.mem_cons.mp hmem with rfl | hL
      · rfl
      · exfalso
        have : grp.id ∈ L.map Group.id := List.mem_map_of_mem _ hL
        rw [← hx] at this
        exact (List.nodup_cons.mp hnd).1 this
    · rw [List.find?_cons_of_neg _ (by simp [hx])]
      apply ih (List.nodup_cons.mp hnd).2
      rcases List.mem_cons.mp hmem with rfl | hL
      · exact absurd rfl hx
      · exact hL

theorem getGroup_eq_of_mem {g : Grid} (hwf : WF g) {grp : Group}
    (hgrp : grp ∈ g.groups) : getGroup g grp.id = grp := by
  unfold getGroup
  rw [find?_id_nodup g.groups hwf.2.2.1 hgrp]
  rfl

theorem cell_group {g : Grid} (hwf : WF g) {r c : Nat} (hp1 : r < g.rows)
    (hp2 : c < g.cols) :
    getGroup g (getC g r c).group_id ∈ g.groups ∧
    (r, c) ∈ (getGroup g (getC g r c).group_id).cells := by
  obtain ⟨grp, hgrp, hid, hmem⟩ := hwf.2.2.2 ⟨r, hp1⟩ ⟨c, hp2⟩
  rw [← hid, getGroup_eq_of_mem hwf hgrp]
  exact ⟨hgrp, hmem⟩

theorem completion_agrees {g : Grid} {f : Asgn g.rows g.cols (maxGroupSize g)}
    (hf : isCompletion g f) {r c : Nat} (h1 : r < g.rows) (h2 : c < g.cols)
    {w : Nat} (hw : (getC g r c).value = some w) : aval f (r, c) = w := by
  have h := hf.1 ⟨r, h1⟩ ⟨c, h2⟩
  rw [hw, Option.getD_some] at h
  exact h.symm

theorem size_le_maxGroupSize {g : Grid} {grp : Group} (h : grp ∈ g.groups) :
    grp.size ≤ maxGroupSize g := by
  suffices H : ∀ L : List Group, grp ∈ L →
      grp.size ≤ L.foldr (fun grp m => max grp.size m) 0 from H g.groups h
  intro L hL
  induction L with
  | nil => exact absurd hL (List.not_mem_nil _)
  | cons x L ih =>
    rw [List.foldr_cons]
    rcases List.mem_cons.mp hL with rfl | hmem
    · exact Nat.le_max_left _ _
    · exact Nat.le_trans (ih hmem) (Nat.le_max_right _ _)

theorem perm_range'_of_nodup {l : List Nat} {N : Nat} (hnd : l.Nodup)
    (hlen : l.length = N) (hmem : ∀ v ∈ l, 1 ≤ v ∧ v ≤ N) :
    l.Perm (List.range' 1 N) := by
  have hsub : l.toFinset ⊆ Finset.Icc 1 N := by
    intro v hv
    rw [List.mem_toFinset] at hv
    rw [Finset.mem_Icc]
    exact hmem v hv
  have hIcc : l.toFinset = Finset.Icc 1 N := by
    apply Finset.eq_of_subset_of_card_le hsub
    rw [List.toFinset_card_of_nodup hnd, hlen, Nat.card_Icc]
    omega
  have hmemiff : ∀ a : Nat, a ∈ l ↔ a ∈ List.range' 1 N := by
    intro a
    rw [← List.mem_toFinset, hIcc, Finset.mem_Icc, List.mem_range'_1]
    omega
  rw [List.perm_iff_count]
  intro a
  by_cases ha : a ∈ l
  · rw [List.count_eq_one_of_mem hnd ha,
      List.count_eq_one_of_mem (List.nodup_range' _ _) ((hmemiff a).mp ha)]
  · rw [List.count_eq_zero_of_not_mem ha,
      List.count_eq_zero_of_not_mem (fun hr => ha ((hmemiff a).mpr hr))]

theorem completion_distinct {g : Grid} {f : Asgn g.rows g.cols (maxGroupSize g)}
    (hf : isCompletion g f) {grp : Group} (hgrp : grp ∈ g.groups) {p q : Pos}
    (hp : p ∈ grp.cells) (hq : q ∈ grp.cells) (hne : p ≠ q) :
    aval f p ≠ aval f q := by
  have hperm := hf.2.1 grp hgrp
  have hnd : (grp.cells.map (aval f)).Nodup :=
    hperm.nodup_iff.mpr (List.nodup_range' _ _)
  intro heq
  exact hne (List.inj_on_of_nodup_map hnd hp hq heq)

theorem completion_val_range {g : Grid} (hwf : WF g)
    {f : Asgn g.rows g.cols (maxGroupSize g)} (hf : isCompletion g f)
    {r c : Nat} (hp1 : r < g.rows) (hp2 : c < g.cols) :
    1 ≤ aval f (r, c) ∧
      aval f (r, c) ≤ (getGroup g (getC g r c).group_id).size := by
  obtain ⟨hgmem, hpmem⟩ := cell_group hwf hp1 hp2
  have hperm := hf.2.1 _ hgmem
  have hmm : aval f (r, c) ∈ (getGroup g (getC g r c).group_id).cells.map
      (aval f) := List.mem_map_of_mem _ hpmem
  rw [hperm.mem_iff, List.mem_range'_1] at hmm
  omega

theorem completion_val_mem_candidates {g : Grid} (hwf : WF g)
    {f : Asgn g.rows g.cols (maxGroupSize g)} (hf : isCompletion g f)
    {r c : Nat} (hp1 : r < g.rows) (hp2 : c < g.cols) :
    aval f (r, c) ∈ getCandidatesForCell g r c := by
  rw [mem_getCandidatesForCell]
  obtain ⟨hgmem, hpmem⟩ := cell_group hwf hp1 hp2
  refine ⟨completion_val_range hwf hf hp1 hp2, ?_, ?_⟩
  · intro q hq hqv
    simp only [groupPeers, List.mem_filter, decide_eq_true_eq] at hq
    obtain ⟨hqmem, hqne⟩ := hq
    have hqb := ((hwf.2.1 _ hgmem).2.2 q hqmem).1
    have hqa : aval f (q.1, q.2) = aval f (r, c) :=
      completion_agrees hf hqb.1 hqb.2 hqv
    have hpq : q ≠ (r, c) := hqne
    exact completion_distinct hf hgmem hqmem hpmem hpq hqa
  · intro q hq hqv
    have hq' := (mem_neighborPos hp1 hp2 q).mp hq
    obtain ⟨hqb1, hqb2, hadj⟩ := hq'
    have hqa : aval f (q.1, q.2) = aval f (r, c) :=
      completion_agrees hf hqb1 hqb2 hqv
    have hne := hf.2.2 ⟨r, hp1⟩ ⟨q.1, hqb1⟩ ⟨c, hp2⟩ ⟨q.2, hqb2⟩ hadj
    exact hne (hqa.symm)

theorem isCompletion_setValue {g : Grid} (hd : dimsOk g) {r c : Nat}
    (hr : r < g.rows) (hc : c < g.cols)
    (hempty : (getC g r c).value = none) (v : Nat)
    (f : Asgn g.rows g.cols (maxGroupSize g)) :
    isCompletion (setValue g r c (some v)) f ↔
      isCompletion g f ∧ aval f (r, c) = v := by
  have hself : getC (setValue g r c (some v)) r c =
      { getC g r c with value := some v } := getC_setValue_self g hd hr hc _
  constructor
  · rintro ⟨hA, hB, hC⟩
    have hv : aval f (r, c) = v := by
      have h := hA ⟨r, hr⟩ ⟨c, hc⟩
      rw [hself] at h
      rw [← h]
      rfl
    refine ⟨⟨?_, hB, hC⟩, hv⟩
    intro i j
    by_cases hij : (r, c) = (i.val, j.val)
    · have h1 : r = (i : Nat) := congrArg Prod.fst hij
      have h2 : c = (j : Nat) := congrArg Prod.snd hij
      have : (getC g i.val j.val).value = none := by
        rw [← h1, ← h2]
        exact hempty
      rw [this, Option.getD_none]
    · have h := hA i j
      rw [getC_setValue_ne g hij (some v)] at h
      exact h
  · rintro ⟨⟨hA, hB, hC⟩, hv⟩
    refine ⟨?_, hB, hC⟩
    intro i j
    by_cases hij : (r, c) = (i.val, j.val)
    · have h1 : r = (i : Nat) := congrArg Prod.fst hij
      have h2 : c = (j : Nat) := congrArg Prod.snd hij
      have hvv : aval f (i.val, j.val) = v := by
        rw [← h1, ← h2]
        exact hv
      rw [show getC (setValue g r c (some v)) i.val j.val =
          { getC g r c with value := some v } from by
        rw [← h1, ← h2]; exact hself]
      rw [hvv]
      rfl
    · rw [getC_setValue_ne g hij (some v)]
      exact hA i j

theorem ncompletions_split {g : Grid} (hwf : WF g) {r c : Nat}
    (hr : r < g.rows) (hc : c < g.cols)
    (hempty : (getC g r c).value = none) :
    ncompletions g = ∑ v ∈ getCandidatesForCell g r c,
      ncompletions (setValue g r c (some v)) := by
  have hmap : ∀ F ∈ (Finset.univ.filter
      (fun f : Asgn g.rows g.cols (maxGroupSize g) => isCompletion g f)),
      aval F (r, c) ∈ getCandidatesForCell g r c := by
    intro F hF
    exact completion_val_mem_candidates hwf (Finset.mem_filter.mp hF).2 hr hc
  have hfib := Finset.card_eq_sum_card_fiberwise hmap
  have h0 : ncompletions g = (Finset.univ.filter
      (fun f : Asgn g.rows g.cols (maxGroupSize g) => isCompletion g f)).card :=
    rfl
  rw [h0, hfib]
  apply Finset.sum_congr rfl
  intro v _
  rw [Finset.filter_filter]
  have h1 : ncompletions (setValue g r c (some v)) =
      (Finset.univ.filter (fun f : Asgn g.rows g.cols (maxGroupSize g) =>
        isCompletion (setValue g r c (some v)) f)).card := rfl
  rw [h1]
  congr 1
  apply Finset.filter_congr
  intro f _
  constructor
  · intro hf
    exact (isCompletion_setValue hwf.1 hr hc hempty v f).mpr hf
  · intro hf
    exact (isCompletion_setValue hwf.1 hr hc hempty v f).mp hf

theorem aval_apply {rows cols B : Nat} (f : Asgn rows cols B) (i : Fin rows)
    (j : Fin cols) : aval f (i.val, j.val) = (f i j).val := by
  unfold aval
  rw [dif_pos (⟨i.isLt, j.isLt⟩ : (i.val, j.val).1 < rows ∧ (i.val, j.val).2 < cols)]

theorem gridAsgn_eq {g : Grid} (hwf : WF g) (hv : validAssigned g)
    {r c : Nat} (hr : r < g.rows) (hc : c < g.cols) {w : Nat}
    (hw : (getC g r c).value = some w) : aval (gridAsgn g) (r, c) = w := by
  have hb : w ≤ maxGroupSize g := by
    have h0 := hv.2 ⟨r, hr⟩ ⟨c, hc⟩
    dsimp only at h0
    rcases h0 with h | h
    · rw [hw] at h
      exact absurd h (by simp)
    · rw [hw, Option.getD_some] at h
      have h1 := (Finset.mem_Icc.mp h.1).2
      have h2 := size_le_maxGroupSize (cell_group hwf hr hc).1
      omega
  unfold aval
  rw [dif_pos (⟨hr, hc⟩ : ((r, c) : Pos).1 < g.rows ∧ ((r, c) : Pos).2 < g.cols)]
  simp only [gridAsgn]
  rw [hw, Option.getD_some]
  exact Nat.mod_eq_of_lt (by omega)

theorem isComplete_value {g : Grid} (hcomp : isComplete g = true)
    {r c : Nat} (hr : r < g.rows) (hc : c < g.cols) :
    ∃ w, (getC g r c).value = some w := by
  unfold isComplete at hcomp
  rw [List.all_eq_true] at hcomp
  have h := hcomp (r, c) (mem_allPositions.mpr ⟨hr, hc⟩)
  simp only [ne_eq, decide_eq_true_eq] at h
  cases hval : (getC g r c).value with
  | none => exact absurd hval h
  | some w => exact ⟨w, rfl⟩

theorem filterMap_values_eq (l : List Pos) (F : Pos → Option Nat)
    (h : ∀ p ∈ l, F p ≠ none) :
    l.filterMap F = l.map (fun p => (F p).getD 0) := by
  induction l with
  | nil => rfl
  | cons a l ih =>
    rw [List.map_cons]
    cases hFa : F a with
    | none => exact absurd hFa (h a (List.mem_cons_self a l))
    | some w =>
      rw [List.filterMap_cons_some hFa,
        ih (fun p hp => h p (List.mem_cons_of_mem a hp)), Option.getD_some]

theorem gridAsgn_isCompletion {g : Grid} (hwf : WF g) (hv : validAssigned g)
    (hcomp : isComplete g = true) : isCompletion g (gridAsgn g) := by
  have hval : ∀ (i : Fin g.rows) (j : Fin g.cols),
      ∃ w, (getC g i.val j.val).value = some w ∧
        aval (gridAsgn g) (i.val, j.val) = w := by
    intro i j
    obtain ⟨w, hw⟩ := isComplete_value hcomp i.isLt j.isLt
    exact ⟨w, hw, gridAsgn_eq hwf hv i.isLt j.isLt hw⟩
  refine ⟨?_, ?_, ?_⟩
  · intro i j
    obtain ⟨w, hw, ha⟩ := hval i j
    rw [hw, Option.getD_some]
    exact ha.symm
  · intro grp hgrp
    obtain ⟨hsize, hnd, hcells⟩ := hwf.2.1 grp hgrp
    have hsome : ∀ p ∈ grp.cells, (fun p => (getC g p.1 p.2).value) p ≠ none := by
      intro p hp
      obtain ⟨w, hw⟩ := isComplete_value hcomp (hcells p hp).1.1 (hcells p hp).1.2
      simp [hw]
    have hmapeq : grp.cells.map (aval (gridAsgn g)) =
        grp.cells.filterMap (fun p => (getC g p.1 p.2).value) := by
      rw [filterMap_values_eq _ _ hsome]
      apply List.map_congr_left
      intro p hp
      obtain ⟨w, hw⟩ := isComplete_value hcomp (hcells p hp).1.1 (hcells p hp).1.2
      have ha := gridAsgn_eq hwf hv (hcells p hp).1.1 (hcells p hp).1.2 hw
      rw [hw, Option.getD_some]
      exact ha
    apply perm_range'_of_nodup
    · rw [hmapeq]
      exact hv.1 grp hgrp
    · rw [List.length_map, ← hsize]
    · intro v hvmem
      obtain ⟨p, hp, hpv⟩ := List.mem_map.mp hvmem
      obtain ⟨hpb, hpid⟩ := hcells p hp
      obtain ⟨w, hw⟩ := isComplete_value hcomp hpb.1 hpb.2
      have ha := gridAsgn_eq hwf hv hpb.1 hpb.2 hw
      rcases hv.2 ⟨p.1, hpb.1⟩ ⟨p.2, hpb.2⟩ with h | h
      · rw [hw] at h
        exact absurd h (by simp)
      · have h1 := h.1
        rw [hw, Option.getD_some, hpid, getGroup_eq_of_mem hwf hgrp,
          Finset.mem_Icc] at h1
        have hvw : v = w := by rw [← hpv]; exact ha
        omega
  · intro i i' j j' hadj heq
    obtain ⟨w, hw, ha⟩ := hval i j
    obtain ⟨w', hw', ha'⟩ := hval i' j'
    rcases hv.2 i j with h | h
    · rw [hw] at h
      exact absurd h (by simp)
    · have hmem : ((i'.val, j'.val) : Pos) ∈ neighborPos g i.val j.val :=
        (mem_neighborPos i.isLt j.isLt _).mpr ⟨i'.isLt, j'.isLt, hadj⟩
      have hne := h.2 _ hmem
      rw [hw, hw'] at hne
      rw [ha, ha'] at heq
      exact hne (by rw [heq])

theorem ncompletions_complete {g : Grid} (hwf : WF g) (hv : validAssigned g)
    (hcomp : isComplete g = true) : ncompletions g = 1 := by
  have hasgn := gridAsgn_isCompletion hwf hv hcomp
  have huniq : ∀ f, isCompletion g f → f = gridAsgn g := by
    intro f hf
    funext i j
    apply Fin.ext
    obtain ⟨w, hw⟩ := isComplete_value hcomp i.isLt j.isLt
    have h1 : aval f (i.val, j.val) = w := completion_agrees hf i.isLt j.isLt hw
    have h2 := aval_apply f i j
    have h3 := aval_apply (gridAsgn g) i j
    have h4 := gridAsgn_eq hwf hv i.isLt j.isLt hw
    omega
  have hset : (Finset.univ.filter
      (fun f : Asgn g.rows g.cols (maxGroupSize g) => isCompletion g f)) =
      {gridAsgn g} := by
    apply Finset.eq_singleton_iff_unique_mem.mpr
    exact ⟨Finset.mem_filter.mpr ⟨Finset.mem_univ _, hasgn⟩,
      fun f hf => huniq f (Finset.mem_filter.mp hf).2⟩
  unfold ncompletions
  rw [hset]
  exact Finset.card_singleton _

theorem bestStep_some (g : Grid) (q : Pos) (acc : Option (Pos × Nat))
    (hq : (getC g q.1 q.2).value = none) : ∃ y, bestStep g acc q = some y := by
  unfold bestStep
  rw [if_pos hq]
  cases acc with
  | none => exact ⟨_, rfl⟩
  | some y =>
    obtain ⟨y1, m⟩ := y
    dsimp only
    by_cases hlt : (getCandidatesForCell g q.1 q.2).card < m
    · rw [if_pos hlt]
      exact ⟨_, rfl⟩
    · rw [if_neg hlt]
      exact ⟨_, rfl⟩

theorem bestStep_keep (g : Grid) (q : Pos) (acc : Option (Pos × Nat))
    (hq : ¬(getC g q.1 q.2).value = none) : bestStep g acc q = acc := by
  unfold bestStep
  rw [if_neg hq]

theorem foldl_bestStep_isSome (g : Grid) :
    ∀ (l : List Pos) (x : Pos × Nat),
      (List.foldl (bestStep g) (some x) l).isSome = true := by
  intro l
  induction l with
  | nil => intro x; rfl
  | cons q l ih =>
    intro x
    rw [List.foldl_cons]
    by_cases hq : (getC g q.1 q.2).value = none
    · obtain ⟨y, hy⟩ := bestStep_some g q (some x) hq
      rw [hy]
      exact ih y
    · rw [bestStep_keep g q _ hq]
      exact ih x

theorem foldl_bestStep_none (g : Grid) :
    ∀ (l : List Pos) (acc : Option (Pos × Nat)),
      List.foldl (bestStep g) acc l = none →
      ∀ p ∈ l, (getC g p.1 p.2).value ≠ none := by
  intro l
  induction l with
  | nil => intro acc _ p hp; cases hp
  | cons q l ih =>
    intro acc h p hp
    rw [List.foldl_cons] at h
    rcases List.mem_cons.mp hp with rfl | hmem
    · intro hval
      obtain ⟨y, hy⟩ := bestStep_some g p acc hval
      rw [hy] at h
      have hs := foldl_bestStep_isSome g l y
      rw [h] at hs
      simp at hs
    · exact ih _ h p hmem

theorem foldl_bestStep_mem (g : Grid) :
    ∀ (l : List Pos) (acc : Option (Pos × Nat)) (x : Pos × Nat),
      List.foldl (bestStep g) acc l = some x →
      acc = some x ∨ (x.1 ∈ l ∧ (getC g x.1.1 x.1.2).value = none) := by
  intro l
  induction l with
  | nil => intro acc x h; exact Or.inl h
  | cons q l ih =>
    intro acc x h
    rw [List.foldl_cons] at h
    rcases ih _ x h with hstep | ⟨hmem, hval⟩
    · by_cases hq : (getC g q.1 q.2).value = none
      · unfold bestStep at hstep
        rw [if_pos hq] at hstep
        cases acc with
        | none =>
          dsimp only at hstep
          cases Option.some.inj hstep
          exact Or.inr ⟨List.mem_cons_self _ _, hq⟩
        | some y =>
          obtain ⟨y1, m⟩ := y
          dsimp only at hstep
          by_cases hlt : (getCandidatesForCell g q.1 q.2).card < m
          · rw [if_pos hlt] at hstep
            cases Option.some.inj hstep
            exact Or.inr ⟨List.mem_cons_self _ _, hq⟩
          · rw [if_neg hlt] at hstep
            exact Or.inl hstep
      · rw [bestStep_keep g q _ hq] at hstep
        exact Or.inl hstep
    · exact Or.inr ⟨List.mem_cons_of_mem _ hmem, hval⟩

theorem findBestEmptyCell_none {g : Grid}
    (h : findBestEmptyCell g = none) : isComplete g = true := by
  unfold findBestEmptyCell at h
  rw [Option.map_eq_none'] at h
  unfold isComplete
  rw [List.all_eq_true]
  intro p hp
  simp only [ne_eq, decide_eq_true_eq]
  exact foldl_bestStep_none g _ _ h p hp

theorem findBestEmptyCell_some {g : Grid} {r c : Nat}
    (h : findBestEmptyCell g = some (r, c)) :
    (r < g.rows ∧ c < g.cols) ∧ (getC g r c).value = none := by
  unfold findBestEmptyCell at h
  rw [Option.map_eq_some'] at h
  obtain ⟨x, hfold, hfst⟩ := h
  rcases foldl_bestStep_mem g _ _ x hfold with h0 | ⟨hmem, hval⟩
  · cases h0
  · rw [hfst] at hmem hval
    exact ⟨mem_allPositions.mp hmem, hval⟩

theorem getGroup_setValue (g : Grid) (r c : Nat) (v : Option Nat) (gid : Nat) :
    getGroup (setValue g r c v) gid = getGroup g gid := rfl

theorem neighborPos_setValue (g : Grid) (r c : Nat) (v : Option Nat)
    (i j : Nat) : neighborPos (setValue g r c v) i j = neighborPos g i j := rfl

theorem getC_setValue_gid (g : Grid) (r c : Nat) (v : Option Nat) (r' c' : Nat) :
    (getC (setValue g r c v) r' c').group_id = (getC g r' c').group_id :=
  getC_setValue_group_id g r c v (r', c')

theorem WF_setValue {g : Grid} (hwf : WF g) (r c : Nat) (v : Option Nat) :
    WF (setValue g r c v) := by
  obtain ⟨hd, hg⟩ := hwf
  refine ⟨dimsOk_modC g hd r c _, ?_, hg.2.1, ?_⟩
  · intro grp hgrp
    obtain ⟨hsz, hnd, hcells⟩ := hg.1 grp hgrp
    refine ⟨hsz, hnd, ?_⟩
    intro p hp
    refine ⟨(hcells p hp).1, ?_⟩
    rw [getC_setValue_gid]
    exact (hcells p hp).2
  · intro i j
    obtain ⟨grp, hgrp, hid, hmem⟩ := hg.2.2 i j
    refine ⟨grp, hgrp, ?_, hmem⟩
    rw [getC_setValue_gid]
    exact hid

theorem nodup_filterMap_update (F G : Pos → Option Nat) (p0 : Pos) (v : Nat)
    (hp0G : G p0 = some v) (hp0F : F p0 = none) :
    ∀ l : List Pos, l.Nodup → (∀ p ∈ l, p ≠ p0 → G p = F p) →
      (l.filterMap F).Nodup → (∀ p ∈ l, p ≠ p0 → F p ≠ some v) →
      (l.filterMap G).Nodup := by
  intro l
  induction l with
  | nil => intro _ _ _ _; simp
  | cons a l ih =>
    intro hnd hagree hnodup hvne
    rw [List.nodup_cons] at hnd
    by_cases ha : a = p0
    · subst ha
      rw [List.filterMap_cons_some hp0G]
      rw [List.filterMap_cons_none hp0F] at hnodup
      have hGl : l.filterMap G = l.filterMap F := by
        apply List.filterMap_congr
        intro p hp
        exact hagree p (List.mem_cons_of_mem _ hp) (fun h => hnd.1 (h ▸ hp))
      rw [List.nodup_cons, hGl]
      refine ⟨?_, hnodup⟩
      intro hvmem
      obtain ⟨p, hp, hpv⟩ := List.mem_filterMap.mp hvmem
      exact hvne p (List.mem_cons_of_mem _ hp) (fun h => hnd.1 (h ▸ hp)) hpv
    · have hGa : G a = F a := hagree a (List.mem_cons_self a l) ha
      have hag' : ∀ p ∈ l, p ≠ p0 → G p = F p :=
        fun p hp hne => hagree p (List.mem_cons_of_mem _ hp) hne
      have hvne' : ∀ p ∈ l, p ≠ p0 → F p ≠ some v :=
        fun p hp hne => hvne p (List.mem_cons_of_mem _ hp) hne
      cases hFa : F a with
      | none =>
        rw [List.filterMap_cons_none (hGa.trans hFa)]
        rw [List.filterMap_cons_none hFa] at hnodup
        exact ih hnd.2 hag' hnodup hvne'
      | some w =>
        rw [List.filterMap_cons_some (hGa.trans hFa)]
        rw [List.filterMap_cons_some hFa] at hnodup
        rw [List.nodup_cons] at hnodup ⊢
        refine ⟨?_, ih hnd.2 hag' hnodup.2 hvne'⟩
        intro hwmem
        obtain ⟨p, hp, hpw⟩ := List.mem_filterMap.mp hwmem
        by_cases hpp0 : p = p0
        · subst hpp0
          rw [hp0G] at hpw
          cases Option.some.inj hpw
          exact hvne a (List.mem_cons_self a l) ha hFa
        · rw [hagree p (List.mem_cons_of_mem _ hp) hpp0] at hpw
          exact hnodup.1 (List.mem_filterMap.mpr ⟨p, hp, hpw⟩)

theorem validAssigned_setValue {g : Grid} (hwf : WF g) (hva : validAssigned g)
    {r c : Nat} (hr : r < g.rows) (hc : c < g.cols)
    (hempty : (getC g r c).value = none) {w : Nat}
    (hcand : w ∈ getCandidatesForCell g r c) :
    validAssigned (setValue g r c (some w)) := by
  have hC := (mem_getCandidatesForCell g r c w).mp hcand
  constructor
  · intro grp hgrp
    by_cases hmem : ((r, c) : Pos) ∈ grp.cells
    · have hid : (getC g r c).group_id = grp.id :=
        ((hwf.2.1 grp hgrp).2.2 _ hmem).2
      refine nodup_filterMap_update (fun p => (getC g p.1 p.2).value)
        (fun p => (getC (setValue g r c (some w)) p.1 p.2).value)
        (r, c) w ?_ hempty grp.cells (hwf.2.1 grp hgrp).2.1
        ?_ (hva.1 grp hgrp) ?_
      · show (getC (setValue g r c (some w)) r c).value = some w
        rw [getC_setValue_self g hwf.1 hr hc]
      · intro p hp hne
        show (getC (setValue g r c (some w)) p.1 p.2).value =
          (getC g p.1 p.2).value
        rw [getC_setValue_ne g (fun h => hne h.symm)]
      · intro p hp hne
        show (getC g p.1 p.2).value ≠ some w
        have hpeer : p ∈ groupPeers g r c := by
          unfold groupPeers
          rw [hid, getGroup_eq_of_mem hwf hgrp]
          exact List.mem_filter.mpr ⟨hp, by simp [hne]⟩
        exact hC.2.1 p hpeer
    · have hsame : grp.cells.filterMap
          (fun p => (getC (setValue g r c (some w)) p.1 p.2).value) =
          grp.cells.filterMap (fun p => (getC g p.1 p.2).value) := by
        apply List.filterMap_congr
        intro p hp
        have hne : ((r, c) : Pos) ≠ (p.1, p.2) :=
          fun h => hmem (by rw [h]; exact hp)
        show (getC (setValue g r c (some w)) p.1 p.2).value =
          (getC g p.1 p.2).value
        rw [getC_setValue_ne g hne]
      rw [hsame]
      exact hva.1 grp hgrp
  · intro i j
    by_cases hij : ((i.val, j.val) : Pos) = (r, c)
    · right
      have h1 : i.val = r := congrArg Prod.fst hij
      have h2 : j.val = c := congrArg Prod.snd hij
      have hgc : getC (setValue g r c (some w)) i.val j.val =
          { getC g r c with value := some w } := by
        rw [h1, h2]
        exact getC_setValue_self g hwf.1 hr hc _
      constructor
      · rw [hgc, getGroup_setValue]
        show w ∈ Finset.Icc 1 (getGroup g (getC g r c).group_id).size
        rw [Finset.mem_Icc]
        exact hC.1
      · intro q hq
        rw [hgc]
        have hq' : q ∈ neighborPos g r c := by
          rw [neighborPos_setValue, h1, h2] at hq
          exact hq
        have hbq := (mem_neighborPos hr hc q).mp hq'
        have hqne : ((r, c) : Pos) ≠ q := hbq.2.2.1
        show (getC (setValue g r c (some w)) q.1 q.2).value ≠ some w
        rw [getC_setValue_ne g hqne]
        exact hC.2.2 q hq'
    · have hgc : getC (setValue g r c (some w)) i.val j.val =
          getC g i.val j.val := getC_setValue_ne g (fun h => hij h.symm) _
      rcases hva.2 i j with hnone | hcond
      · left
        rw [hgc]
        exact hnone
      · right
        constructor
        · rw [hgc, getGroup_setValue]
          exact hcond.1
        · intro q hq
          rw [neighborPos_setValue] at hq
          by_cases hq0 : q = ((r, c) : Pos)
          · subst hq0
            rw [hgc, getC_setValue_self g hwf.1 hr hc]
            show some w ≠ (getC g i.val j.val).value
            have hsym : ((i.val, j.val) : Pos) ∈ neighborPos g r c :=
              mem_neighborPos_symm i.isLt j.isLt hq
            exact Ne.symm (hC.2.2 _ hsym)
          · rw [hgc, getC_setValue_ne g (fun h => hq0 h.symm)]
            exact hcond.2 q hq

theorem filter_update_length {A : Type} (P Q : A → Bool) (p0 : A) :
    ∀ l : List A, l.Nodup → p0 ∈ l → P p0 = true → Q p0 = false →
      (∀ p ∈ l, p ≠ p0 → Q p = P p) →
      (l.filter Q).length + 1 = (l.filter P).length := by
  intro l
  induction l with
  | nil => intro _ hp0 _ _ _; cases hp0
  | cons a l ih =>
    intro hnd hp0 hP hQ hagree
    rw [List.nodup_cons] at hnd
    rcases List.mem_cons.mp hp0 with rfl | hmem
    · have hQl : l.filter Q = l.filter P := by
        apply List.filter_congr
        intro p hp
        exact hagree p (List.mem_cons_of_mem _ hp) (fun h => hnd.1 (h ▸ hp))
      rw [List.filter_cons, List.filter_cons, hP, hQ]
      simp [hQl]
    · by_cases ha : a = p0
      · exact absurd hmem (ha ▸ hnd.1)
      · have hQa : Q a = P a := hagree a (List.mem_cons_self a l) ha
        have ihh := ih hnd.2 hmem hP hQ
          (fun p hp hne => hagree p (List.mem_cons_of_mem _ hp) hne)
        rw [List.filter_cons, List.filter_cons, hQa]
        cases hPa : P a with
        | false => simp [hPa, ihh]
        | true => simp [hPa]; omega

theorem numEmpty_setValue {g : Grid} (hd : dimsOk g) {r c : Nat}
    (hr : r < g.rows) (hc : c < g.cols) (hempty : (getC g r c).value = none)
    (v : Nat) : numEmpty (setValue g r c (some v)) + 1 = numEmpty g := by
  unfold numEmpty
  exact filter_update_length
    (fun p => decide ((getC g p.1 p.2).value = none))
    (fun p => decide ((getC (setValue g r c (some v)) p.1 p.2).value = none))
    (r, c) (allPositions g.rows g.cols)
    (nodup_allPositions g.rows g.cols) (mem_allPositions.mpr ⟨hr, hc⟩)
    (by simp [hempty]) (by simp [getC_setValue_self g hd hr hc])
    (fun p hp hne => by
      show decide ((getC (setValue g r c (some v)) p.1 p.2).value = none) =
        decide ((getC g p.1 p.2).value = none)
      rw [getC_setValue_ne g (fun h => hne h.symm)])

theorem mem_ascList {s : Finset Nat} {v : Nat} : v ∈ ascList s ↔ v ∈ s := by
  unfold ascList
  rw [List.mem_filter, List.mem_range]
  constructor
  · rintro ⟨_, h⟩
    exact of_decide_eq_true h
  · intro h
    have hle : id v ≤ s.sup id := Finset.le_sup h
    exact ⟨Nat.lt_succ_of_le hle, decide_eq_true h⟩

theorem nodup_ascList (s : Finset Nat) : (ascList s).Nodup :=
  (List.nodup_range _).filter _

theorem sum_ascList (s : Finset Nat) (f : Nat → Nat) :
    ((ascList s).map f).sum = ∑ v ∈ s, f v := by
  have h1 : (ascList s).toFinset = s := by
    ext v
    rw [List.mem_toFinset, mem_ascList]
  rw [← List.sum_toFinset f (nodup_ascList s), h1]

theorem tryCands_min (rec : Grid → Nat) (g : Grid) (r c limit : Nat)
    (N : Nat → Nat) :
    ∀ (l : List Nat) (acc : Nat),
      (∀ v ∈ l, rec (setValue g r c (some v)) = min (N v) limit) →
      acc < limit →
      tryCands rec g r c limit l acc = min (acc + (l.map N).sum) limit := by
  intro l
  induction l with
  | nil =>
    intro acc _ hacc
    simp only [tryCands, List.map_nil, List.sum_nil, Nat.add_zero]
    omega
  | cons v vs ih =>
    intro acc hrec hacc
    simp only [tryCands]
    rw [hrec v (List.mem_cons_self v vs)]
    by_cases hle : limit ≤ acc + min (N v) limit
    · rw [if_pos hle]
      simp only [List.map_cons, List.sum_cons]
      omega
    · rw [if_neg hle]
      rw [ih _ (fun u hu => hrec u (List.mem_cons_of_mem v hu)) (by omega)]
      simp only [List.map_cons, List.sum_cons]
      omega

theorem countSolutionsF_eq : ∀ (fuel : Nat) {g : Grid}, WF g →
    validAssigned g → numEmpty g < fuel → ∀ {limit : Nat}, 1 ≤ limit →
    countSolutionsF fuel g limit = min (ncompletions g) limit := by
  intro fuel
  induction fuel with
  | zero => intro g _ _ h; omega
  | succ fuel ih =>
    intro g hwf hva hfuel limit hlimit
    by_cases hcomp : isComplete g = true
    · simp only [countSolutionsF]
      rw [if_pos hcomp, ncompletions_complete hwf hva hcomp]
      omega
    · simp only [countSolutionsF]
      rw [if_neg hcomp]
      cases hbest : findBestEmptyCell g with
      | none => exact absurd (findBestEmptyCell_none hbest) hcomp
      | some p =>
        obtain ⟨r, c⟩ := p
        obtain ⟨⟨hr, hc⟩, hempty⟩ := findBestEmptyCell_some hbest
        show tryCands (fun g' => countSolutionsF fuel g' limit) g r c limit
          (ascList (getCandidatesForCell g r c)) 0 = min (ncompletions g) limit
        have hrec : ∀ v ∈ ascList (getCandidatesForCell g r c),
            (fun g' => countSolutionsF fuel g' limit)
              (setValue g r c (some v)) =
            min (ncompletions (setValue g r c (some v))) limit := by
          intro v hv
          rw [mem_ascList] at hv
          have hne : numEmpty (setValue g r c (some v)) < fuel := by
            have := numEmpty_setValue hwf.1 hr hc hempty v
            omega
          exact ih (WF_setValue hwf r c _)
            (validAssigned_setValue hwf hva hr hc hempty hv) hne hlimit
        rw [tryCands_min (fun g' => countSolutionsF fuel g' limit) g r c limit
          (fun v => ncompletions (setValue g r c (some v)))
          (ascList (getCandidatesForCell g r c)) 0 hrec (by omega)]
        rw [Nat.zero_add, sum_ascList, ← ncompletions_split hwf hr hc hempty]

/-- C1 counterexample to the unrestricted claim: a fully assigned 1×2 board
whose two singleton-group cells both hold 1 violates the adjacency constraint,
so it has zero valid complete assignments, yet `has_unique_solution` returns
true — `_count_solutions` counts any complete board as one solution without
checking validity. -/
theorem hasUniqueSolution_overcount :
    hasUniqueSolution
      (setValue (setValue (buildCells 1 2 [[0, 1]]) 0 0 (some 1)) 0 1
        (some 1)) = true ∧
    ncompletions
      (setValue (setValue (buildCells 1 2 [[0, 1]]) 0 0 (some 1)) 0 1
        (some 1)) = 0 := by
  constructor
  · decide
  · decide

/-- C1 (amended): for a well-formed board whose already-assigned values do not
themselves violate a constraint, `Solver.has_unique_solution` returns true if
and only if exactly one complete assignment of values agrees with the board's
assigned values and satisfies every constraint (each group holds a permutation
of 1..size, no two 8-adjacent cells share a value).  The enumeration is
clamped at 2 solutions, reflecting the early abort on a second solution. -/
theorem hasUniqueSolution_iff_unique_completion {g : Grid} (hwf : WF g)
    (hva : validAssigned g) :
    hasUniqueSolution g = true ↔ ncompletions g = 1 := by
  unfold hasUniqueSolution
  rw [decide_eq_true_eq]
  have h2 : (1 : Nat) ≤ 2 := by omega
  rw [countSolutionsF_eq (numEmpty g + 1) hwf hva (Nat.lt_succ_self _) h2]
  omega

theorem hasUniqueSolution_iff_unique_completion_witness :
    ncompletions (setValue (buildCells 1 2 [[0, 0]]) 0 0 (some 1)) = 1 :=
  (hasUniqueSolution_iff_unique_completion (by decide) (by decide)).mp
    (by decide)

theorem getC_modC_cases (g : Grid) (r c : Nat) (f : Cell → Cell) (r' c' : Nat) :
    getC (modC g r c f) r' c' = getC g r' c' ∨
      ((r, c) = (r', c') ∧ getC (modC g r c f) r' c' = f (getC g r c)) := by
  by_cases h : (r, c) = (r', c')
  · obtain ⟨h1, h2⟩ := Prod.mk.injEq r c r' c' ▸ h
    subst h1
    subst h2
    by_cases hr : r < g.cells.length
    · by_cases hc : c < (g.cells.getD r []).length
      · exact Or.inr ⟨rfl, getC_modC_self' g f hr hc⟩
      · left
        rw [modC_oob_col g f hr (Nat.le_of_not_lt hc)]
    · left
      rw [modC_oob_row g c f (Nat.le_of_not_lt hr)]
  · exact Or.inl (getC_modC_ne g h f)

theorem shapeEq_refl (g : Grid) : shapeEq g g := ⟨rfl, rfl, rfl⟩

theorem shapeEq_trans {a b c : Grid} (h1 : shapeEq a b) (h2 : shapeEq b c) :
    shapeEq a c :=
  ⟨h1.1.trans h2.1, h1.2.1.trans h2.2.1, h1.2.2.trans h2.2.2⟩

theorem shapeEq_modC (g : Grid) (r c : Nat) (f : Cell → Cell) :
    shapeEq (modC g r c f) g := ⟨rfl, rfl, rfl⟩

theorem getGroup_congr {h g : Grid} (hg : h.groups = g.groups) (gid : Nat) :
    getGroup h gid = getGroup g gid := by
  unfold getGroup
  rw [hg]

theorem neighborPos_congr {h g : Grid} (h1 : h.rows = g.rows)
    (h2 : h.cols = g.cols) (r c : Nat) :
    neighborPos h r c = neighborPos g r c := by
  unfold neighborPos
  rw [h1, h2]

theorem Mono_refl (g : Grid) : Mono g g :=
  ⟨fun _ _ _ h => h, fun _ _ => Finset.Subset.refl _⟩

theorem Mono_trans {a b c : Grid} (h1 : Mono a b) (h2 : Mono b c) :
    Mono a c :=
  ⟨fun r c' w hw => h1.1 r c' w (h2.1 r c' w hw),
   fun r c' => (h1.2 r c').trans (h2.2 r c')⟩

theorem CandShrink_refl (g : Grid) : CandShrink g g :=
  ⟨shapeEq_refl g, fun _ _ => rfl, fun _ _ => rfl,
   fun _ _ => Finset.Subset.refl _, id⟩

theorem CandShrink_trans {a b c : Grid} (h1 : CandShrink a b)
    (h2 : CandShrink b c) : CandShrink a c := by
  obtain ⟨s1, v1, g1, c1, d1⟩ := h1
  obtain ⟨s2, v2, g2, c2, d2⟩ := h2
  exact ⟨shapeEq_trans s1 s2, fun r c' => (v1 r c').trans (v2 r c'),
    fun r c' => (g1 r c').trans (g2 r c'),
    fun r c' => (c1 r c').trans (c2 r c'), fun hd => d1 (d2 hd)⟩

theorem Mono_of_candShrink {h g : Grid} (hcs : CandShrink h g) : Mono h g :=
  ⟨fun r c w hw => by rw [hcs.2.1 r c]; exact hw, hcs.2.2.2.1⟩

theorem CandShrink_modC_cand (g : Grid) (r c : Nat) (fC : Cell → Cell)
    (hval : ∀ cell, (fC cell).value = cell.value)
    (hgid : ∀ cell, (fC cell).group_id = cell.group_id)
    (hsub : (fC (getC g r c)).candidates ⊆ (getC g r c).candidates) :
    CandShrink (modC g r c fC) g := by
  refine ⟨shapeEq_modC g r c fC, ?_, ?_, ?_, fun hd => dimsOk_modC g hd r c fC⟩
  · intro r' c'
    rcases getC_modC_cases g r c fC r' c' with h | ⟨heq, h⟩
    · rw [h]
    · obtain ⟨h1, h2⟩ := Prod.mk.injEq r c r' c' ▸ heq
      subst h1
      subst h2
      rw [h, hval]
  · intro r' c'
    rcases getC_modC_cases g r c fC r' c' with h | ⟨heq, h⟩
    · rw [h]
    · obtain ⟨h1, h2⟩ := Prod.mk.injEq r c r' c' ▸ heq
      subst h1
      subst h2
      rw [h, hgid]
  · intro r' c'
    rcases getC_modC_cases g r c fC r' c' with h | ⟨heq, h⟩
    · rw [h]
    · obtain ⟨h1, h2⟩ := Prod.mk.injEq r c r' c' ▸ heq
      subst h1
      subst h2
      rw [h]
      exact hsub

theorem CandShrink_eraseCand (g : Grid) (r c v : Nat) :
    CandShrink (eraseCand g r c v) g :=
  CandShrink_modC_cand g r c _ (fun _ => rfl) (fun _ => rfl)
    (Finset.erase_subset _ _)

theorem WF_transfer {h g : Grid} (hsh : shapeEq h g)
    (hgid : ∀ r c, (getC h r c).group_id = (getC g r c).group_id)
    (hdims : dimsOk h) (hwf : WF g) : WF h := by
  refine ⟨hdims, ?_, ?_, ?_⟩
  · intro grp hgrp
    rw [hsh.2.2] at hgrp
    obtain ⟨hsz, hnd, hcells⟩ := hwf.2.1 grp hgrp
    refine ⟨hsz, hnd, ?_⟩
    intro p hp
    refine ⟨⟨?_, ?_⟩, ?_⟩
    · rw [hsh.1]
      exact (hcells p hp).1.1
    · rw [hsh.2.1]
      exact (hcells p hp).1.2
    · rw [hgid]
      exact (hcells p hp).2
  · rw [hsh.2.2]
    exact hwf.2.2.1
  · intro i j
    obtain ⟨grp, hgrp, hid, hmem⟩ :=
      hwf.2.2.2 ⟨i.val, hsh.1 ▸ i.isLt⟩ ⟨j.val, hsh.2.1 ▸ j.isLt⟩
    refine ⟨grp, ?_, ?_, hmem⟩
    · rw [hsh.2.2]
      exact hgrp
    · rw [hgid]
      exact hid

theorem Wit_transfer {h g : Grid} {σ : Pos → Nat} (hsh : shapeEq h g)
    (hval : ∀ r c, (getC h r c).value = (getC g r c).value) (hw : Wit g σ) :
    Wit h σ := by
  refine ⟨?_, ?_, ?_⟩
  · intro r c w hr hc hv
    rw [hsh.1] at hr
    rw [hsh.2.1] at hc
    rw [hval r c] at hv
    exact hw.1 r c w hr hc hv
  · intro grp hgrp
    rw [hsh.2.2] at hgrp
    exact hw.2.1 grp hgrp
  · intro p q hp1 hp2 hq1 hq2 hadj
    rw [hsh.1] at hp1 hq1
    rw [hsh.2.1] at hp2 hq2
    exact hw.2.2 p q hp1 hp2 hq1 hq2 hadj

theorem SInv_of_candShrink {h g : Grid} {σ : Pos → Nat} (hcs : CandShrink h g)
    (hci : CandInv h σ) (hinv : SInv g σ) : SInv h σ := by
  obtain ⟨hsh, hval, hgid, hsub, hdims⟩ := hcs
  obtain ⟨hwf, hw, _, hge, hcb⟩ := hinv
  refine ⟨WF_transfer hsh hgid (hdims hwf.1) hwf,
    Wit_transfer hsh hval hw, hci, ?_, ?_⟩
  · intro grp hgrp p hp q hq hpv w hqv
    rw [hsh.2.2] at hgrp
    rw [hval p.1 p.2] at hpv
    rw [hval q.1 q.2] at hqv
    intro hmem
    exact hge grp hgrp p hp q hq hpv w hqv (hsub p.1 p.2 hmem)
  · intro r c hr hc hv
    rw [hsh.1] at hr
    rw [hsh.2.1] at hc
    have hv' := hv
    rw [hval r c] at hv'
    intro x hx
    have hxm := hcb r c hr hc hv' (hsub r c hx)
    rw [getGroup_congr hsh.2.2, hgid r c]
    exact hxm

theorem WF_of_candShrink {h g : Grid} (hcs : CandShrink h g) (hwf : WF g) :
    WF h :=
  WF_transfer hcs.1 hcs.2.2.1 (hcs.2.2.2.2 hwf.1) hwf

theorem eraseFoldM_ok (σ : Pos → Nat) (v : Nat) :
    ∀ (l : List Pos) (h : Grid), dimsOk h → CandInv h σ →
      (∀ p ∈ l, (p.1 < h.rows ∧ p.2 < h.cols) ∧
        ((getC h p.1 p.2).value = none → σ p ≠ v)) →
      ∃ h', List.foldlM (eraseCheck v) h l = .ok h' ∧
        CandShrink h' h ∧ CandInv h' σ ∧
        ∀ p ∈ l, (getC h' p.1 p.2).value = none →
          v ∉ (getC h' p.1 p.2).candidates := by
  intro l
  induction l with
  | nil =>
    intro h _ hci _
    exact ⟨h, rfl, CandShrink_refl h, hci,
      fun p hp => absurd hp (List.not_mem_nil p)⟩
  | cons q l ih =>
    intro h hd hci hl
    have hqb := (hl q (List.mem_cons_self q l)).1
    have hqs := (hl q (List.mem_cons_self q l)).2
    have hcs1 : CandShrink (eraseCand h q.1 q.2 v) h :=
      CandShrink_eraseCand h q.1 q.2 v
    have hself : getC (eraseCand h q.1 q.2 v) q.1 q.2 =
        { getC h q.1 q.2 with
          candidates := (getC h q.1 q.2).candidates.erase v } :=
      getC_modC_self h hd hqb.1 hqb.2 _
    have hci1 : CandInv (eraseCand h q.1 q.2 v) σ := by
      intro r c hr hc hv
      by_cases hpq : (q.1, q.2) = (r, c)
      · obtain ⟨e1, e2⟩ := Prod.mk.injEq q.1 q.2 r c ▸ hpq
        subst e1
        subst e2
        have hvh : (getC h q.1 q.2).value = none := by
          rw [← hcs1.2.1 q.1 q.2]
          exact hv
        rw [hself, Finset.mem_erase]
        exact ⟨hqs hvh, hci q.1 q.2 hr hc hvh⟩
      · have hne : getC (eraseCand h q.1 q.2 v) r c = getC h r c :=
          getC_modC_ne h hpq _
        rw [hne]
        rw [hne] at hv
        exact hci r c hr hc hv
    have hcond : ¬((getC (eraseCand h q.1 q.2 v) q.1 q.2).value = none ∧
        (getC (eraseCand h q.1 q.2 v) q.1 q.2).candidates.card = 0) := by
      rintro ⟨h1, h2⟩
      have hmem := hci1 q.1 q.2 hqb.1 hqb.2 h1
      rw [Finset.card_eq_zero] at h2
      rw [h2] at hmem
      exact absurd hmem (Finset.not_mem_empty _)
    have hstep : eraseCheck v h q =
        (pure (eraseCand h q.1 q.2 v) : Except Contra Grid) := by
      show (if (getC (eraseCand h q.1 q.2 v) q.1 q.2).value = none ∧
          (getC (eraseCand h q.1 q.2 v) q.1 q.2).candidates.card = 0 then
          throw Contra.contradiction
        else pure (eraseCand h q.1 q.2 v)) = _
      rw [if_neg hcond]
    have hl1 : ∀ p ∈ l, (p.1 < (eraseCand h q.1 q.2 v).rows ∧
        p.2 < (eraseCand h q.1 q.2 v).cols) ∧
        ((getC (eraseCand h q.1 q.2 v) p.1 p.2).value = none → σ p ≠ v) := by
      intro p hp
      refine ⟨⟨?_, ?_⟩, ?_⟩
      · rw [hcs1.1.1]
        exact (hl p (List.mem_cons_of_mem q hp)).1.1
      · rw [hcs1.1.2.1]
        exact (hl p (List.mem_cons_of_mem q hp)).1.2
      · intro hv
        rw [hcs1.2.1 p.1 p.2] at hv
        exact (hl p (List.mem_cons_of_mem q hp)).2 hv
    obtain ⟨h', hfold, hcs', hci', hnot⟩ :=
      ih (eraseCand h q.1 q.2 v) (hcs1.2.2.2.2 hd) hci1 hl1
    refine ⟨h', ?_, CandShrink_trans hcs' hcs1, hci', ?_⟩
    · rw [List.foldlM_cons, hstep]
      simp only [pure_bind]
      exact hfold
    · intro p hp hv
      rcases List.mem_cons.mp hp with rfl | hmem
      · intro hmem'
        have hsub := hcs'.2.2.2.1 p.1 p.2 hmem'
        rw [hself, Finset.mem_erase] at hsub
        exact hsub.1 rfl
      · exact hnot p hmem hv

theorem placeValue_ok {g : Grid} {σ : Pos → Nat} (hinv : SInv g σ)
    {r c : Nat} (hr : r < g.rows) (hc : c < g.cols)
    (hempty : (getC g r c).value = none) :
    ∃ g', placeValue g r c (σ (r, c)) = .ok g' ∧ SInv g' σ ∧
      shapeEq g' g ∧ Mono g' g ∧
      (getC g' r c).value = some (σ (r, c)) ∧
      (∀ r' c', ¬((r, c) = (r', c')) →
        (getC g' r' c').value = (getC g r' c').value) := by
  obtain ⟨hwf, hw, hci, hge, hcb⟩ := hinv
  obtain ⟨hgmem, hrcmem⟩ := cell_group hwf hr hc
  generalize hv : σ (r, c) = v
  have hd1 : dimsOk (modC g r c
      (fun cell => { cell with value := some v, candidates := ∅ })) :=
    dimsOk_modC g hwf.1 r c _
  have hsh1 : shapeEq (modC g r c
      (fun cell => { cell with value := some v, candidates := ∅ })) g :=
    shapeEq_modC g r c _
  have hself1 : getC (modC g r c
      (fun cell => { cell with value := some v, candidates := ∅ })) r c =
      { getC g r c with value := some v, candidates := ∅ } :=
    getC_modC_self g hwf.1 hr hc _
  have hne1 : ∀ r' c', ¬((r, c) = (r', c')) →
      getC (modC g r c
        (fun cell => { cell with value := some v, candidates := ∅ })) r' c' =
      getC g r' c' :=
    fun r' c' hne => getC_modC_ne g hne _
  have hgid1 : ∀ r' c', (getC (modC g r c
      (fun cell => { cell with value := some v, candidates := ∅ }))
        r' c').group_id = (getC g r' c').group_id := by
    intro r' c'
    by_cases hne : (r, c) = (r', c')
    · obtain ⟨e1, e2⟩ := Prod.mk.injEq r c r' c' ▸ hne
      subst e1
      subst e2
      rw [hself1]
    · rw [hne1 r' c' hne]
  have hci1 : CandInv (modC g r c
      (fun cell => { cell with value := some v, candidates := ∅ })) σ := by
    intro r' c' hr' hc' hv'
    by_cases hne : (r, c) = (r', c')
    · obtain ⟨e1, e2⟩ := Prod.mk.injEq r c r' c' ▸ hne
      subst e1
      subst e2
      rw [hself1] at hv'
      exact Option.noConfusion hv'
    · rw [hne1 r' c' hne] at hv' ⊢
      exact hci r' c' hr' hc' hv'
  have hwf1 : WF (modC g r c
      (fun cell => { cell with value := some v, candidates := ∅ })) :=
    WF_transfer hsh1 hgid1 hd1 hwf
  have hw1 : Wit (modC g r c
      (fun cell => { cell with value := some v, candidates := ∅ })) σ := by
    refine ⟨?_, ?_, ?_⟩
    · intro a b w ha hb hvv
      by_cases hne : (r, c) = (a, b)
      · obtain ⟨e1, e2⟩ := Prod.mk.injEq r c a b ▸ hne
        subst e1
        subst e2
        rw [hself1] at hvv
        have hsw : some v = some w := hvv
        cases Option.some.inj hsw
        exact hv
      · rw [hne1 a b hne] at hvv
        exact hw.1 a b w ha hb hvv
    · intro grp hgrp
      exact hw.2.1 grp hgrp
    · exact hw.2.2
  have hpeers : groupPeers (modC g r c
      (fun cell => { cell with value := some v, candidates := ∅ })) r c =
      groupPeers g r c := by
    unfold groupPeers
    rw [hgid1 r c]
    rfl
  have hl1 : ∀ p ∈ groupPeers (modC g r c
      (fun cell => { cell with value := some v, candidates := ∅ })) r c,
      (p.1 < (modC g r c
        (fun cell => { cell with value := some v, candidates := ∅ })).rows ∧
       p.2 < (modC g r c
        (fun cell => { cell with value := some v, candidates := ∅ })).cols) ∧
      ((getC (modC g r c
        (fun cell => { cell with value := some v, candidates := ∅ }))
          p.1 p.2).value = none → σ p ≠ v) := by
    intro p hp
    rw [hpeers] at hp
    unfold groupPeers at hp
    rw [List.mem_filter] at hp
    obtain ⟨hpmem, hpne⟩ := hp
    have hbounds := ((hwf.2.1 _ hgmem).2.2 p hpmem).1
    refine ⟨hbounds, ?_⟩
    intro _ hcontra
    have hnd : ((getGroup g (getC g r c).group_id).cells.map σ).Nodup :=
      ((hw.2.1 _ hgmem).nodup_iff).mpr (List.nodup_range' _ _)
    have hpeq : p = (r, c) :=
      List.inj_on_of_nodup_map hnd hpmem hrcmem (hcontra.trans hv.symm)
    simp [hpeq] at hpne
  obtain ⟨g2, hfold1, hcs2, hci2, hnot2⟩ :=
    eraseFoldM_ok σ v (groupPeers (modC g r c
      (fun cell => { cell with value := some v, candidates := ∅ })) r c)
      (modC g r c (fun cell => { cell with value := some v, candidates := ∅ }))
      hd1 hci1 hl1
  have hneigh2 : neighborPos g2 r c = neighborPos g r c :=
    neighborPos_congr hcs2.1.1 hcs2.1.2.1 r c
  have hl2 : ∀ p ∈ neighborPos g2 r c,
      (p.1 < g2.rows ∧ p.2 < g2.cols) ∧
      ((getC g2 p.1 p.2).value = none → σ p ≠ v) := by
    intro p hp
    rw [hneigh2] at hp
    have hmem := (mem_neighborPos hr hc p).mp hp
    refine ⟨⟨?_, ?_⟩, ?_⟩
    · rw [hcs2.1.1]
      exact hmem.1
    · rw [hcs2.1.2.1]
      exact hmem.2.1
    · intro _ hcontra
      have hadj := hw.2.2 (r, c) p hr hc hmem.1 hmem.2.1 hmem.2.2
      exact hadj (hv.trans hcontra.symm)
  have hd2 : dimsOk g2 := hcs2.2.2.2.2 hd1
  obtain ⟨g3, hfold2, hcs3, hci3, hnot3⟩ :=
    eraseFoldM_ok σ v (neighborPos g2 r c) g2 hd2 hci2 hl2
  have hcs31 : CandShrink g3 (modC g r c
      (fun cell => { cell with value := some v, candidates := ∅ })) :=
    CandShrink_trans hcs3 hcs2
  have hval3 : ∀ r' c', (getC g3 r' c').value =
      (getC (modC g r c
        (fun cell => { cell with value := some v, candidates := ∅ }))
        r' c').value :=
    fun r' c' => (hcs3.2.1 r' c').trans (hcs2.2.1 r' c')
  have hvrc : (getC g3 r c).value = some v := by
    rw [hval3 r c, hself1]
  have hvne : ∀ r' c', ¬((r, c) = (r', c')) →
      (getC g3 r' c').value = (getC g r' c').value := by
    intro r' c' hne
    rw [hval3 r' c', hne1 r' c' hne]
  have hwf3 : WF g3 := WF_of_candShrink hcs31 hwf1
  have hw3 : Wit g3 σ := Wit_transfer hcs31.1 hval3 hw1
  have hge3 : GroupExcl g3 := by
    intro grp hgrp p hp q hq hpv w hqv
    rw [hcs31.1.2.2] at hgrp
    have hgrpg : grp ∈ g.groups := hgrp
    have hprc : p ≠ (r, c) := by
      intro he
      have hcast : (getC g3 p.1 p.2).value = (getC g3 r c).value := by rw [he]
      rw [hpv] at hcast
      exact Option.noConfusion (hcast.trans hvrc)
    by_cases hqrc : q = (r, c)
    · have hcast : (getC g3 q.1 q.2).value = (getC g3 r c).value := by rw [hqrc]
      rw [hqv] at hcast
      have hwv : some w = some v := hcast.trans hvrc
      cases Option.some.inj hwv
      have h1 := ((hwf.2.1 grp hgrpg).2.2 q hq).2
      have h2 : (getC g q.1 q.2).group_id = (getC g r c).group_id := by
        rw [hqrc]
      have hgidrc : (getC g r c).group_id = grp.id := h2.symm.trans h1
      have hpg : p ∈ groupPeers g r c := by
        unfold groupPeers
        rw [hgidrc, getGroup_eq_of_mem hwf hgrpg]
        rw [List.mem_filter]
        exact ⟨hp, by simp [hprc]⟩
      have hpg1 : p ∈ groupPeers (modC g r c
          (fun cell => { cell with value := some v, candidates := ∅ })) r c := by
        rw [hpeers]
        exact hpg
      have hpv2 : (getC g2 p.1 p.2).value = none := by
        rw [← hcs3.2.1 p.1 p.2]
        exact hpv
      have hnotv := hnot2 p hpg1 hpv2
      intro hmem
      exact hnotv (hcs3.2.2.2.1 p.1 p.2 hmem)
    · have hqne : ¬((r, c) = (q.1, q.2)) := fun he => hqrc he.symm
      have hqvg : (getC g q.1 q.2).value = some w := by
        rw [← hvne q.1 q.2 hqne]
        exact hqv
      have hpne' : ¬((r, c) = (p.1, p.2)) := fun he => hprc he.symm
      have hpvg : (getC g p.1 p.2).value = none := by
        rw [← hvne p.1 p.2 hpne']
        exact hpv
      have hnotg : w ∉ (getC g p.1 p.2).candidates :=
        hge grp hgrpg p hp q hq hpvg w hqvg
      intro hmem
      apply hnotg
      have h1 := hcs31.2.2.2.1 p.1 p.2 hmem
      rw [hne1 p.1 p.2 hpne'] at h1
      exact h1
  have hcb3 : CandBound g3 := by
    intro a b ha hb hv'
    rw [hcs31.1.1] at ha
    rw [hcs31.1.2.1] at hb
    by_cases hne : (r, c) = (a, b)
    · exfalso
      obtain ⟨e1, e2⟩ := Prod.mk.injEq r c a b ▸ hne
      subst e1
      subst e2
      rw [hvrc] at hv'
      exact Option.noConfusion hv'
    · have hvg : (getC g a b).value = none := by
        rw [← hvne a b hne]
        exact hv'
      intro x hx
      have hxg : x ∈ (getC g a b).candidates := by
        have h1 := hcs31.2.2.2.1 a b hx
        rw [hne1 a b hne] at h1
        exact h1
      have hres := hcb a b ha hb hvg hxg
      rw [getGroup_congr hcs31.1.2.2, hcs31.2.2.1 a b, hgid1 a b]
      exact hres
  have hm : Mono g3 g := by
    constructor
    · intro a b w hab
      by_cases hne : (r, c) = (a, b)
      · exfalso
        obtain ⟨e1, e2⟩ := Prod.mk.injEq r c a b ▸ hne
        subst e1
        subst e2
        rw [hempty] at hab
        exact Option.noConfusion hab
      · rw [hvne a b hne]
        exact hab
    · intro a b
      by_cases hne : (r, c) = (a, b)
      · obtain ⟨e1, e2⟩ := Prod.mk.injEq r c a b ▸ hne
        subst e1
        subst e2
        intro x hx
        have h1 := hcs31.2.2.2.1 r c hx
        rw [hself1] at h1
        exact absurd h1 (Finset.not_mem_empty x)
      · intro x hx
        have h1 := hcs31.2.2.2.1 a b hx
        rw [hne1 a b hne] at h1
        exact h1
  refine ⟨g3, ?_, ⟨hwf3, hw3, hci3, hge3, hcb3⟩,
    shapeEq_trans hcs31.1 hsh1, hm, hvrc, hvne⟩
  have hbind : placeValue g r c v =
      (List.foldlM (eraseCheck v)
        (modC g r c (fun cell => { cell with value := some v, candidates := ∅ }))
        (groupPeers (modC g r c
          (fun cell => { cell with value := some v, candidates := ∅ })) r c)) >>=
      (fun gg => List.foldlM (eraseCheck v) gg (neighborPos gg r c)) := rfl
  rw [hbind, hfold1]
  exact hfold2

theorem headD_ascList_of_unique {s : Finset Nat} {a : Nat} (ha : a ∈ s)
    (huniq : ∀ x ∈ s, x = a) : (ascList s).headD 0 = a := by
  cases hl : ascList s with
  | nil =>
    rw [← mem_ascList] at ha
    rw [hl] at ha
    exact absurd ha (List.not_mem_nil a)
  | cons x t =>
    have hx : x ∈ ascList s := by
      rw [hl]
      exact List.mem_cons_self x t
    rw [mem_ascList] at hx
    rw [List.headD_cons]
    exact huniq x hx

theorem singleton_candidates {s : Finset Nat} {a : Nat} (hcard : s.card = 1)
    (ha : a ∈ s) : (ascList s).headD 0 = a := by
  obtain ⟨b, hb⟩ := Finset.card_eq_one.mp hcard
  subst hb
  apply headD_ascList_of_unique ha
  intro x hx
  rw [Finset.mem_singleton] at hx ha
  rw [hx, ha]

theorem nakedFold_ok (σ : Pos → Nat) (g₀ : Grid) :
    ∀ (l : List Pos), (∀ p ∈ l, p.1 < g₀.rows ∧ p.2 < g₀.cols) →
      ∀ (acc : SState × Bool), SInv acc.1.1 σ → shapeEq acc.1.1 g₀ →
        Mono acc.1.1 g₀ →
      ∃ s' b', List.foldlM nakedStep acc l = .ok (s', b') ∧
        SInv s'.1 σ ∧ shapeEq s'.1 g₀ ∧ Mono s'.1 g₀ := by
  intro l
  induction l with
  | nil =>
    intro _ acc hinv hsh hm
    exact ⟨acc.1, acc.2, rfl, hinv, hsh, hm⟩
  | cons p l ih =>
    intro hb acc hinv hsh hm
    obtain ⟨⟨h, ts⟩, flag⟩ := acc
    have hbl : ∀ q ∈ l, q.1 < g₀.rows ∧ q.2 < g₀.cols :=
      fun q hq => hb q (List.mem_cons_of_mem p hq)
    by_cases hcond : (getC h p.1 p.2).value = none ∧
        (getC h p.1 p.2).candidates.card = 1
    · have hpb : p.1 < h.rows ∧ p.2 < h.cols := by
        constructor
        · rw [hsh.1]
          exact (hb p (List.mem_cons_self p l)).1
        · rw [hsh.2.1]
          exact (hb p (List.mem_cons_self p l)).2
      have hsig : σ (p.1, p.2) ∈ (getC h p.1 p.2).candidates :=
        hinv.2.2.1 p.1 p.2 hpb.1 hpb.2 hcond.1
      have hhead : (ascList (getC h p.1 p.2).candidates).headD 0 =
          σ (p.1, p.2) := singleton_candidates hcond.2 hsig
      obtain ⟨g', hplace, hinv', hsh', hm', _, _⟩ :=
        placeValue_ok hinv hpb.1 hpb.2 hcond.1
      have hred : nakedStep ((h, ts), flag) p =
          (if (getC h p.1 p.2).value = none ∧
            (getC h p.1 p.2).candidates.card = 1 then
            (placeValue h p.1 p.2
              ((ascList (getC h p.1 p.2).candidates).headD 0)) >>=
              (fun g => pure ((g, insert Tech.naked_single ts), true))
          else pure ((h, ts), flag)) := rfl
      have hstep : nakedStep ((h, ts), flag) p =
          .ok ((g', insert Tech.naked_single ts), true) := by
        rw [hred, if_pos hcond, hhead, hplace]
        rfl
      obtain ⟨s', b', hfold, hinv'', hsh'', hm''⟩ :=
        ih hbl ((g', insert Tech.naked_single ts), true) hinv'
          (shapeEq_trans hsh' hsh) (Mono_trans hm' hm)
      refine ⟨s', b', ?_, hinv'', hsh'', hm''⟩
      rw [List.foldlM_cons, hstep]
      exact hfold
    · have hred : nakedStep ((h, ts), flag) p =
          (if (getC h p.1 p.2).value = none ∧
            (getC h p.1 p.2).candidates.card = 1 then
            (placeValue h p.1 p.2
              ((ascList (getC h p.1 p.2).candidates).headD 0)) >>=
              (fun g => pure ((g, insert Tech.naked_single ts), true))
          else pure ((h, ts), flag)) := rfl
      have hstep : nakedStep ((h, ts), flag) p = .ok ((h, ts), flag) := by
        rw [hred, if_neg hcond]
        rfl
      obtain ⟨s', b', hfold, hinv'', hsh'', hm''⟩ :=
        ih hbl ((h, ts), flag) hinv hsh hm
      refine ⟨s', b', ?_, hinv'', hsh'', hm''⟩
      rw [List.foldlM_cons, hstep]
      exact hfold

theorem nakedSingle_ok {σ : Pos → Nat} {s : SState} (hinv : SInv s.1 σ) :
    ∃ s' b', nakedSingle s = .ok (s', b') ∧ SInv s'.1 σ ∧
      shapeEq s'.1 s.1 ∧ Mono s'.1 s.1 :=
  nakedFold_ok σ s.1 (allPositions s.1.rows s.1.cols)
    (fun p hp => mem_allPositions.mp hp) ((s, false)) hinv
    (shapeEq_refl s.1) (Mono_refl s.1)

theorem sigma_cell_exists {g : Grid} {σ : Pos → Nat} (hw : Wit g σ)
    {grp : Group} (hgrp : grp ∈ g.groups) {v : Nat} (h1 : 1 ≤ v)
    (h2 : v ≤ grp.size) : ∃ m ∈ grp.cells, σ m = v := by
  have hperm := hw.2.1 grp hgrp
  have hvmem : v ∈ grp.cells.map σ := by
    rw [hperm.mem_iff, List.mem_range'_1]
    omega
  obtain ⟨m, hm, hmv⟩ := List.mem_map.mp hvmem
  exact ⟨m, hm, hmv⟩

theorem mem_holdersOf {g0 : Grid} {grp : Group} {v : Nat} {p : Pos} :
    p ∈ holdersOf g0 grp v ↔ p ∈ grp.cells ∧
      (getC g0 p.1 p.2).value = none ∧ v ∈ (getC g0 p.1 p.2).candidates := by
  unfold holdersOf
  rw [List.mem_filter]
  constructor
  · rintro ⟨h1, h2⟩
    have h3 := of_decide_eq_true h2
    exact ⟨h1, h3.1, h3.2⟩
  · rintro ⟨h1, h2, h3⟩
    exact ⟨h1, decide_eq_true ⟨h2, h3⟩⟩

theorem holder_is_sigma_cell {g0 : Grid} {σ : Pos → Nat} (hinv : SInv g0 σ)
    {grp : Group} (hgrp : grp ∈ g0.groups) {v : Nat}
    (hcount : (holdersOf g0 grp v).length = 1) {p : Pos}
    (hp : p ∈ grp.cells) (hpv : (getC g0 p.1 p.2).value = none)
    (hpc : v ∈ (getC g0 p.1 p.2).candidates) : σ p = v := by
  have hph : p ∈ holdersOf g0 grp v := mem_holdersOf.mpr ⟨hp, hpv, hpc⟩
  have hbp := ((hinv.1.2.1 grp hgrp).2.2 p hp).1
  have hrange := hinv.2.2.2.2 p.1 p.2 hbp.1 hbp.2 hpv hpc
  rw [((hinv.1.2.1 grp hgrp).2.2 p hp).2,
    getGroup_eq_of_mem hinv.1 hgrp, Finset.mem_Icc] at hrange
  obtain ⟨m, hm, hmv⟩ := sigma_cell_exists hinv.2.1 hgrp hrange.1 hrange.2
  have hbm := ((hinv.1.2.1 grp hgrp).2.2 m hm).1
  have hmempty : (getC g0 m.1 m.2).value = none := by
    cases hmv' : (getC g0 m.1 m.2).value with
    | none => rfl
    | some w =>
      exfalso
      have hagree : σ m = w := hinv.2.1.1 m.1 m.2 w hbm.1 hbm.2 hmv'
      have hwv : w = v := hagree.symm.trans hmv
      subst hwv
      exact hinv.2.2.2.1 grp hgrp p hp m hm hpv w hmv' hpc
  have hmc : v ∈ (getC g0 m.1 m.2).candidates := by
    have hin := hinv.2.2.1 m.1 m.2 hbm.1 hbm.2 hmempty
    have hmv2 : σ (m.1, m.2) = v := hmv
    rw [hmv2] at hin
    exact hin
  have hmh : m ∈ holdersOf g0 grp v := mem_holdersOf.mpr ⟨hm, hmempty, hmc⟩
  obtain ⟨a, ha⟩ := List.length_eq_one.mp hcount
  rw [ha, List.mem_singleton] at hph hmh
  rw [hph, ← hmh]
  exact hmv

theorem hiddenPlace_ok {σ : Pos → Nat} {g0 : Grid} (hinv0 : SInv g0 σ)
    {grp : Group} (hgrp : grp ∈ g0.groups) {v : Nat}
    (hcount : (holdersOf g0 grp v).length = 1)
    (acc : SState × Bool) (hinv : SInv acc.1.1 σ) (hsh : shapeEq acc.1.1 g0)
    (hm : Mono acc.1.1 g0) :
    ∃ s' b', hiddenPlace grp acc v = .ok (s', b') ∧ SInv s'.1 σ ∧
      shapeEq s'.1 g0 ∧ Mono s'.1 g0 := by
  obtain ⟨⟨h, ts⟩, flag⟩ := acc
  have hred : hiddenPlace grp ((h, ts), flag) v =
      (match grp.cells.find? (fun p =>
          (getC h p.1 p.2).value = none ∧ v ∈ (getC h p.1 p.2).candidates) with
      | some p => (placeValue h p.1 p.2 v) >>=
          (fun g => pure ((g, insert Tech.hidden_single ts), true))
      | none => pure ((h, ts), flag)) := rfl
  cases hfind : grp.cells.find? (fun p =>
      (getC h p.1 p.2).value = none ∧ v ∈ (getC h p.1 p.2).candidates) with
  | none =>
    refine ⟨(h, ts), flag, ?_, hinv, hsh, hm⟩
    rw [hred, hfind]
    rfl
  | some p =>
    have hpmem := List.mem_of_find?_eq_some hfind
    have hfs := List.find?_some hfind
    have hp2 := of_decide_eq_true hfs
    have hpv0 : (getC g0 p.1 p.2).value = none := by
      cases hv0 : (getC g0 p.1 p.2).value with
      | none => rfl
      | some w =>
        exfalso
        have hcontra := hm.1 p.1 p.2 w hv0
        rw [hp2.1] at hcontra
        exact Option.noConfusion hcontra
    have hpc0 : v ∈ (getC g0 p.1 p.2).candidates := hm.2 p.1 p.2 hp2.2
    have hsig : σ p = v :=
      holder_is_sigma_cell hinv0 hgrp hcount hpmem hpv0 hpc0
    have hb0 := ((hinv0.1.2.1 grp hgrp).2.2 p hpmem).1
    have hbh : p.1 < h.rows ∧ p.2 < h.cols := by
      constructor
      · rw [hsh.1]
        exact hb0.1
      · rw [hsh.2.1]
        exact hb0.2
    obtain ⟨g', hplace, hinv', hsh', hm', _, _⟩ :=
      placeValue_ok hinv hbh.1 hbh.2 hp2.1
    have hsig' : σ (p.1, p.2) = v := hsig
    rw [hsig'] at hplace
    refine ⟨(g', insert Tech.hidden_single ts), true, ?_, hinv',
      shapeEq_trans hsh' hsh, Mono_trans hm' hm⟩
    rw [hred, hfind]
    show (placeValue h p.1 p.2 v) >>=
        (fun g => pure ((g, insert Tech.hidden_single ts), true)) =
      .ok ((g', insert Tech.hidden_single ts), true)
    rw [hplace]
    rfl

theorem hiddenFold_ok {σ : Pos → Nat} {g0 : Grid} (hinv0 : SInv g0 σ)
    {grp : Group} (hgrp : grp ∈ g0.groups) :
    ∀ (l : List Nat), (∀ v ∈ l, (holdersOf g0 grp v).length = 1) →
      ∀ (acc : SState × Bool), SInv acc.1.1 σ → shapeEq acc.1.1 g0 →
        Mono acc.1.1 g0 →
      ∃ s' b', List.foldlM (hiddenPlace grp) acc l = .ok (s', b') ∧
        SInv s'.1 σ ∧ shapeEq s'.1 g0 ∧ Mono s'.1 g0 := by
  intro l
  induction l with
  | nil =>
    intro _ acc hinv hsh hm
    exact ⟨acc.1, acc.2, rfl, hinv, hsh, hm⟩
  | cons v l ih =>
    intro hl acc hinv hsh hm
    obtain ⟨s1, b1, hstep, hinv1, hsh1, hm1⟩ :=
      hiddenPlace_ok hinv0 hgrp (hl v (List.mem_cons_self v l)) acc hinv hsh hm
    obtain ⟨s', b', hfold, hinv', hsh', hm'⟩ :=
      ih (fun u hu => hl u (List.mem_cons_of_mem v hu)) (s1, b1) hinv1 hsh1 hm1
    refine ⟨s', b', ?_, hinv', hsh', hm'⟩
    rw [List.foldlM_cons, hstep]
    exact hfold

theorem hiddenGroupStep_ok {σ : Pos → Nat} {G : Grid}
    (acc : SState × Bool) (grp : Group) (hgrp : grp ∈ acc.1.1.groups)
    (hinv : SInv acc.1.1 σ) (hsh : shapeEq acc.1.1 G) (hm : Mono acc.1.1 G) :
    ∃ s' b', hiddenGroupStep acc grp = .ok (s', b') ∧ SInv s'.1 σ ∧
      shapeEq s'.1 G ∧ Mono s'.1 G := by
  obtain ⟨⟨g0, ts⟩, flag⟩ := acc
  have hred : hiddenGroupStep ((g0, ts), flag) grp =
      List.foldlM (hiddenPlace grp) ((g0, ts), flag)
        ((List.range (grp.size + 1)).filter
          (fun v => (holdersOf g0 grp v).length = 1)) := rfl
  obtain ⟨s', b', hfold, hinv', hsh', hm'⟩ :=
    hiddenFold_ok hinv hgrp
      ((List.range (grp.size + 1)).filter
        (fun v => (holdersOf g0 grp v).length = 1))
      (fun v hv => by
        have h1 := List.of_mem_filter hv
        exact of_decide_eq_true h1)
      ((g0, ts), flag) hinv (shapeEq_refl g0) (Mono_refl g0)
  refine ⟨s', b', ?_, hinv', shapeEq_trans hsh' hsh, Mono_trans hm' hm⟩
  rw [hred]
  exact hfold

theorem hiddenGroupsFold_ok {σ : Pos → Nat} {G : Grid} :
    ∀ (L : List Group), (∀ grp ∈ L, grp ∈ G.groups) →
      ∀ (acc : SState × Bool), SInv acc.1.1 σ → shapeEq acc.1.1 G →
        Mono acc.1.1 G →
      ∃ s' b', List.foldlM hiddenGroupStep acc L = .ok (s', b') ∧
        SInv s'.1 σ ∧ shapeEq s'.1 G ∧ Mono s'.1 G := by
  intro L
  induction L with
  | nil =>
    intro _ acc hinv hsh hm
    exact ⟨acc.1, acc.2, rfl, hinv, hsh, hm⟩
  | cons grp L ih =>
    intro hL acc hinv hsh hm
    have hgrp : grp ∈ acc.1.1.groups := by
      rw [hsh.2.2]
      exact hL grp (List.mem_cons_self grp L)
    obtain ⟨s1, b1, hstep, hinv1, hsh1, hm1⟩ :=
      hiddenGroupStep_ok acc grp hgrp hinv hsh hm
    obtain ⟨s', b', hfold, hinv', hsh', hm'⟩ :=
      ih (fun u hu => hL u (List.mem_cons_of_mem grp hu)) (s1, b1)
        hinv1 hsh1 hm1
    refine ⟨s', b', ?_, hinv', hsh', hm'⟩
    rw [List.foldlM_cons, hstep]
    exact hfold

theorem hiddenSingle_ok {σ : Pos → Nat} {s : SState} (hinv : SInv s.1 σ) :
    ∃ s' b', hiddenSingle s = .ok (s', b') ∧ SInv s'.1 σ ∧
      shapeEq s'.1 s.1 ∧ Mono s'.1 s.1 :=
  hiddenGroupsFold_ok s.1.groups (fun grp hg => hg) ((s, false)) hinv
    (shapeEq_refl s.1) (Mono_refl s.1)

theorem sigma_holder {g0 : Grid} {σ : Pos → Nat} (hinv : SInv g0 σ)
    {grp : Group} (hgrp : grp ∈ g0.groups) {v : Nat} {p0 : Pos}
    (hp0 : p0 ∈ holdersOf g0 grp v) :
    ∃ m ∈ holdersOf g0 grp v, σ m = v := by
  obtain ⟨hp, hpv, hpc⟩ := mem_holdersOf.mp hp0
  have hbp := ((hinv.1.2.1 grp hgrp).2.2 p0 hp).1
  have hrange := hinv.2.2.2.2 p0.1 p0.2 hbp.1 hbp.2 hpv hpc
  rw [((hinv.1.2.1 grp hgrp).2.2 p0 hp).2,
    getGroup_eq_of_mem hinv.1 hgrp, Finset.mem_Icc] at hrange
  obtain ⟨m, hm, hmv⟩ := sigma_cell_exists hinv.2.1 hgrp hrange.1 hrange.2
  have hbm := ((hinv.1.2.1 grp hgrp).2.2 m hm).1
  have hmempty : (getC g0 m.1 m.2).value = none := by
    cases hmv' : (getC g0 m.1 m.2).value with
    | none => rfl
    | some w =>
      exfalso
      have hagree : σ m = w := hinv.2.1.1 m.1 m.2 w hbm.1 hbm.2 hmv'
      have hwv : w = v := hagree.symm.trans hmv
      subst hwv
      exact hinv.2.2.2.1 grp hgrp p0 hp m hm hpv w hmv' hpc
  have hmc : v ∈ (getC g0 m.1 m.2).candidates := by
    have hin := hinv.2.2.1 m.1 m.2 hbm.1 hbm.2 hmempty
    have hmv2 : σ (m.1, m.2) = v := hmv
    rw [hmv2] at hin
    exact hin
  exact ⟨m, mem_holdersOf.mpr ⟨hm, hmempty, hmc⟩, hmv⟩

theorem neighElimCellFold_ok {σ : Pos → Nat} {G : Grid} (hdG : dimsOk G)
    (v : Nat) :
    ∀ (l : List Pos) (acc : SState × Bool),
      (∀ q ∈ l, (q.1 < G.rows ∧ q.2 < G.cols) ∧ σ q ≠ v) →
      SInv acc.1.1 σ → CandShrink acc.1.1 G →
      SInv (l.foldl (neighElimCell v) acc).1.1 σ ∧
      CandShrink (l.foldl (neighElimCell v) acc).1.1 G := by
  intro l
  induction l with
  | nil =>
    intro acc _ hinv hcs
    exact ⟨hinv, hcs⟩
  | cons q l ih =>
    intro acc hb hinv hcs
    obtain ⟨⟨h, ts⟩, flag⟩ := acc
    have hbq := (hb q (List.mem_cons_self q l)).1
    have hsq := (hb q (List.mem_cons_self q l)).2
    have hbl : ∀ u ∈ l, (u.1 < G.rows ∧ u.2 < G.cols) ∧ σ u ≠ v :=
      fun u hu => hb u (List.mem_cons_of_mem q hu)
    have hred : neighElimCell v ((h, ts), flag) q =
        (if (getC h q.1 q.2).value = none ∧ v ∈ (getC h q.1 q.2).candidates then
          ((eraseCand h q.1 q.2 v, insert Tech.neighbor_elimination ts), true)
        else ((h, ts), flag)) := rfl
    rw [List.foldl_cons, hred]
    by_cases hcond : (getC h q.1 q.2).value = none ∧
        v ∈ (getC h q.1 q.2).candidates
    · rw [if_pos hcond]
      have hdh : dimsOk h := hcs.2.2.2.2 hdG
      have hbqh : q.1 < h.rows ∧ q.2 < h.cols := by
        constructor
        · rw [hcs.1.1]
          exact hbq.1
        · rw [hcs.1.2.1]
          exact hbq.2
      have hself : getC (eraseCand h q.1 q.2 v) q.1 q.2 =
          { getC h q.1 q.2 with
            candidates := (getC h q.1 q.2).candidates.erase v } :=
        getC_modC_self h hdh hbqh.1 hbqh.2 _
      have hcs1 : CandShrink (eraseCand h q.1 q.2 v) h :=
        CandShrink_eraseCand h q.1 q.2 v
      have hci1 : CandInv (eraseCand h q.1 q.2 v) σ := by
        intro a b ha hb' hv'
        by_cases hpq : (q.1, q.2) = (a, b)
        · obtain ⟨e1, e2⟩ := Prod.mk.injEq q.1 q.2 a b ▸ hpq
          subst e1
          subst e2
          rw [hself, Finset.mem_erase]
          have hvh : (getC h q.1 q.2).value = none := by
            rw [← hcs1.2.1 q.1 q.2]
            exact hv'
          exact ⟨hsq, hinv.2.2.1 q.1 q.2 ha hb' hvh⟩
        · have hne : getC (eraseCand h q.1 q.2 v) a b = getC h a b :=
            getC_modC_ne h hpq _
          rw [hne]
          rw [hne] at hv'
          exact hinv.2.2.1 a b ha hb' hv'
      exact ih ((eraseCand h q.1 q.2 v, insert Tech.neighbor_elimination ts),
          true) hbl (SInv_of_candShrink hcs1 hci1 hinv)
        (CandShrink_trans hcs1 hcs)
    · rw [if_neg hcond]
      exact ih ((h, ts), flag) hbl hinv hcs

theorem neighElimVal_ok {σ : Pos → Nat} {g0 : Grid} (hinv0 : SInv g0 σ)
    {grp : Group} (hgrp : grp ∈ g0.groups) (acc : SState × Bool) (v : Nat)
    (hinv : SInv acc.1.1 σ) (hcs : CandShrink acc.1.1 g0) :
    SInv (neighElimVal g0 grp acc v).1.1 σ ∧
    CandShrink (neighElimVal g0 grp acc v).1.1 g0 := by
  have hred : neighElimVal g0 grp acc v =
      (if 1 < (holdersOf g0 grp v).length then
        (match holdersOf g0 grp v with
          | [] => []
          | p0 :: rest =>
            (neighborPos g0 p0.1 p0.2).filter
              (fun q => rest.all
                (fun p => q ∈ neighborPos g0 p.1 p.2))).foldl
          (neighElimCell v) acc
      else acc) := rfl
  rw [hred]
  by_cases hlen : 1 < (holdersOf g0 grp v).length
  · rw [if_pos hlen]
    cases hhs : holdersOf g0 grp v with
    | nil =>
      rw [hhs] at hlen
      exact absurd hlen (by simp)
    | cons p0 rest =>
      apply neighElimCellFold_ok hinv0.1.1 v _ acc ?_ hinv hcs
      intro q hq
      rw [List.mem_filter] at hq
      obtain ⟨hq1, hq2⟩ := hq
      have hp0h : p0 ∈ holdersOf g0 grp v := by
        rw [hhs]
        exact List.mem_cons_self p0 rest
      obtain ⟨m, hmh, hmv⟩ := sigma_holder hinv0 hgrp hp0h
      have hmhs : m ∈ p0 :: rest := by
        rw [← hhs]
        exact hmh
      have hqm : q ∈ neighborPos g0 m.1 m.2 := by
        rcases List.mem_cons.mp hmhs with rfl | hmr
        · exact hq1
        · have hall := hq2
          rw [List.all_eq_true] at hall
          exact of_decide_eq_true (hall m hmr)
      have hmb := ((hinv0.1.2.1 grp hgrp).2.2 m (mem_holdersOf.mp hmh).1).1
      have hqmem := (mem_neighborPos hmb.1 hmb.2 q).mp hqm
      refine ⟨⟨hqmem.1, hqmem.2.1⟩, ?_⟩
      intro hqv
      exact hinv0.2.1.2.2 m q hmb.1 hmb.2 hqmem.1 hqmem.2.1 hqmem.2.2
        (hmv.trans hqv.symm)
  · rw [if_neg hlen]
    exact ⟨hinv, hcs⟩

theorem neighElimValFold_ok {σ : Pos → Nat} {g0 : Grid} (hinv0 : SInv g0 σ)
    {grp : Group} (hgrp : grp ∈ g0.groups) :
    ∀ (l : List Nat) (acc : SState × Bool), SInv acc.1.1 σ →
      CandShrink acc.1.1 g0 →
      SInv ((l.foldl (neighElimVal g0 grp) acc)).1.1 σ ∧
      CandShrink ((l.foldl (neighElimVal g0 grp) acc)).1.1 g0 := by
  intro l
  induction l with
  | nil =>
    intro acc hinv hcs
    exact ⟨hinv, hcs⟩
  | cons v l ih =>
    intro acc hinv hcs
    rw [List.foldl_cons]
    obtain ⟨h1, h2⟩ := neighElimVal_ok hinv0 hgrp acc v hinv hcs
    exact ih (neighElimVal g0 grp acc v) h1 h2

theorem neighElimGroup_ok {σ : Pos → Nat} {G : Grid} (acc : SState × Bool)
    (grp : Group) (hgrp : grp ∈ acc.1.1.groups) (hinv : SInv acc.1.1 σ)
    (hsh : shapeEq acc.1.1 G) (hm : Mono acc.1.1 G) :
    SInv (neighElimGroup acc grp).1.1 σ ∧
    shapeEq (neighElimGroup acc grp).1.1 G ∧
    Mono (neighElimGroup acc grp).1.1 G := by
  obtain ⟨⟨g0, ts⟩, flag⟩ := acc
  have hred : neighElimGroup ((g0, ts), flag) grp =
      (List.range (grp.size + 1)).foldl (neighElimVal g0 grp)
        ((g0, ts), flag) := rfl
  rw [hred]
  obtain ⟨hinv', hcs'⟩ := neighElimValFold_ok hinv hgrp
    (List.range (grp.size + 1)) ((g0, ts), flag) hinv (CandShrink_refl g0)
  exact ⟨hinv', shapeEq_trans hcs'.1 hsh,
    Mono_trans (Mono_of_candShrink hcs') hm⟩

theorem neighGroupsFold_ok {σ : Pos → Nat} {G : Grid} :
    ∀ (L : List Group), (∀ grp ∈ L, grp ∈ G.groups) →
      ∀ (acc : SState × Bool), SInv acc.1.1 σ → shapeEq acc.1.1 G →
        Mono acc.1.1 G →
      SInv ((L.foldl neighElimGroup acc)).1.1 σ ∧
      shapeEq ((L.foldl neighElimGroup acc)).1.1 G ∧
      Mono ((L.foldl neighElimGroup acc)).1.1 G := by
  intro L
  induction L with
  | nil =>
    intro _ acc hinv hsh hm
    exact ⟨hinv, hsh, hm⟩
  | cons grp L ih =>
    intro hL acc hinv hsh hm
    rw [List.foldl_cons]
    have hgrp : grp ∈ acc.1.1.groups := by
      rw [hsh.2.2]
      exact hL grp (List.mem_cons_self grp L)
    obtain ⟨h1, h2, h3⟩ := neighElimGroup_ok acc grp hgrp hinv hsh hm
    exact ih (fun u hu => hL u (List.mem_cons_of_mem grp hu))
      (neighElimGroup acc grp) h1 h2 h3

theorem neighborElim_ok {σ : Pos → Nat} {s : SState} (hinv : SInv s.1 σ) :
    SInv (neighborElim s).1.1 σ ∧ shapeEq (neighborElim s).1.1 s.1 ∧
    Mono (neighborElim s).1.1 s.1 :=
  neighGroupsFold_ok s.1.groups (fun _ h => h) ((s, false)) hinv
    (shapeEq_refl s.1) (Mono_refl s.1)

theorem combos_sublist {A : Type} : ∀ (l : List A) (n : Nat) (cb : List A),
    cb ∈ combos n l → cb.Sublist l ∧ cb.length = n := by
  intro l
  induction l with
  | nil =>
    intro n cb hcb
    cases n with
    | zero =>
      simp only [combos] at hcb
      rw [List.mem_singleton] at hcb
      subst hcb
      exact ⟨List.nil_sublist _, rfl⟩
    | succ n =>
      simp only [combos] at hcb
      exact absurd hcb (List.not_mem_nil cb)
  | cons x xs ih =>
    intro n cb hcb
    cases n with
    | zero =>
      simp only [combos] at hcb
      rw [List.mem_singleton] at hcb
      subst hcb
      exact ⟨List.nil_sublist _, rfl⟩
    | succ n =>
      simp only [combos] at hcb
      rw [List.mem_append] at hcb
      rcases hcb with hcb | hcb
      · rw [List.mem_map] at hcb
        obtain ⟨cb', hcb', rfl⟩ := hcb
        obtain ⟨hsub, hlen⟩ := ih n cb' hcb'
        exact ⟨List.Sublist.cons₂ x hsub, by rw [List.length_cons, hlen]⟩
      · obtain ⟨hsub, hlen⟩ := ih (n + 1) cb hcb
        exact ⟨List.Sublist.cons x hsub, hlen⟩

theorem mem_union_foldl (g : Grid) (x : Nat) :
    ∀ (combo : List Pos) (init : Finset Nat),
      x ∈ combo.foldl (fun u p => u ∪ (getC g p.1 p.2).candidates) init ↔
      x ∈ init ∨ ∃ p ∈ combo, x ∈ (getC g p.1 p.2).candidates := by
  intro combo
  induction combo with
  | nil =>
    intro init
    simp
  | cons p l ih =>
    intro init
    rw [List.foldl_cons, ih]
    simp only [Finset.mem_union, List.mem_cons]
    constructor
    · rintro (⟨h | h⟩ | ⟨q, hq, hx⟩)
      · exact Or.inl h
      · exact Or.inr ⟨p, Or.inl rfl, h⟩
      · exact Or.inr ⟨q, Or.inr hq, hx⟩
    · rintro (h | ⟨q, (rfl | hq), hx⟩)
      · exact Or.inl (Or.inl h)
      · exact Or.inl (Or.inr hx)
      · exact Or.inr ⟨q, hq, hx⟩

theorem sigma_image_eq {σ : Pos → Nat} {combo : List Pos} (hnd : combo.Nodup)
    (hinj : ∀ p ∈ combo, ∀ q ∈ combo, σ p = σ q → p = q)
    {U : Finset Nat} (hsub : ∀ p ∈ combo, σ p ∈ U)
    (hcard : U.card = combo.length) :
    ∀ x ∈ U, ∃ p ∈ combo, σ p = x := by
  have h1 : (combo.map σ).toFinset ⊆ U := by
    intro x hx
    rw [List.mem_toFinset, List.mem_map] at hx
    obtain ⟨p, hp, rfl⟩ := hx
    exact hsub p hp
  have hnd2 : (combo.map σ).Nodup := List.Nodup.map_on hinj hnd
  have h2 : (combo.map σ).toFinset.card = combo.length := by
    rw [List.toFinset_card_of_nodup hnd2, List.length_map]
  have h3 : (combo.map σ).toFinset = U :=
    Finset.eq_of_subset_of_card_le h1 (by rw [h2, hcard])
  intro x hx
  rw [← h3, List.mem_toFinset, List.mem_map] at hx
  obtain ⟨p, hp, hps⟩ := hx
  exact ⟨p, hp, hps⟩

theorem nsRemoveFold_ok {σ : Pos → Nat} {g0 : Grid} (hdG : dimsOk g0)
    (combo : List Pos) (union : Finset Nat) :
    ∀ (l : List Pos), (∀ p ∈ l, p.1 < g0.rows ∧ p.2 < g0.cols) →
      (∀ p ∈ l, (getC g0 p.1 p.2).value = none → p ∉ combo → σ p ∉ union) →
      ∀ (acc : SState × Bool), SInv acc.1.1 σ → CandShrink acc.1.1 g0 →
      SInv ((l.foldl (nsRemoveCell combo union) acc)).1.1 σ ∧
      CandShrink ((l.foldl (nsRemoveCell combo union) acc)).1.1 g0 := by
  intro l
  induction l with
  | nil =>
    intro _ _ acc hinv hcs
    exact ⟨hinv, hcs⟩
  | cons p l ih =>
    intro hb hn acc hinv hcs
    obtain ⟨⟨h, ts⟩, flag⟩ := acc
    have hbp := hb p (List.mem_cons_self p l)
    have hbl := fun u hu => hb u (List.mem_cons_of_mem p hu)
    have hnl := fun u hu => hn u (List.mem_cons_of_mem p hu)
    have hred : nsRemoveCell combo union ((h, ts), flag) p =
        (if p ∉ combo ∧ (getC h p.1 p.2).value = none then
          (if ((getC h p.1 p.2).candidates \ union).card <
              (getC h p.1 p.2).candidates.card then
            ((modC h p.1 p.2 (fun c0 =>
              { c0 with candidates := (getC h p.1 p.2).candidates \ union }),
              insert Tech.naked_subsets ts), true)
          else ((h, ts), flag))
        else ((h, ts), flag)) := rfl
    rw [List.foldl_cons, hred]
    by_cases hc1 : p ∉ combo ∧ (getC h p.1 p.2).value = none
    · rw [if_pos hc1]
      by_cases hc2 : ((getC h p.1 p.2).candidates \ union).card <
          (getC h p.1 p.2).candidates.card
      · rw [if_pos hc2]
        have hdh : dimsOk h := hcs.2.2.2.2 hdG
        have hbph : p.1 < h.rows ∧ p.2 < h.cols := by
          constructor
          · rw [hcs.1.1]
            exact hbp.1
          · rw [hcs.1.2.1]
            exact hbp.2
        have hself : getC (modC h p.1 p.2 (fun c0 =>
            { c0 with candidates := (getC h p.1 p.2).candidates \ union }))
            p.1 p.2 = { getC h p.1 p.2 with
              candidates := (getC h p.1 p.2).candidates \ union } :=
          getC_modC_self h hdh hbph.1 hbph.2 _
        have hcs1 : CandShrink (modC h p.1 p.2 (fun c0 =>
            { c0 with candidates := (getC h p.1 p.2).candidates \ union })) h :=
          CandShrink_modC_cand h p.1 p.2 _ (fun _ => rfl) (fun _ => rfl)
            Finset.sdiff_subset
        have hvg0 : (getC g0 p.1 p.2).value = none := by
          rw [← hcs.2.1 p.1 p.2]
          exact hc1.2
        have hci1 : CandInv (modC h p.1 p.2 (fun c0 =>
            { c0 with candidates := (getC h p.1 p.2).candidates \ union })) σ := by
          intro a b ha hb' hv'
          by_cases hpq : (p.1, p.2) = (a, b)
          · obtain ⟨e1, e2⟩ := Prod.mk.injEq p.1 p.2 a b ▸ hpq
            subst e1
            subst e2
            rw [hself, Finset.mem_sdiff]
            refine ⟨hinv.2.2.1 p.1 p.2 ha hb' hc1.2, ?_⟩
            exact hn p (List.mem_cons_self p l) hvg0 hc1.1
          · have hne : getC (modC h p.1 p.2 (fun c0 =>
                { c0 with candidates := (getC h p.1 p.2).candidates \ union }))
                a b = getC h a b := getC_modC_ne h hpq _
            rw [hne]
            rw [hne] at hv'
            exact hinv.2.2.1 a b ha hb' hv'
        exact ih hbl hnl ((modC h p.1 p.2 (fun c0 =>
            { c0 with candidates := (getC h p.1 p.2).candidates \ union }),
            insert Tech.naked_subsets ts), true)
          (SInv_of_candShrink hcs1 hci1 hinv) (CandShrink_trans hcs1 hcs)
      · rw [if_neg hc2]
        exact ih hbl hnl ((h, ts), flag) hinv hcs
    · rw [if_neg hc1]
      exact ih hbl hnl ((h, ts), flag) hinv hcs

theorem nsCombo_ok {σ : Pos → Nat} {g0 : Grid} (hinv0 : SInv g0 σ)
    {grp : Group} (hgrp : grp ∈ g0.groups) (size : Nat) (combo : List Pos)
    (hcombo : combo ∈ combos size
      (grp.cells.filter (fun p => (getC g0 p.1 p.2).value = none)))
    (acc : SState × Bool) (hinv : SInv acc.1.1 σ)
    (hcs : CandShrink acc.1.1 g0) :
    SInv ((nsCombo grp size acc combo)).1.1 σ ∧
    CandShrink ((nsCombo grp size acc combo)).1.1 g0 := by
  obtain ⟨⟨h, ts⟩, flag⟩ := acc
  obtain ⟨hsubl, hlen⟩ := combos_sublist _ size combo hcombo
  have hsubs : ∀ p ∈ combo,
      p ∈ grp.cells ∧ (getC g0 p.1 p.2).value = none := by
    intro p hp
    have := hsubl.subset hp
    rw [List.mem_filter] at this
    exact ⟨this.1, of_decide_eq_true this.2⟩
  have hred : nsCombo grp size ((h, ts), flag) combo =
      (if (combo.foldl (fun u p => u ∪ (getC h p.1 p.2).candidates)
          (∅ : Finset Nat)).card = size then
        grp.cells.foldl (nsRemoveCell combo
          (combo.foldl (fun u p => u ∪ (getC h p.1 p.2).candidates)
            (∅ : Finset Nat))) ((h, ts), flag)
      else ((h, ts), flag)) := rfl
  rw [hred]
  by_cases hcard : (combo.foldl (fun u p => u ∪ (getC h p.1 p.2).candidates)
      (∅ : Finset Nat)).card = size
  · rw [if_pos hcard]
    have hndg : (grp.cells.map σ).Nodup :=
      ((hinv0.2.1.2.1 grp hgrp).nodup_iff).mpr (List.nodup_range' _ _)
    have hinjg : ∀ p ∈ grp.cells, ∀ q ∈ grp.cells, σ p = σ q → p = q :=
      fun p hp q hq hpq => List.inj_on_of_nodup_map hndg hp hq hpq
    have hndc : combo.Nodup :=
      ((hinv0.1.2.1 grp hgrp).2.1.filter _).sublist hsubl
    have hsig : ∀ p ∈ combo, σ p ∈ combo.foldl
        (fun u p => u ∪ (getC h p.1 p.2).candidates) (∅ : Finset Nat) := by
      intro p hp
      obtain ⟨hpmem, hpv0⟩ := hsubs p hp
      have hpb := ((hinv0.1.2.1 grp hgrp).2.2 p hpmem).1
      have hpvh : (getC h p.1 p.2).value = none := by
        rw [hcs.2.1 p.1 p.2]
        exact hpv0
      have hpbh : p.1 < h.rows ∧ p.2 < h.cols := by
        constructor
        · rw [hcs.1.1]
          exact hpb.1
        · rw [hcs.1.2.1]
          exact hpb.2
      rw [mem_union_foldl]
      exact Or.inr ⟨p, hp, hinv.2.2.1 p.1 p.2 hpbh.1 hpbh.2 hpvh⟩
    have hpig := sigma_image_eq hndc
      (fun p hp q hq hpq =>
        hinjg p (hsubs p hp).1 q (hsubs q hq).1 hpq)
      hsig (by rw [hcard, hlen])
    have hnotin : ∀ p ∈ grp.cells, (getC g0 p.1 p.2).value = none →
        p ∉ combo → σ p ∉ combo.foldl
          (fun u p => u ∪ (getC h p.1 p.2).candidates) (∅ : Finset Nat) := by
      intro p hpmem _ hpnc hmem
      obtain ⟨q, hq, hqs⟩ := hpig (σ p) hmem
      have : q = p := hinjg q (hsubs q hq).1 p hpmem hqs
      rw [this] at hq
      exact hpnc hq
    apply nsRemoveFold_ok hinv0.1.1 combo _ grp.cells
      (fun p hp => ((hinv0.1.2.1 grp hgrp).2.2 p hp).1) hnotin
      ((h, ts), flag) hinv hcs
  · rw [if_neg hcard]
    exact ⟨hinv, hcs⟩

theorem nsComboFold_ok {σ : Pos → Nat} {g0 : Grid} (hinv0 : SInv g0 σ)
    {grp : Group} (hgrp : grp ∈ g0.groups) (size : Nat) :
    ∀ (L : List (List Pos)),
      (∀ cb ∈ L, cb ∈ combos size
        (grp.cells.filter (fun p => (getC g0 p.1 p.2).value = none))) →
      ∀ (acc : SState × Bool), SInv acc.1.1 σ → CandShrink acc.1.1 g0 →
      SInv ((L.foldl (nsCombo grp size) acc)).1.1 σ ∧
      CandShrink ((L.foldl (nsCombo grp size) acc)).1.1 g0 := by
  intro L
  induction L with
  | nil =>
    intro _ acc hinv hcs
    exact ⟨hinv, hcs⟩
  | cons cb L ih =>
    intro hL acc hinv hcs
    rw [List.foldl_cons]
    obtain ⟨h1, h2⟩ := nsCombo_ok hinv0 hgrp size cb
      (hL cb (List.mem_cons_self cb L)) acc hinv hcs
    exact ih (fun u hu => hL u (List.mem_cons_of_mem cb hu))
      (nsCombo grp size acc cb) h1 h2

theorem nsSizeFold_ok {σ : Pos → Nat} {g0 : Grid} (hinv0 : SInv g0 σ)
    {grp : Group} (hgrp : grp ∈ g0.groups) :
    ∀ (L : List Nat) (acc : SState × Bool), SInv acc.1.1 σ →
      CandShrink acc.1.1 g0 →
      SInv ((L.foldl (nsSize grp
        (grp.cells.filter (fun p => (getC g0 p.1 p.2).value = none))) acc)).1.1
        σ ∧
      CandShrink ((L.foldl (nsSize grp
        (grp.cells.filter (fun p => (getC g0 p.1 p.2).value = none)))
          acc)).1.1 g0 := by
  intro L
  induction L with
  | nil =>
    intro acc hinv hcs
    exact ⟨hinv, hcs⟩
  | cons size L ih =>
    intro acc hinv hcs
    rw [List.foldl_cons]
    have hstep := nsComboFold_ok hinv0 hgrp size
      (combos size (grp.cells.filter (fun p => (getC g0 p.1 p.2).value = none)))
      (fun cb hcb => hcb) acc hinv hcs
    exact ih (nsSize grp
      (grp.cells.filter (fun p => (getC g0 p.1 p.2).value = none)) acc size)
      hstep.1 hstep.2

theorem nsGroup_ok {σ : Pos → Nat} {G : Grid} (acc : SState × Bool)
    (grp : Group) (hgrp : grp ∈ acc.1.1.groups) (hinv : SInv acc.1.1 σ)
    (hsh : shapeEq acc.1.1 G) (hm : Mono acc.1.1 G) :
    SInv (nsGroup acc grp).1.1 σ ∧ shapeEq (nsGroup acc grp).1.1 G ∧
    Mono (nsGroup acc grp).1.1 G := by
  obtain ⟨⟨g0, ts⟩, flag⟩ := acc
  have hred : nsGroup ((g0, ts), flag) grp =
      ((List.range (min (3 + 1)
        ((grp.cells.filter (fun p => (getC g0 p.1 p.2).value = none)).length
          + 1))).drop 2).foldl
        (nsSize grp (grp.cells.filter (fun p => (getC g0 p.1 p.2).value = none)))
        ((g0, ts), flag) := rfl
  rw [hred]
  obtain ⟨hinv', hcs'⟩ := nsSizeFold_ok hinv hgrp
    ((List.range (min (3 + 1)
      ((grp.cells.filter (fun p => (getC g0 p.1 p.2).value = none)).length
        + 1))).drop 2)
    ((g0, ts), flag) hinv (CandShrink_refl g0)
  exact ⟨hinv', shapeEq_trans hcs'.1 hsh,
    Mono_trans (Mono_of_candShrink hcs') hm⟩

theorem nsGroupsFold_ok {σ : Pos → Nat} {G : Grid} :
    ∀ (L : List Group), (∀ grp ∈ L, grp ∈ G.groups) →
      ∀ (acc : SState × Bool), SInv acc.1.1 σ → shapeEq acc.1.1 G →
        Mono acc.1.1 G →
      SInv ((L.foldl nsGroup acc)).1.1 σ ∧
      shapeEq ((L.foldl nsGroup acc)).1.1 G ∧
      Mono ((L.foldl nsGroup acc)).1.1 G := by
  intro L
  induction L with
  | nil =>
    intro _ acc hinv hsh hm
    exact ⟨hinv, hsh, hm⟩
  | cons grp L ih =>
    intro hL acc hinv hsh hm
    rw [List.foldl_cons]
    have hgrp : grp ∈ acc.1.1.groups := by
      rw [hsh.2.2]
      exact hL grp (List.mem_cons_self grp L)
    obtain ⟨h1, h2, h3⟩ := nsGroup_ok acc grp hgrp hinv hsh hm
    exact ih (fun u hu => hL u (List.mem_cons_of_mem grp hu))
      (nsGroup acc grp) h1 h2 h3

theorem nakedSubsets_ok {σ : Pos → Nat} {s : SState} (hinv : SInv s.1 σ) :
    SInv (nakedSubsets s).1.1 σ ∧ shapeEq (nakedSubsets s).1.1 s.1 ∧
    Mono (nakedSubsets s).1.1 s.1 :=
  nsGroupsFold_ok s.1.groups (fun _ h => h) ((s, false)) hinv
    (shapeEq_refl s.1) (Mono_refl s.1)

theorem erase_fold_spec {C : Nat → Prop} [DecidablePred C] :
    ∀ (l : List Nat) (s0 : Finset Nat) (x : Nat), x ∈ l → C x →
      x ∉ l.foldl (fun s v => if C v then s.erase v else s) s0 := by
  have hsub : ∀ (l : List Nat) (s0 : Finset Nat),
      l.foldl (fun s v => if C v then s.erase v else s) s0 ⊆ s0 := by
    intro l
    induction l with
    | nil => intro s0; exact Finset.Subset.refl s0
    | cons v l ih =>
      intro s0
      rw [List.foldl_cons]
      by_cases hc : C v
      · rw [if_pos hc]
        exact (ih _).trans (Finset.erase_subset _ _)
      · rw [if_neg hc]
        exact ih s0
  intro l
  induction l with
  | nil => intro s0 x hx; cases hx
  | cons v l ih =>
    intro s0 x hx hC
    rw [List.foldl_cons]
    rcases List.mem_cons.mp hx with rfl | hmem
    · rw [if_pos hC]
      intro hmem'
      exact Finset.not_mem_erase x s0 (hsub l _ hmem')
    · by_cases hc : C v
      · rw [if_pos hc]
        exact ih _ x hmem hC
      · rw [if_neg hc]
        exact ih _ x hmem hC

theorem mem_dedup_fold :
    ∀ (l : List (List Pos)) (acc : List (List Pos)) (x : List Pos),
      x ∈ l.foldl (fun acc k => if k ∈ acc then acc else acc ++ [k]) acc →
      x ∈ acc ∨ x ∈ l := by
  intro l
  induction l with
  | nil => intro acc x h; exact Or.inl h
  | cons k l ih =>
    intro acc x h
    rw [List.foldl_cons] at h
    by_cases hk : k ∈ acc
    · rw [if_pos hk] at h
      rcases ih acc x h with h | h
      · exact Or.inl h
      · exact Or.inr (List.mem_cons_of_mem k h)
    · rw [if_neg hk] at h
      rcases ih (acc ++ [k]) x h with h | h
      · rw [List.mem_append] at h
        rcases h with h | h
        · exact Or.inl h
        · rw [List.mem_singleton] at h
          subst h
          exact Or.inr (List.mem_cons_self x l)
      · exact Or.inr (List.mem_cons_of_mem k h)

theorem hp_key_covers {σ : Pos → Nat} {g0 : Grid} (hinv0 : SInv g0 σ)
    {grp : Group} (hgrp : grp ∈ g0.groups) {key : List Pos}
    (hkey : ∃ v0 ∈ (List.range grp.size).map (fun i => i + 1),
      holdersOf g0 grp v0 = key)
    (hcount : (((List.range grp.size).map (fun i => i + 1)).filter
      (fun v => holdersOf g0 grp v = key)).length = key.length)
    (hpos : 2 ≤ (((List.range grp.size).map (fun i => i + 1)).filter
      (fun v => holdersOf g0 grp v = key)).length) :
    ∀ p ∈ key, σ p ∈ ((List.range grp.size).map (fun i => i + 1)).filter
      (fun v => holdersOf g0 grp v = key) := by
  obtain ⟨v0, _, hkeyeq⟩ := hkey
  have hknd : key.Nodup := by
    rw [← hkeyeq]
    unfold holdersOf
    exact (hinv0.1.2.1 grp hgrp).2.1.filter _
  have hvalsnd : (((List.range grp.size).map (fun i => i + 1)).filter
      (fun v => holdersOf g0 grp v = key)).Nodup := by
    apply List.Nodup.filter
    apply List.Nodup.map ?_ (List.nodup_range _)
    intro a b h
    have h2 : a + 1 = b + 1 := h
    omega
  have hklen : 0 < key.length := by omega
  have hmap : ∀ v ∈ (((List.range grp.size).map (fun i => i + 1)).filter
      (fun v => holdersOf g0 grp v = key)).toFinset,
      ∃ m, m ∈ key.toFinset ∧ σ m = v := by
    intro v hv
    rw [List.mem_toFinset, List.mem_filter] at hv
    have hCkey : holdersOf g0 grp v = key := of_decide_eq_true hv.2
    obtain ⟨p0, hp0⟩ := List.exists_mem_of_length_pos hklen
    have hp0h : p0 ∈ holdersOf g0 grp v := by
      rw [hCkey]
      exact hp0
    obtain ⟨m, hmh, hmv⟩ := sigma_holder hinv0 hgrp hp0h
    rw [hCkey] at hmh
    exact ⟨m, List.mem_toFinset.mpr hmh, hmv⟩
  choose f hf1 hf2 using hmap
  have hinj : ∀ v1 v2 hv1 hv2, f v1 hv1 = f v2 hv2 → v1 = v2 := by
    intro v1 v2 hv1 hv2 heq
    rw [← hf2 v1 hv1, ← hf2 v2 hv2, heq]
  have hcardle : key.toFinset.card ≤
      (((List.range grp.size).map (fun i => i + 1)).filter
        (fun v => holdersOf g0 grp v = key)).toFinset.card := by
    rw [List.toFinset_card_of_nodup hknd, List.toFinset_card_of_nodup hvalsnd]
    omega
  have hsurj := Finset.surj_on_of_inj_on_of_card_le f hf1 hinj hcardle
  intro p hp
  obtain ⟨v, hv, hpf⟩ := hsurj p (List.mem_toFinset.mpr hp)
  have hσ : σ p = v := (congrArg σ hpf).trans (hf2 v hv)
  rw [hσ]
  exact List.mem_toFinset.mp hv

theorem hpRemoveFold_ok {σ : Pos → Nat} {g0 : Grid} (hdG : dimsOk g0)
    (candsToRemove : Finset Nat) :
    ∀ (l : List Pos),
      (∀ p ∈ l, (p.1 < g0.rows ∧ p.2 < g0.cols) ∧ σ p ∉ candsToRemove) →
      ∀ (acc : SState × Bool), SInv acc.1.1 σ → CandShrink acc.1.1 g0 →
      SInv ((l.foldl (hpRemove candsToRemove) acc)).1.1 σ ∧
      CandShrink ((l.foldl (hpRemove candsToRemove) acc)).1.1 g0 := by
  intro l
  induction l with
  | nil =>
    intro _ acc hinv hcs
    exact ⟨hinv, hcs⟩
  | cons p l ih =>
    intro hb acc hinv hcs
    obtain ⟨⟨h, ts⟩, flag⟩ := acc
    have hbp := hb p (List.mem_cons_self p l)
    have hbl := fun u hu => hb u (List.mem_cons_of_mem p hu)
    have hred : hpRemove candsToRemove ((h, ts), flag) p =
        (if ((getC h p.1 p.2).candidates \ candsToRemove).card <
            (getC h p.1 p.2).candidates.card then
          ((modC h p.1 p.2 (fun c0 =>
            { c0 with candidates :=
              (getC h p.1 p.2).candidates \ candsToRemove }),
            insert Tech.hidden_pairs ts), true)
        else ((h, ts), flag)) := rfl
    rw [List.foldl_cons, hred]
    by_cases hc : ((getC h p.1 p.2).candidates \ candsToRemove).card <
        (getC h p.1 p.2).candidates.card
    · rw [if_pos hc]
      have hdh : dimsOk h := hcs.2.2.2.2 hdG
      have hbph : p.1 < h.rows ∧ p.2 < h.cols := by
        constructor
        · rw [hcs.1.1]
          exact hbp.1.1
        · rw [hcs.1.2.1]
          exact hbp.1.2
      have hself : getC (modC h p.1 p.2 (fun c0 =>
          { c0 with candidates :=
            (getC h p.1 p.2).candidates \ candsToRemove })) p.1 p.2 =
          { getC h p.1 p.2 with candidates :=
            (getC h p.1 p.2).candidates \ candsToRemove } :=
        getC_modC_self h hdh hbph.1 hbph.2 _
      have hcs1 : CandShrink (modC h p.1 p.2 (fun c0 =>
          { c0 with candidates :=
            (getC h p.1 p.2).candidates \ candsToRemove })) h :=
        CandShrink_modC_cand h p.1 p.2 _ (fun _ => rfl) (fun _ => rfl)
          Finset.sdiff_subset
      have hci1 : CandInv (modC h p.1 p.2 (fun c0 =>
          { c0 with candidates :=
            (getC h p.1 p.2).candidates \ candsToRemove })) σ := by
        intro a b ha hb' hv'
        by_cases hpq : (p.1, p.2) = (a, b)
        · obtain ⟨e1, e2⟩ := Prod.mk.injEq p.1 p.2 a b ▸ hpq
          subst e1
          subst e2
          have hvh : (getC h p.1 p.2).value = none := by
            rw [← hcs1.2.1 p.1 p.2]
            exact hv'
          rw [hself, Finset.mem_sdiff]
          exact ⟨hinv.2.2.1 p.1 p.2 ha hb' hvh, hbp.2⟩
        · have hne : getC (modC h p.1 p.2 (fun c0 =>
              { c0 with candidates :=
                (getC h p.1 p.2).candidates \ candsToRemove })) a b =
              getC h a b := getC_modC_ne h hpq _
          rw [hne]
          rw [hne] at hv'
          exact hinv.2.2.1 a b ha hb' hv'
      exact ih hbl ((modC h p.1 p.2 (fun c0 =>
          { c0 with candidates :=
            (getC h p.1 p.2).candidates \ candsToRemove }),
          insert Tech.hidden_pairs ts), true)
        (SInv_of_candShrink hcs1 hci1 hinv) (CandShrink_trans hcs1 hcs)
    · rw [if_neg hc]
      exact ih hbl ((h, ts), flag) hinv hcs

theorem hpKey_ok {σ : Pos → Nat} {g0 : Grid} (hinv0 : SInv g0 σ)
    {grp : Group} (hgrp : grp ∈ g0.groups) (key : List Pos)
    (hkey : ∃ v0 ∈ (List.range grp.size).map (fun i => i + 1),
      holdersOf g0 grp v0 = key)
    (acc : SState × Bool) (hinv : SInv acc.1.1 σ)
    (hcs : CandShrink acc.1.1 g0) :
    SInv ((hpKey g0 grp ((List.range grp.size).map (fun i => i + 1))
      acc key)).1.1 σ ∧
    CandShrink ((hpKey g0 grp ((List.range grp.size).map (fun i => i + 1))
      acc key)).1.1 g0 := by
  have hred : hpKey g0 grp ((List.range grp.size).map (fun i => i + 1))
      acc key =
      (if 2 ≤ (((List.range grp.size).map (fun i => i + 1)).filter
          (fun v => holdersOf g0 grp v = key)).length ∧
        (((List.range grp.size).map (fun i => i + 1)).filter
          (fun v => holdersOf g0 grp v = key)).length = key.length then
        key.foldl (hpRemove
          (((List.range grp.size).map (fun i => i + 1)).foldl
            (fun s v => if holdersOf g0 grp v = key then s.erase v else s)
            (Finset.Icc 1 grp.size))) acc
      else acc) := rfl
  rw [hred]
  by_cases hcond : 2 ≤ (((List.range grp.size).map (fun i => i + 1)).filter
      (fun v => holdersOf g0 grp v = key)).length ∧
    (((List.range grp.size).map (fun i => i + 1)).filter
      (fun v => holdersOf g0 grp v = key)).length = key.length
  · rw [if_pos hcond]
    have hcov := hp_key_covers hinv0 hgrp hkey hcond.2 hcond.1
    apply hpRemoveFold_ok hinv0.1.1 _ key ?_ acc hinv hcs
    intro p hp
    have hcp := hcov p hp
    rw [List.mem_filter] at hcp
    have hCp : holdersOf g0 grp (σ p) = key := of_decide_eq_true hcp.2
    constructor
    · -- bounds: p is a holder of σ p, hence a group member
      have hpm : p ∈ holdersOf g0 grp (σ p) := by
        rw [hCp]
        exact hp
      exact ((hinv0.1.2.1 grp hgrp).2.2 p (mem_holdersOf.mp hpm).1).1
    · exact erase_fold_spec _ _ (σ p) hcp.1 hCp
  · rw [if_neg hcond]
    exact ⟨hinv, hcs⟩

theorem hpKeyFold_ok {σ : Pos → Nat} {g0 : Grid} (hinv0 : SInv g0 σ)
    {grp : Group} (hgrp : grp ∈ g0.groups) :
    ∀ (L : List (List Pos)),
      (∀ key ∈ L, ∃ v0 ∈ (List.range grp.size).map (fun i => i + 1),
        holdersOf g0 grp v0 = key) →
      ∀ (acc : SState × Bool), SInv acc.1.1 σ → CandShrink acc.1.1 g0 →
      SInv ((L.foldl (hpKey g0 grp
        ((List.range grp.size).map (fun i => i + 1))) acc)).1.1 σ ∧
      CandShrink ((L.foldl (hpKey g0 grp
        ((List.range grp.size).map (fun i => i + 1))) acc)).1.1 g0 := by
  intro L
  induction L with
  | nil =>
    intro _ acc hinv hcs
    exact ⟨hinv, hcs⟩
  | cons key L ih =>
    intro hL acc hinv hcs
    rw [List.foldl_cons]
    obtain ⟨h1, h2⟩ := hpKey_ok hinv0 hgrp key
      (hL key (List.mem_cons_self key L)) acc hinv hcs
    exact ih (fun u hu => hL u (List.mem_cons_of_mem key hu))
      (hpKey g0 grp ((List.range grp.size).map (fun i => i + 1)) acc key) h1 h2

theorem hpGroup_ok {σ : Pos → Nat} {G : Grid} (acc : SState × Bool)
    (grp : Group) (hgrp : grp ∈ acc.1.1.groups) (hinv : SInv acc.1.1 σ)
    (hsh : shapeEq acc.1.1 G) (hm : Mono acc.1.1 G) :
    SInv (hpGroup acc grp).1.1 σ ∧ shapeEq (hpGroup acc grp).1.1 G ∧
    Mono (hpGroup acc grp).1.1 G := by
  obtain ⟨⟨g0, ts⟩, flag⟩ := acc
  have hred : hpGroup ((g0, ts), flag) grp =
      (((((List.range grp.size).map (fun i => i + 1)).map
          (holdersOf g0 grp)).filter (fun k => k.length ≤ 3)).foldl
        (fun acc k => if k ∈ acc then acc else acc ++ [k]) []).foldl
        (hpKey g0 grp ((List.range grp.size).map (fun i => i + 1)))
        ((g0, ts), flag) := rfl
  rw [hred]
  obtain ⟨hinv', hcs'⟩ := hpKeyFold_ok hinv hgrp
    (((((List.range grp.size).map (fun i => i + 1)).map
        (holdersOf g0 grp)).filter (fun k => k.length ≤ 3)).foldl
      (fun acc k => if k ∈ acc then acc else acc ++ [k]) [])
    (fun key hkey => by
      rcases mem_dedup_fold _ [] key hkey with h | h
      · exact absurd h (List.not_mem_nil key)
      · rw [List.mem_filter] at h
        obtain ⟨h1, _⟩ := h
        rw [List.mem_map] at h1
        obtain ⟨v0, hv0, hv0k⟩ := h1
        exact ⟨v0, hv0, hv0k⟩)
    ((g0, ts), flag) hinv (CandShrink_refl g0)
  exact ⟨hinv', shapeEq_trans hcs'.1 hsh,
    Mono_trans (Mono_of_candShrink hcs') hm⟩

theorem hpGroupsFold_ok {σ : Pos → Nat} {G : Grid} :
    ∀ (L : List Group), (∀ grp ∈ L, grp ∈ G.groups) →
      ∀ (acc : SState × Bool), SInv acc.1.1 σ → shapeEq acc.1.1 G →
        Mono acc.1.1 G →
      SInv ((L.foldl hpGroup acc)).1.1 σ ∧
      shapeEq ((L.foldl hpGroup acc)).1.1 G ∧
      Mono ((L.foldl hpGroup acc)).1.1 G := by
  intro L
  induction L with
  | nil =>
    intro _ acc hinv hsh hm
    exact ⟨hinv, hsh, hm⟩
  | cons grp L ih =>
    intro hL acc hinv hsh hm
    rw [List.foldl_cons]
    have hgrp : grp ∈ acc.1.1.groups := by
      rw [hsh.2.2]
      exact hL grp (List.mem_cons_self grp L)
    obtain ⟨h1, h2, h3⟩ := hpGroup_ok acc grp hgrp hinv hsh hm
    exact ih (fun u hu => hL u (List.mem_cons_of_mem grp hu))
      (hpGroup acc grp) h1 h2 h3

theorem hiddenPairs_ok {σ : Pos → Nat} {s : SState} (hinv : SInv s.1 σ) :
    SInv (hiddenPairs s).1.1 σ ∧ shapeEq (hiddenPairs s).1.1 s.1 ∧
    Mono (hiddenPairs s).1.1 s.1 :=
  hpGroupsFold_ok s.1.groups (fun _ h => h) ((s, false)) hinv
    (shapeEq_refl s.1) (Mono_refl s.1)

theorem level2Step_ok {σ : Pos → Nat} {d : Nat} {x : SState × Bool}
    (hinv : SInv x.1.1 σ) : SInv (level2Step d x).1.1 σ := by
  unfold level2Step
  by_cases h : 2 ≤ d
  · rw [if_pos h]
    exact (neighborElim_ok hinv).1
  · rw [if_neg h]
    exact hinv

theorem level3Step_ok {σ : Pos → Nat} {d : Nat} {x : SState × Bool}
    (hinv : SInv x.1.1 σ) : SInv (level3Step d x).1.1 σ := by
  unfold level3Step
  by_cases h : 3 ≤ d
  · rw [if_pos h]
    have h1 := (nakedSubsets_ok hinv).1
    show SInv (if (nakedSubsets x.1).2 then ((nakedSubsets x.1).1, true)
      else ((hiddenPairs (nakedSubsets x.1).1).1,
        x.2 || (hiddenPairs (nakedSubsets x.1).1).2)).1.1 σ
    by_cases hp : (nakedSubsets x.1).2 = true
    · rw [if_pos hp]
      exact h1
    · rw [if_neg hp]
      exact (hiddenPairs_ok h1).1
  · rw [if_neg h]
    exact hinv

theorem level1Loop_ok {σ : Pos → Nat} :
    ∀ (fuel : Nat) (s : SState) (ch : Bool), SInv s.1 σ →
      ∃ s' ch', level1Loop fuel s ch = .ok (s', ch') ∧ SInv s'.1 σ := by
  intro fuel
  induction fuel with
  | zero =>
    intro s ch hinv
    exact ⟨s, ch, rfl, hinv⟩
  | succ fuel ih =>
    intro s ch hinv
    obtain ⟨s1, b1, hns, hinv1, _, _⟩ := nakedSingle_ok hinv
    have hred : level1Loop (fuel + 1) s ch =
        (nakedSingle s) >>= (fun x => do
          let (s, p1) := x
          if p1 then
            level1Loop fuel s true
          else do
            let (s, p2) ← hiddenSingle s
            if p2 then
              level1Loop fuel s true
            else
              .ok (s, ch)) := rfl
    cases b1 with
    | true =>
      obtain ⟨s', ch', hrec, hinv'⟩ := ih s1 true hinv1
      refine ⟨s', ch', ?_, hinv'⟩
      rw [hred, hns]
      exact hrec
    | false =>
      obtain ⟨s2, b2, hhs, hinv2, _, _⟩ := hiddenSingle_ok hinv1
      have e1 : level1Loop (fuel + 1) s ch =
          (hiddenSingle s1) >>= (fun y => do
            let (s, p2) := y
            if p2 then
              level1Loop fuel s true
            else
              (.ok (s, ch) : Except Contra (SState × Bool))) := by
        rw [hred, hns]
        rfl
      cases b2 with
      | true =>
        obtain ⟨s', ch', hrec, hinv'⟩ := ih s2 true hinv2
        refine ⟨s', ch', ?_, hinv'⟩
        rw [e1, hhs]
        exact hrec
      | false =>
        refine ⟨s2, ch, ?_, hinv2⟩
        rw [e1, hhs]
        rfl

theorem solveLoop_ok {σ : Pos → Nat} :
    ∀ (fuel d : Nat) (s : SState), SInv s.1 σ →
      ∃ s', solveLoop fuel d s = .ok s' ∧ SInv s'.1 σ := by
  intro fuel
  induction fuel with
  | zero =>
    intro d s hinv
    exact ⟨s, rfl, hinv⟩
  | succ fuel ih =>
    intro d s hinv
    obtain ⟨s1, ch1, hl1, hinv1⟩ :=
      level1Loop_ok (solveMeasure s.1 + 1) s false hinv
    have hinv2 : SInv (level2Step d (s1, ch1)).1.1 σ := level2Step_ok hinv1
    have hinv3 : SInv (level3Step d (level2Step d (s1, ch1))).1.1 σ :=
      level3Step_ok hinv2
    have heval : solveLoop (fuel + 1) d s =
        (if isComplete s1.1 then Except.ok s1
         else if isComplete (level2Step d (s1, ch1)).1.1 then
           Except.ok (level2Step d (s1, ch1)).1
         else if isComplete (level3Step d (level2Step d (s1, ch1))).1.1 then
           Except.ok (level3Step d (level2Step d (s1, ch1))).1
         else if (level3Step d (level2Step d (s1, ch1))).2 then
           solveLoop fuel d (level3Step d (level2Step d (s1, ch1))).1
         else Except.ok (level3Step d (level2Step d (s1, ch1))).1) := by
      have hred : solveLoop (fuel + 1) d s =
          (level1Loop (solveMeasure s.1 + 1) s false) >>= (fun x => do
            let (s, changed) := x
            if isComplete s.1 then
              (.ok s : Except Contra SState)
            else
              let (s, changed) := level2Step d (s, changed)
              if isComplete s.1 then
                .ok s
              else
                let (s, changed) := level3Step d (s, changed)
                if isComplete s.1 then
                  .ok s
                else
                  if changed then solveLoop fuel d s else .ok s) := rfl
      rw [hred, hl1]
      rfl
    by_cases hc1 : isComplete s1.1 = true
    · refine ⟨s1, ?_, hinv1⟩
      rw [heval, if_pos hc1]
    · by_cases hc2 : isComplete (level2Step d (s1, ch1)).1.1 = true
      · refine ⟨(level2Step d (s1, ch1)).1, ?_, hinv2⟩
        rw [heval, if_neg hc1, if_pos hc2]
      · by_cases hc3 :
            isComplete (level3Step d (level2Step d (s1, ch1))).1.1 = true
        · refine ⟨(level3Step d (level2Step d (s1, ch1))).1, ?_, hinv3⟩
          rw [heval, if_neg hc1, if_neg hc2, if_pos hc3]
        · by_cases hch : (level3Step d (level2Step d (s1, ch1))).2 = true
          · obtain ⟨s', hrec, hinv'⟩ :=
              ih d (level3Step d (level2Step d (s1, ch1))).1 hinv3
            refine ⟨s', ?_, hinv'⟩
            rw [heval, if_neg hc1, if_neg hc2, if_neg hc3, if_pos hch, hrec]
          · refine ⟨(level3Step d (level2Step d (s1, ch1))).1, ?_, hinv3⟩
            rw [heval, if_neg hc1, if_neg hc2, if_neg hc3, if_neg hch]

theorem Wit_mem_candidates {g : Grid} {σ : Pos → Nat} (hwf : WF g)
    (hw : Wit g σ) {r c : Nat} (hr : r < g.rows) (hc : c < g.cols)
    (hv : (getC g r c).value = none) :
    σ (r, c) ∈ getCandidatesForCell g r c := by
  rw [mem_getCandidatesForCell]
  obtain ⟨hgmem, hrcmem⟩ := cell_group hwf hr hc
  refine ⟨?_, ?_, ?_⟩
  · have hperm := hw.2.1 _ hgmem
    have hmm : σ (r, c) ∈
        (getGroup g (getC g r c).group_id).cells.map σ :=
      List.mem_map_of_mem _ hrcmem
    rw [hperm.mem_iff, List.mem_range'_1] at hmm
    omega
  · intro q hq hqv
    simp only [groupPeers, List.mem_filter, decide_eq_true_eq] at hq
    obtain ⟨hqmem, hqne⟩ := hq
    have hqb := ((hwf.2.1 _ hgmem).2.2 q hqmem).1
    have hqa : σ q = σ (r, c) := hw.1 q.1 q.2 _ hqb.1 hqb.2 hqv
    have hnd : ((getGroup g (getC g r c).group_id).cells.map σ).Nodup :=
      (hw.2.1 _ hgmem).nodup_iff.mpr (List.nodup_range' _ _)
    exact hqne (List.inj_on_of_nodup_map hnd hqmem hrcmem hqa)
  · intro q hq hqv
    have hq' := (mem_neighborPos hr hc q).mp hq
    have hqa : σ q = σ (r, c) := hw.1 q.1 q.2 _ hq'.1 hq'.2.1 hqv
    exact hw.2.2 (r, c) q hr hc hq'.1 hq'.2.1 hq'.2.2 hqa.symm

theorem getCandidatesForCell_congr {h g : Grid} (hsh : shapeEq h g)
    (hval : ∀ r c, (getC h r c).value = (getC g r c).value)
    (hgid : ∀ r c, (getC h r c).group_id = (getC g r c).group_id)
    (r c : Nat) : getCandidatesForCell h r c = getCandidatesForCell g r c := by
  unfold getCandidatesForCell
  have hgg : getGroup h (getC h r c).group_id =
      getGroup g (getC g r c).group_id := by
    rw [hgid r c, getGroup_congr hsh.2.2]
  have hgp : groupPeers h r c = groupPeers g r c := by
    unfold groupPeers
    rw [hgid r c, getGroup_congr hsh.2.2]
  have hnp : neighborPos h r c = neighborPos g r c :=
    neighborPos_congr hsh.1 hsh.2.1 r c
  have hstep : (fun (s : Finset Nat) (p : Pos) =>
      match (getC h p.1 p.2).value with
      | some v => s.erase v
      | none => s) = (fun (s : Finset Nat) (p : Pos) =>
      match (getC g p.1 p.2).value with
      | some v => s.erase v
      | none => s) := by
    funext s p
    rw [hval p.1 p.2]
  rw [hgg, hgp, hnp, hstep]

theorem initFold (g₀ : Grid) :
    ∀ (l : List Pos), l.Nodup →
      ∀ h, shapeEq h g₀ →
        (∀ r c, (getC h r c).value = (getC g₀ r c).value) →
        (∀ r c, (getC h r c).group_id = (getC g₀ r c).group_id) →
        dimsOk h →
        shapeEq (l.foldl initStep h) g₀ ∧
        (∀ r c, (getC (l.foldl initStep h) r c).value =
          (getC g₀ r c).value) ∧
        (∀ r c, (getC (l.foldl initStep h) r c).group_id =
          (getC g₀ r c).group_id) ∧
        dimsOk (l.foldl initStep h) ∧
        (∀ p ∈ l, (p.1 < g₀.rows ∧ p.2 < g₀.cols) →
          (getC g₀ p.1 p.2).value = none →
          (getC (l.foldl initStep h) p.1 p.2).candidates =
            getCandidatesForCell g₀ p.1 p.2) ∧
        (∀ p : Pos, p ∉ l →
          getC (l.foldl initStep h) p.1 p.2 = getC h p.1 p.2) := by
  intro l
  induction l with
  | nil =>
    intro _ h hsh hval hgid hd
    exact ⟨hsh, hval, hgid, hd,
      fun p hp => absurd hp (List.not_mem_nil p), fun p _ => rfl⟩
  | cons p l ih =>
    intro hnd h hsh hval hgid hd
    rw [List.nodup_cons] at hnd
    by_cases hpv : (getC h p.1 p.2).value = none
    · have hstep : initStep h p = modC h p.1 p.2 (fun cell =>
          { cell with candidates := getCandidatesForCell h p.1 p.2 }) := by
        unfold initStep
        rw [if_pos hpv]
      have hval1 : ∀ r c, (getC (initStep h p) r c).value =
          (getC g₀ r c).value := by
        intro r c
        rw [hstep]
        rcases getC_modC_cases h p.1 p.2 _ r c with he | ⟨heq, he⟩
        · rw [he]
          exact hval r c
        · obtain ⟨e1, e2⟩ := Prod.mk.injEq p.1 p.2 r c ▸ heq
          subst e1
          subst e2
          rw [he]
          exact hval p.1 p.2
      have hgid1 : ∀ r c, (getC (initStep h p) r c).group_id =
          (getC g₀ r c).group_id := by
        intro r c
        rw [hstep]
        rcases getC_modC_cases h p.1 p.2 _ r c with he | ⟨heq, he⟩
        · rw [he]
          exact hgid r c
        · obtain ⟨e1, e2⟩ := Prod.mk.injEq p.1 p.2 r c ▸ heq
          subst e1
          subst e2
          rw [he]
          exact hgid p.1 p.2
      have hsh1 : shapeEq (initStep h p) g₀ := by
        rw [hstep]
        exact shapeEq_trans (shapeEq_modC h p.1 p.2 _) hsh
      have hd1 : dimsOk (initStep h p) := by
        rw [hstep]
        exact dimsOk_modC h hd p.1 p.2 _
      obtain ⟨rsh, rval, rgid, rd, rcands, rkeep⟩ :=
        ih hnd.2 (initStep h p) hsh1 hval1 hgid1 hd1
      refine ⟨rsh, rval, rgid, rd, ?_, ?_⟩
      · intro q hq hqb hqv
        rcases List.mem_cons.mp hq with rfl | hqmem
        · rw [List.foldl_cons, rkeep q hnd.1, hstep]
          have hqbh : q.1 < h.rows ∧ q.2 < h.cols := by
            constructor
            · rw [hsh.1]
              exact hqb.1
            · rw [hsh.2.1]
              exact hqb.2
          rw [getC_modC_self h hd hqbh.1 hqbh.2]
          exact getCandidatesForCell_congr hsh hval hgid q.1 q.2
        · rw [List.foldl_cons]
          exact rcands q hqmem hqb hqv
      · intro q hq
        have hq1 : q ∉ l := fun hm => hq (List.mem_cons_of_mem p hm)
        have hq2 : q ≠ p := fun he => hq (he ▸ List.mem_cons_self p l)
        rw [List.foldl_cons, rkeep q hq1, hstep]
        apply getC_modC_ne
        intro he
        exact hq2 he.symm
    · have hstep : initStep h p = h := by
        unfold initStep
        rw [if_neg hpv]
      have hsh1 : shapeEq (initStep h p) g₀ := by
        rw [hstep]; exact hsh
      have hval1 : ∀ r c, (getC (initStep h p) r c).value =
          (getC g₀ r c).value := by
        rw [hstep]; exact hval
      have hgid1 : ∀ r c, (getC (initStep h p) r c).group_id =
          (getC g₀ r c).group_id := by
        rw [hstep]; exact hgid
      have hd1 : dimsOk (initStep h p) := by
        rw [hstep]; exact hd
      obtain ⟨rsh, rval, rgid, rd, rcands, rkeep⟩ :=
        ih hnd.2 (initStep h p) hsh1 hval1 hgid1 hd1
      refine ⟨rsh, rval, rgid, rd, ?_, ?_⟩
      · intro q hq hqb hqv
        rcases List.mem_cons.mp hq with rfl | hqmem
        · exfalso
          rw [← hval q.1 q.2] at hqv
          exact hpv hqv
        · rw [List.foldl_cons]
          exact rcands q hqmem hqb hqv
      · intro q hq
        have hq1 : q ∉ l := fun hm => hq (List.mem_cons_of_mem p hm)
        rw [List.foldl_cons, rkeep q hq1, hstep]

theorem initCandidates_SInv {g : Grid} {σ : Pos → Nat} (hwf : WF g)
    (hw : Wit g σ) : SInv (initCandidates g) σ := by
  obtain ⟨hsh, hval, hgid, hdims, hcands, _⟩ :=
    initFold g (allPositions g.rows g.cols) (nodup_allPositions _ _) g
      (shapeEq_refl g) (fun _ _ => rfl) (fun _ _ => rfl) hwf.1
  have hic : initCandidates g =
      List.foldl initStep g (allPositions g.rows g.cols) := rfl
  refine ⟨WF_transfer hsh hgid hdims hwf, Wit_transfer hsh hval hw,
    ?_, ?_, ?_⟩
  · intro r c hr hc hv
    rw [hic] at hr hc hv ⊢
    rw [hsh.1] at hr
    rw [hsh.2.1] at hc
    have hvg : (getC g r c).value = none := by
      rw [← hval r c]
      exact hv
    have hcc := hcands (r, c) (mem_allPositions.mpr ⟨hr, hc⟩) ⟨hr, hc⟩ hvg
    rw [hcc]
    exact Wit_mem_candidates hwf hw hr hc hvg
  · intro grp hgrp p hp q hq hpv w hqv
    rw [hic] at hgrp hpv hqv ⊢
    rw [hsh.2.2] at hgrp
    have hpb := ((hwf.2.1 grp hgrp).2.2 p hp).1
    have hpvg : (getC g p.1 p.2).value = none := by
      rw [← hval p.1 p.2]
      exact hpv
    have hqvg : (getC g q.1 q.2).value = some w := by
      rw [← hval q.1 q.2]
      exact hqv
    have hcc := hcands p (mem_allPositions.mpr hpb) hpb hpvg
    rw [hcc, mem_getCandidatesForCell]
    rintro ⟨_, hpeers, _⟩
    have hqp : q ∈ groupPeers g p.1 p.2 := by
      unfold groupPeers
      rw [((hwf.2.1 grp hgrp).2.2 p hp).2, getGroup_eq_of_mem hwf hgrp]
      rw [List.mem_filter]
      refine ⟨hq, ?_⟩
      simp only [decide_eq_true_eq]
      intro he
      have hvv : (getC g q.1 q.2).value = (getC g p.1 p.2).value := by
        rw [he]
      rw [hqvg, hpvg] at hvv
      exact Option.noConfusion hvv
    exact hpeers q hqp hqvg
  · intro r c hr hc hv
    rw [hic] at hr hc hv ⊢
    rw [hsh.1] at hr
    rw [hsh.2.1] at hc
    have hvg : (getC g r c).value = none := by
      rw [← hval r c]
      exact hv
    have hcc := hcands (r, c) (mem_allPositions.mpr ⟨hr, hc⟩) ⟨hr, hc⟩ hvg
    rw [hcc]
    intro x hx
    rw [mem_getCandidatesForCell] at hx
    rw [getGroup_congr hsh.2.2, hgid r c, Finset.mem_Icc]
    exact ⟨hx.1.1, hx.1.2⟩

theorem solve_ok {g : Grid} {σ : Pos → Nat} (hwf : WF g) (hw : Wit g σ)
    (d : Nat) : ∃ res, solve g d = .ok res := by
  have hwfc : WF (clone g) := hwf
  have hwc : Wit (clone g) σ := hw
  have hinv : SInv (initCandidates (clone g)) σ := initCandidates_SInv hwfc hwc
  obtain ⟨s', hloop, _⟩ :=
    solveLoop_ok (solveMeasure (initCandidates (clone g)) + 1) d
      ((initCandidates (clone g), (∅ : Finset Tech))) hinv
  refine ⟨⟨isComplete s'.1, s'.1, s'.2, 1⟩, ?_⟩
  have hred : solve g d =
      (solveLoop (solveMeasure (initCandidates (clone g)) + 1) d
        ((initCandidates (clone g), (∅ : Finset Tech)))) >>=
      (fun x => .ok ⟨isComplete x.1, x.1, x.2, 1⟩) := rfl
  rw [hred, hloop]
  rfl

/-! Chunk J: a completed valid board yields a solution witness, and the
clue-removal loop, `rate`, and the fill search all stay inside `.ok`. -/

theorem Wit_of_isCompletion {g : Grid} {f : Asgn g.rows g.cols (maxGroupSize g)}
    (hc : isCompletion g f) : Wit g (aval f) := by
  refine ⟨?_, hc.2.1, ?_⟩
  · intro r c w hr hcl hv
    have h1 := hc.1 ⟨r, hr⟩ ⟨c, hcl⟩
    dsimp only at h1
    rw [hv, Option.getD_some] at h1
    exact h1.symm
  · intro p q hp1 hp2 hq1 hq2 hadj
    exact hc.2.2 ⟨p.1, hp1⟩ ⟨q.1, hq1⟩ ⟨p.2, hp2⟩ ⟨q.2, hq2⟩ hadj

theorem Wit_setValue {g : Grid} {σ : Pos → Nat} (hw : Wit g σ) (r c : Nat)
    (v : Option Nat) (hv : ∀ w, v = some w → σ (r, c) = w) :
    Wit (setValue g r c v) σ := by
  refine ⟨?_, hw.2.1, hw.2.2⟩
  intro r' c' w hr' hc' hval
  by_cases hpp : (r, c) = (r', c')
  · obtain ⟨e1, e2⟩ := Prod.mk.injEq r c r' c' ▸ hpp
    subst e1
    subst e2
    rcases getC_setValue_cases g r c v (r, c) with he | he
    · rw [he] at hval
      exact hw.1 r c w hr' hc' hval
    · rw [he] at hval
      exact hv w hval
  · rw [getC_setValue_ne g hpp] at hval
    exact hw.1 r' c' w hr' hc' hval

theorem removeCluesLoop_ok (σ : Pos → Nat) (d m : Nat) :
    ∀ (l : List Pos) (g : Grid) (cnt : Nat), WF g → Wit g σ →
      ∃ res, removeCluesLoop d m l g cnt = .ok res ∧ WF res.1 ∧ Wit res.1 σ := by
  intro l
  induction l with
  | nil =>
    intro g cnt hwf hw
    exact ⟨(g, cnt), rfl, hwf, hw⟩
  | cons p rest ih =>
    intro g cnt hwf hw
    have hred : removeCluesLoop d m (p :: rest) g cnt =
        (if m ≤ cnt then Except.ok (g, cnt)
         else (solve (clone (setValue g p.1 p.2 none)) d) >>= (fun result =>
           if result.solved ∧ hasUniqueSolution (setValue g p.1 p.2 none) then
             removeCluesLoop d m rest (setValue g p.1 p.2 none) (cnt + 1)
           else
             removeCluesLoop d m rest
               (setValue (setValue g p.1 p.2 none) p.1 p.2
                 ((getC g p.1 p.2).value)) cnt)) := rfl
    by_cases hm : m ≤ cnt
    · refine ⟨(g, cnt), ?_, hwf, hw⟩
      rw [hred, if_pos hm]
    · have hwf' : WF (setValue g p.1 p.2 none) := WF_setValue hwf p.1 p.2 none
      have hw' : Wit (setValue g p.1 p.2 none) σ :=
        Wit_setValue hw p.1 p.2 none (fun w hwv => Option.noConfusion hwv)
      have hwfc : WF (clone (setValue g p.1 p.2 none)) := hwf'
      have hwc : Wit (clone (setValue g p.1 p.2 none)) σ := hw'
      obtain ⟨res, hres⟩ := solve_ok hwfc hwc d
      by_cases hb : res.solved = true ∧
          hasUniqueSolution (setValue g p.1 p.2 none) = true
      · obtain ⟨out, hout, hwfo, hwo⟩ :=
          ih (setValue g p.1 p.2 none) (cnt + 1) hwf' hw'
        refine ⟨out, ?_, hwfo, hwo⟩
        rw [hred, if_neg hm, hres]
        have h2 : ((Except.ok res : Except Contra SolveResult) >>= (fun result =>
            if result.solved ∧ hasUniqueSolution (setValue g p.1 p.2 none) then
              removeCluesLoop d m rest (setValue g p.1 p.2 none) (cnt + 1)
            else
              removeCluesLoop d m rest
                (setValue (setValue g p.1 p.2 none) p.1 p.2
                  ((getC g p.1 p.2).value)) cnt)) =
            (if res.solved ∧ hasUniqueSolution (setValue g p.1 p.2 none) then
              removeCluesLoop d m rest (setValue g p.1 p.2 none) (cnt + 1)
            else
              removeCluesLoop d m rest
                (setValue (setValue g p.1 p.2 none) p.1 p.2
                  ((getC g p.1 p.2).value)) cnt) := rfl
        rw [h2, if_pos hb]
        exact hout
      · obtain ⟨out, hout, hwfo, hwo⟩ := ih g cnt hwf hw
        refine ⟨out, ?_, hwfo, hwo⟩
        rw [hred, if_neg hm, hres]
        have h2 : ((Except.ok res : Except Contra SolveResult) >>= (fun result =>
            if result.solved ∧ hasUniqueSolution (setValue g p.1 p.2 none) then
              removeCluesLoop d m rest (setValue g p.1 p.2 none) (cnt + 1)
            else
              removeCluesLoop d m rest
                (setValue (setValue g p.1 p.2 none) p.1 p.2
                  ((getC g p.1 p.2).value)) cnt)) =
            (if res.solved ∧ hasUniqueSolution (setValue g p.1 p.2 none) then
              removeCluesLoop d m rest (setValue g p.1 p.2 none) (cnt + 1)
            else
              removeCluesLoop d m rest
                (setValue (setValue g p.1 p.2 none) p.1 p.2
                  ((getC g p.1 p.2).value)) cnt) := rfl
        rw [h2, if_neg hb, setValue_restore g p.1 p.2]
        exact hout

theorem removeClues_eq (g sol : Grid) (d : Nat) (pct : ℚ) (rand : List Nat) :
    removeClues g sol d pct rand =
      (removeCluesLoop d
        (((((shuffleWith rand ((allPositions g.rows g.cols).filter
            (fun p => (getC g p.1 p.2).value ≠ none))).1.length : Int) *
            pct.num).fdiv (pct.den : Int)).toNat)
        (shuffleWith rand ((allPositions g.rows g.cols).filter
          (fun p => (getC g p.1 p.2).value ≠ none))).1 g 0) >>=
      (fun x => Except.ok (x.1,
        (shuffleWith rand ((allPositions g.rows g.cols).filter
          (fun p => (getC g p.1 p.2).value ≠ none))).2)) := rfl

theorem removeClues_ok {g : Grid} {σ : Pos → Nat} (hwf : WF g) (hw : Wit g σ)
    (sol : Grid) (d : Nat) (pct : ℚ) (rand : List Nat) :
    ∃ out, removeClues g sol d pct rand = .ok out ∧ WF out.1 ∧ Wit out.1 σ := by
  obtain ⟨res, hres, hwfr, hwr⟩ := removeCluesLoop_ok σ d
    (((((shuffleWith rand ((allPositions g.rows g.cols).filter
        (fun p => (getC g p.1 p.2).value ≠ none))).1.length : Int) *
        pct.num).fdiv (pct.den : Int)).toNat)
    (shuffleWith rand ((allPositions g.rows g.cols).filter
      (fun p => (getC g p.1 p.2).value ≠ none))).1 g 0 hwf hw
  refine ⟨(res.1,
    (shuffleWith rand ((allPositions g.rows g.cols).filter
      (fun p => (getC g p.1 p.2).value ≠ none))).2), ?_, hwfr, hwr⟩
  rw [removeClues_eq, hres]
  rfl

theorem rate_ok {g : Grid} {σ : Pos → Nat} (hwf : WF g) (hw : Wit g σ) :
    ∃ n, rate g = .ok n := by
  obtain ⟨r1, h1⟩ := solve_ok hwf hw 1
  obtain ⟨r2, h2⟩ := solve_ok hwf hw 2
  obtain ⟨r3, h3⟩ := solve_ok hwf hw 3
  obtain ⟨r4, h4⟩ := solve_ok hwf hw 4
  have hred : rate g = (solve g 1) >>= (fun r1 =>
      if r1.solved then Except.ok 1 else (solve g 2) >>= (fun r2 =>
      if r2.solved then Except.ok 2 else (solve g 3) >>= (fun r3 =>
      if r3.solved then Except.ok 3 else (solve g 4) >>= (fun r4 =>
      if r4.solved then Except.ok 4 else Except.ok 4)))) := rfl
  rw [hred, h1, h2, h3, h4]
  dsimp only [bind, Except.bind]
  by_cases hb1 : r1.solved = true
  · exact ⟨1, by simp [hb1]⟩
  · by_cases hb2 : r2.solved = true
    · exact ⟨2, by simp [hb1, hb2]⟩
    · by_cases hb3 : r3.solved = true
      · exact ⟨3, by simp [hb1, hb2, hb3]⟩
      · exact ⟨4, by simp [hb1, hb2, hb3]⟩

theorem shuffleGo_subset {A : Type} :
    ∀ (n : Nat) (rand : List Nat) (l : List A) (a : A),
      a ∈ (shuffleGo n rand l).1 → a ∈ l := by
  intro n
  induction n with
  | zero =>
    intro rand l a ha
    cases l with
    | nil => exact absurd ha (List.not_mem_nil a)
    | cons x xs => exact absurd ha (List.not_mem_nil a)
  | succ n ih =>
    intro rand l a ha
    cases l with
    | nil => exact absurd ha (List.not_mem_nil a)
    | cons x xs =>
      have haor : a = (x :: xs).getD (rand.headD 0 % (x :: xs).length) x ∨
          a ∈ (shuffleGo n rand.tail
            ((x :: xs).eraseIdx (rand.headD 0 % (x :: xs).length))).1 :=
        List.mem_cons.mp ha
      rcases haor with rfl | hmem
      · exact getD_mem (x :: xs) x (Nat.mod_lt _ (Nat.succ_pos xs.length))
      · exact (List.eraseIdx_sublist (x :: xs)
          (rand.headD 0 % (x :: xs).length)).subset (ih rand.tail _ a hmem)

/-! Chunk K: `build_cells` produces a well-formed board with no assigned
value, and the recursive fill only ever assigns legal candidates, so a
successful fill is a complete valid board. -/

theorem nodup_firstOccurAux :
    ∀ (l acc : List Nat), acc.Nodup →
      (l.foldl (fun acc x => if x ∈ acc then acc else acc ++ [x]) acc).Nodup := by
  intro l
  induction l with
  | nil => intro acc h; exact h
  | cons a l ih =>
    intro acc h
    simp only [List.foldl_cons]
    by_cases ha : a ∈ acc
    · rw [if_pos ha]
      exact ih acc h
    · rw [if_neg ha]
      exact ih (acc ++ [a]) (by simp [List.nodup_append, h, ha])

theorem nodup_firstOccur (l : List Nat) : (firstOccur l).Nodup :=
  nodup_firstOccurAux l [] List.nodup_nil

theorem mem_firstOccurAux :
    ∀ (l acc : List Nat) (x : Nat),
      (x ∈ l.foldl (fun acc x => if x ∈ acc then acc else acc ++ [x]) acc ↔
        x ∈ acc ∨ x ∈ l) := by
  intro l
  induction l with
  | nil =>
    intro acc x
    simp
  | cons a l ih =>
    intro acc x
    simp only [List.foldl_cons]
    by_cases ha : a ∈ acc
    · rw [if_pos ha, ih]
      constructor
      · rintro (h | h)
        · exact Or.inl h
        · exact Or.inr (List.mem_cons_of_mem a h)
      · rintro (h | h)
        · exact Or.inl h
        · rcases List.mem_cons.mp h with rfl | h
          · exact Or.inl ha
          · exact Or.inr h
    · rw [if_neg ha, ih]
      simp only [List.mem_append, List.mem_singleton, List.mem_cons]
      tauto

theorem mem_firstOccur {l : List Nat} {x : Nat} : x ∈ firstOccur l ↔ x ∈ l := by
  unfold firstOccur
  rw [mem_firstOccurAux]
  simp

theorem getC_buildCells (rows cols : Nat) (gm : List (List Nat)) {r c : Nat}
    (hr : r < rows) (hc : c < cols) :
    getC (buildCells rows cols gm) r c =
      Cell.mk r c none ∅ ((gm.getD r []).getD c 0) := by
  show ((((List.range rows).map (fun r => (List.range cols).map (fun c =>
      Cell.mk r c none ∅ ((gm.getD r []).getD c 0)))).getD r []).getD c
      defaultCell) = _
  rw [getD_map_range _ rows r [] hr, getD_map_range _ cols c defaultCell hc]

theorem nodup_map_of_id {L : List Nat} (F : Nat → Group)
    (hF : ∀ x, (F x).id = x) (hL : L.Nodup) :
    ((L.map F).map Group.id).Nodup := by
  rw [List.map_map]
  have he : (Group.id ∘ F) = fun x => x := funext hF
  rw [he, List.map_id']
  exact hL

theorem buildCells_WF (rows cols : Nat) (gm : List (List Nat)) :
    WF (buildCells rows cols gm) := by
  constructor
  · constructor
    · show ((List.range rows).map _).length = rows
      rw [List.length_map, List.length_range]
    · intro row hrow
      rcases List.mem_map.mp hrow with ⟨r, _, hr⟩
      rw [← hr, List.length_map, List.length_range]
      rfl
  · refine ⟨?_, ?_, ?_⟩
    · intro grp hgrp
      rcases List.mem_map.mp hgrp with ⟨gid, hgid, hg⟩
      subst hg
      refine ⟨rfl, (nodup_allPositions rows cols).filter _, ?_⟩
      intro p hp
      have hmem := List.mem_filter.mp hp
      have hpb := mem_allPositions.mp hmem.1
      have hm2 := hmem.2
      have hgidp := of_decide_eq_true hm2
      refine ⟨hpb, ?_⟩
      show (getC (buildCells rows cols gm) p.1 p.2).group_id = gid
      rw [getC_buildCells rows cols gm hpb.1 hpb.2]
      exact hgidp
    · exact nodup_map_of_id _ (fun x => rfl) (nodup_firstOccur _)
    · intro i j
      have hib : i.val < rows := i.isLt
      have hjb : j.val < cols := j.isLt
      have hgc := getC_buildCells rows cols gm hib hjb
      refine ⟨Group.mk ((gm.getD i.val []).getD j.val 0)
        ((allPositions rows cols).filter
          (fun p => (gm.getD p.1 []).getD p.2 0 =
            (gm.getD i.val []).getD j.val 0)).length
        ((allPositions rows cols).filter
          (fun p => (gm.getD p.1 []).getD p.2 0 =
            (gm.getD i.val []).getD j.val 0)), ?_, ?_, ?_⟩
      · apply List.mem_map.mpr
        refine ⟨(gm.getD i.val []).getD j.val 0, ?_, rfl⟩
        apply mem_firstOccur.mpr
        apply List.mem_map.mpr
        exact ⟨(i.val, j.val), mem_allPositions.mpr ⟨hib, hjb⟩, rfl⟩
      · rw [hgc]
      · apply List.mem_filter.mpr
        exact ⟨mem_allPositions.mpr ⟨hib, hjb⟩, by simp⟩

theorem buildCells_validAssigned (rows cols : Nat) (gm : List (List Nat)) :
    validAssigned (buildCells rows cols gm) := by
  have hwf := buildCells_WF rows cols gm
  constructor
  · intro grp hgrp
    have hnil : grp.cells.filterMap
        (fun p => (getC (buildCells rows cols gm) p.1 p.2).value) = [] := by
      rw [List.filterMap_eq_nil_iff]
      intro p hp
      have hpb := ((hwf.2.1 grp hgrp).2.2 p hp).1
      rw [getC_buildCells rows cols gm hpb.1 hpb.2]
    rw [hnil]
    exact List.nodup_nil
  · intro i j
    left
    rw [getC_buildCells rows cols gm i.isLt j.isLt]

theorem fillTry_sound (rec : Grid → FillSt → Except FillSt (Bool × Grid × FillSt))
    (hrec : ∀ (g0 : Grid) (st0 : FillSt), WF g0 → validAssigned g0 →
      ∀ ok g0' st0', rec g0 st0 = .ok (ok, g0', st0') → ok = true →
        WF g0' ∧ validAssigned g0' ∧ isComplete g0' = true)
    {g : Grid} (hwf : WF g) (hva : validAssigned g) {r c : Nat}
    (hr : r < g.rows) (hc : c < g.cols) (hempty : (getC g r c).value = none) :
    ∀ (l : List Nat) (st : FillSt),
      (∀ v ∈ l, v ∈ getCandidatesForCell g r c) →
      ∀ ok g' st', fillTry rec g r c l st = .ok (ok, g', st') → ok = true →
        WF g' ∧ validAssigned g' ∧ isComplete g' = true := by
  intro l
  induction l with
  | nil =>
    intro st _ ok g' st' h hok
    have h2 : (Except.ok (false, g, st) :
        Except FillSt (Bool × Grid × FillSt)) = .ok (ok, g', st') := h
    injection h2 with h3
    have hfst : false = ok := congrArg Prod.fst h3
    rw [hok] at hfst
    exact Bool.noConfusion hfst
  | cons v vs ih =>
    intro st hsub ok g' st' h hok
    have hred : fillTry rec g r c (v :: vs) st =
        (rec (setValue g r c (some v)) st) >>= (fun x =>
          if x.1 = true then Except.ok (true, x.2.1, x.2.2)
          else fillTry rec g r c vs x.2.2) := rfl
    rw [hred] at h
    cases hcall : rec (setValue g r c (some v)) st with
    | error e =>
      rw [hcall] at h
      have h2 : (Except.error e : Except FillSt (Bool × Grid × FillSt)) =
          .ok (ok, g', st') := h
      exact Except.noConfusion h2
    | ok x =>
      obtain ⟨ok1, g1, st1⟩ := x
      rw [hcall] at h
      have h2 : (if ok1 = true then
          (Except.ok (true, g1, st1) : Except FillSt (Bool × Grid × FillSt))
          else fillTry rec g r c vs st1) = .ok (ok, g', st') := h
      by_cases hb : ok1 = true
      · rw [if_pos hb] at h2
        injection h2 with h3
        have hg1 : g1 = g' := congrArg (fun y => y.2.1) h3
        rw [← hg1]
        exact hrec (setValue g r c (some v)) st (WF_setValue hwf r c (some v))
          (validAssigned_setValue hwf hva hr hc hempty
            (hsub v (List.mem_cons_self v vs)))
          ok1 g1 st1 hcall hb
      · rw [if_neg hb] at h2
        exact ih st1 (fun u hu => hsub u (List.mem_cons_of_mem v hu))
          ok g' st' h2 hok

theorem fillRec_sound : ∀ (fuel : Nat) (g : Grid) (st : FillSt),
    WF g → validAssigned g →
    ∀ ok g' st', fillRec fuel g st = .ok (ok, g', st') → ok = true →
      WF g' ∧ validAssigned g' ∧ isComplete g' = true := by
  intro fuel
  induction fuel with
  | zero =>
    intro g st hwf hva ok g' st' h hok
    have h2 : (Except.ok (false, g, st) :
        Except FillSt (Bool × Grid × FillSt)) = .ok (ok, g', st') := h
    injection h2 with h3
    have hfst : false = ok := congrArg Prod.fst h3
    rw [hok] at hfst
    exact Bool.noConfusion hfst
  | succ fuel ih =>
    intro g st hwf hva ok g' st' h hok
    simp only [fillRec] at h
    cases hbest : findBestEmptyCell g with
    | none =>
      rw [hbest] at h
      have h2 : (Except.ok (true, g, st) :
          Except FillSt (Bool × Grid × FillSt)) = .ok (ok, g', st') := h
      injection h2 with h3
      have hg1 : g = g' := congrArg (fun y => y.2.1) h3
      rw [← hg1]
      exact ⟨hwf, hva, findBestEmptyCell_none hbest⟩
    | some p =>
      obtain ⟨r, c⟩ := p
      rw [hbest] at h
      obtain ⟨⟨hr, hc⟩, hempty⟩ := findBestEmptyCell_some hbest
      have h2 : (if getCandidatesForCell g r c = ∅ then
          (if 100 < st.2 + 1 then
            (Except.error (st.1, st.2 + 1) :
              Except FillSt (Bool × Grid × FillSt))
           else Except.ok (false, g, (st.1, st.2 + 1)))
         else
          fillTry (fun g' st' => fillRec fuel g' st') g r c
            (shuffleWith st.1 (ascList (getCandidatesForCell g r c))).1
            ((shuffleWith st.1 (ascList (getCandidatesForCell g r c))).2,
              st.2)) = .ok (ok, g', st') := h
      by_cases hcand : getCandidatesForCell g r c = ∅
      · rw [if_pos hcand] at h2
        by_cases htm : 100 < st.2 + 1
        · rw [if_pos htm] at h2
          exact Except.noConfusion h2
        · rw [if_neg htm] at h2
          injection h2 with h3
          have hfst : false = ok := congrArg Prod.fst h3
          rw [hok] at hfst
          exact Bool.noConfusion hfst
      · rw [if_neg hcand] at h2
        exact fillTry_sound (fun g' st' => fillRec fuel g' st') ih
          hwf hva hr hc hempty
          (shuffleWith st.1 (ascList (getCandidatesForCell g r c))).1
          ((shuffleWith st.1 (ascList (getCandidatesForCell g r c))).2, st.2)
          (fun v hv => mem_ascList.mp (shuffleGo_subset _ _ _ v hv))
          ok g' st' h2 hok

theorem fillGrid_sound {g : Grid} (hwf : WF g) (hva : validAssigned g)
    {g' : Grid} {rand rand' : List Nat}
    (h : fillGrid g rand = (true, g', rand')) :
    WF g' ∧ validAssigned g' ∧ isComplete g' = true := by
  unfold fillGrid at h
  cases hr : fillRec (numEmpty g + 1) g (rand, 0) with
  | error st =>
    rw [hr] at h
    have hfst : false = true := congrArg Prod.fst h
    exact Bool.noConfusion hfst
  | ok res =>
    obtain ⟨ok1, g1, st1⟩ := res
    rw [hr] at h
    have h1 : ok1 = true := congrArg Prod.fst h
    have h2 : g1 = g' := congrArg (fun x => x.2.1) h
    rw [← h2]
    exact fillRec_sound (numEmpty g + 1) g (rand, 0) hwf hva ok1 g1 st1 hr h1

/-! Chunk L: every attempt of the generation pipeline finishes in `.ok` —
the board handed to `_remove_clues` and `rate` always extends to a full valid
solution, so the solver never raises — and the attempt budget recursion
therefore always returns an ordinary value. -/

theorem generateAttempts_ok (rows cols D : Nat) (pct : ℚ) (mx mn : Nat) :
    ∀ (n : Nat) (rand : List Nat),
      ∃ og, generateAttempts rows cols D pct mx mn n rand = .ok og := by
  intro n
  induction n with
  | zero =>
    intro rand
    exact ⟨none, rfl⟩
  | succ n ih =>
    intro rand
    rcases hgg : ggGenerate mn mx rows cols rand with ⟨lay, rand1⟩
    cases lay with
    | none =>
      obtain ⟨og, hog⟩ := ih rand1
      refine ⟨og, ?_⟩
      simp only [generateAttempts]
      rw [hgg]
      exact hog
    | some layout =>
      rcases hfill : fillGrid (buildCells rows cols layout) rand1 with
        ⟨ok1, grid1, rand2⟩
      cases ok1 with
      | false =>
        obtain ⟨og, hog⟩ := ih rand2
        refine ⟨og, ?_⟩
        simp only [generateAttempts]
        rw [hgg]
        dsimp only
        rw [hfill]
        exact hog
      | true =>
        obtain ⟨hwf1, hva1, hcomp1⟩ := fillGrid_sound
          (buildCells_WF rows cols layout)
          (buildCells_validAssigned rows cols layout) hfill
        have hwit1 : Wit grid1 (aval (gridAsgn grid1)) :=
          Wit_of_isCompletion (gridAsgn_isCompletion hwf1 hva1 hcomp1)
        have hwf1' : WF { grid1 with solution := some (clone grid1).cells } :=
          hwf1
        have hwit1' : Wit { grid1 with solution := some (clone grid1).cells }
            (aval (gridAsgn grid1)) := hwit1
        obtain ⟨out, hrc, hwf2, hwit2⟩ :=
          removeClues_ok hwf1' hwit1' (clone grid1) D pct rand2
        obtain ⟨g2, rand3⟩ := out
        have hwf2' : WF g2 := hwf2
        have hwit2' : Wit g2 (aval (gridAsgn grid1)) := hwit2
        obtain ⟨lvl, hrate⟩ := rate_ok hwf2' hwit2'
        by_cases hlv : lvl = D
        · refine ⟨some g2, ?_⟩
          simp only [generateAttempts]
          rw [hgg]
          dsimp only
          rw [hfill]
          dsimp only [bind, Except.bind]
          rw [hrc]
          dsimp only
          rw [hrate]
          dsimp only
          rw [if_pos hlv]
        · obtain ⟨og, hog⟩ := ih rand3
          refine ⟨og, ?_⟩
          simp only [generateAttempts]
          rw [hgg]
          dsimp only
          rw [hfill]
          dsimp only [bind, Except.bind]
          rw [hrc]
          dsimp only
          rw [hrate]
          dsimp only
          rw [if_neg hlv]
          exact hog

/-- C6: `Generator.generate` makes at most 25 attempts — it is definitionally
the 25-attempt budget runner — and on every input and random stream it
returns an ordinary value (`.ok`) rather than raising an exception; the
exhausted-budget outcome (`generateAttempts` at budget 0) is the explicit
`none` ("no puzzle produced"), the only externally visible failure
condition. -/
theorem generate_no_exception (rows cols D : Nat) (pct : ℚ) (mx mn : Nat)
    (rand : List Nat) :
    (∃ og, generate rows cols D pct mx mn rand = .ok og) ∧
    generate rows cols D pct mx mn rand =
      generateAttempts rows cols D pct mx mn 25 rand ∧
    (∀ r0 : List Nat,
      generateAttempts rows cols D pct mx mn 0 r0 = .ok none) :=
  ⟨generateAttempts_ok rows cols D pct mx mn 25 rand, rfl, fun _ => rfl⟩

end Suguru
